import Mathlib

/-!
# Pseudospectral collocation transcription: layout, differentiation, constraint blocks

A shallow embedding of the C++ headers under `src/app/src/main/cpp`:

* `variable_getter.h`      : `TrajOpt.VariableGetter`
* `lagrange_derivatives.h` : `TrajOpt.LagrangeDerivatives`
* the constraint blocks    : `TrajOpt.CollocationConstraints` and friends

Conventions of the embedding.

* `Index` is `Nat`; the template sizes `n_x n_u n_c n_w` are the fields of `Dims`.
* `Scalar` is an arbitrary field `α` (exact arithmetic); the trigonometric functions the
  dynamics need are passed in as functions `α → α`.
* A raw pointer is a buffer `Nat → α` indexed from the pointed-to element; an Eigen view on
  it (`Map`, `middleRows`, `topRows`, `col`, ...) is a `MatView`, that is, a base offset, a
  shape and the column stride of the column-major storage.
* An Eigen assignment `dst = expr` is the loop over columns and rows that stores
  `expr(r, c)` at the offset of `dst(r, c)`.
* A block's `operator()(g, x, lagrange_derivatives)` takes the output memory `out`, the
  cursor `g` into it, the decision buffer `x` and the derivative cache, and returns the
  updated output memory together with the advanced cursor.
-/

namespace TrajOpt

/-- The template sizes: state size, control size, collocation points, waypoints. -/
structure Dims where
  n_x : Nat
  n_u : Nat
  n_c : Nat
  n_w : Nat
deriving DecidableEq

/-- A column-major view into a flat buffer: element `(r, c)` lives at
`off + r + outer * c`. -/
structure MatView where
  off : Nat
  rows : Nat
  cols : Nat
  outer : Nat
deriving DecidableEq

namespace MatView

/-- Buffer offset of element `(r, c)` of the view. -/
def idx (v : MatView) (r c : Nat) : Nat := v.off + r + v.outer * c

/-- The view `Eigen::Map<Matrix<Scalar, rows, cols>>(ptr)`: contiguous column-major. -/
def map (ptr rows cols : Nat) : MatView := ⟨ptr, rows, cols, rows⟩

/-- The pointer `.data()` to the first element of the view. -/
def data (v : MatView) : Nat := v.off

/-- Block `middleRows<n>(start)`. -/
def middleRows (v : MatView) (start n : Nat) : MatView := ⟨v.off + start, n, v.cols, v.outer⟩

/-- Block `topRows<n>()`. -/
def topRows (v : MatView) (n : Nat) : MatView := ⟨v.off, n, v.cols, v.outer⟩

/-- Block `bottomRows<n>()`: it starts at row `rows - n`. -/
def bottomRows (v : MatView) (n : Nat) : MatView :=
  ⟨v.off + (v.rows - n), n, v.cols, v.outer⟩

/-- Block `col(j)`. -/
def col (v : MatView) (j : Nat) : MatView := ⟨v.off + v.outer * j, v.rows, 1, v.outer⟩

/-- Block `row(i)`. -/
def row (v : MatView) (i : Nat) : MatView := ⟨v.off + i, 1, v.cols, v.outer⟩

/-- Block `leftCols<n>()`. -/
def leftCols (v : MatView) (n : Nat) : MatView := ⟨v.off, v.rows, n, v.outer⟩

/-- Block `rightCols<n>()`: it starts at column `cols - n`. -/
def rightCols (v : MatView) (n : Nat) : MatView :=
  ⟨v.off + v.outer * (v.cols - n), v.rows, n, v.outer⟩

/-- Read element `(r, c)` of the view from the buffer `x`. -/
def read {α : Type} (v : MatView) (x : Nat → α) (r c : Nat) : α := x (v.idx r c)

/-- A coefficient of an Eigen matrix product: the terms `f 0, ..., f (n-1)` accumulated in
index order, `res = f 0` and then `res = res + f i`; `0` for an empty range. -/
def sumLoop {α : Type} [Zero α] [Add α] (f : Nat → α) : Nat → α
  | 0 => 0
  | 1 => f 0
  | n + 2 => sumLoop f (n + 1) + f (n + 1)

/-- Inner loop of an assignment: rows `0 .. n-1` of column `c`. -/
def assignRows {α : Type} (v : MatView) (e : Nat → Nat → α) (c : Nat) :
    Nat → (Nat → α) → (Nat → α)
  | 0, g => g
  | r + 1, g => Function.update (assignRows v e c r g) (v.idx r c) (e r c)

/-- Outer loop of an assignment: columns `0 .. n-1`. -/
def assignCols {α : Type} (v : MatView) (e : Nat → Nat → α) :
    Nat → (Nat → α) → (Nat → α)
  | 0, g => g
  | c + 1, g => assignRows v e c v.rows (assignCols v e c g)

/-- The Eigen assignment `v = e` into the buffer `g`. -/
def assign {α : Type} (v : MatView) (g : Nat → α) (e : Nat → Nat → α) : Nat → α :=
  assignCols v e v.cols g

end MatView

/-! ## `variable_getter.h` -/

namespace VariableGetter

/-- Private `asMatrix`: the states and controls as a `(n_x+n_u)*n_c` by `n_w` matrix. -/
def asMatrix (d : Dims) : MatView := MatView.map 0 ((d.n_x + d.n_u) * d.n_c) d.n_w

/-- The constant `n_vars`. -/
def n_vars (d : Dims) : Nat := ((d.n_x + d.n_u) * d.n_c + 1) * d.n_w

/-- All states and controls at collocation point `i_c`: `(n_x+n_u)` by `n_w`. -/
def varsAtCollocationPoint (d : Dims) (i_c : Nat) : MatView :=
  (asMatrix d).middleRows ((d.n_x + d.n_u) * i_c) (d.n_x + d.n_u)

/-- All states at collocation point `i_c`: `n_x` by `n_w`. -/
def statesAtCollocationPoint (d : Dims) (i_c : Nat) : MatView :=
  (varsAtCollocationPoint d i_c).topRows d.n_x

/-- The state at collocation point `i_c` and waypoint `i_w`: `n_x` by `1`. -/
def state (d : Dims) (i_c i_w : Nat) : MatView :=
  (statesAtCollocationPoint d i_c).col i_w

/-- All controls at collocation point `i_c`: `n_u` by `n_w`. -/
def controlsAtCollocationPoint (d : Dims) (i_c : Nat) : MatView :=
  (varsAtCollocationPoint d i_c).bottomRows d.n_u

/-- The control at collocation point `i_c` and waypoint `i_w`: `n_u` by `1`. -/
def control (d : Dims) (i_c i_w : Nat) : MatView :=
  (controlsAtCollocationPoint d i_c).col i_w

/-- All states and controls at waypoint `i_w`: `(n_x+n_u)` by `n_c`, mapped on the data of
column `i_w` of `asMatrix`. -/
def varsAtWaypoint (d : Dims) (i_w : Nat) : MatView :=
  MatView.map ((asMatrix d).col i_w).data (d.n_x + d.n_u) d.n_c

/-- All states at waypoint `i_w`: `n_x` by `n_c`. -/
def statesAtWaypoint (d : Dims) (i_w : Nat) : MatView :=
  (varsAtWaypoint d i_w).topRows d.n_x

/-- All controls at waypoint `i_w`: `n_u` by `n_c`. -/
def controlsAtWaypoint (d : Dims) (i_w : Nat) : MatView :=
  (varsAtWaypoint d i_w).bottomRows d.n_u

/-- The times: `1` by `n_w`, mapped at `raw_ptr + (n_x+n_u)*n_c*n_w`. -/
def times (d : Dims) : MatView := MatView.map ((d.n_x + d.n_u) * d.n_c * d.n_w) 1 d.n_w

/-- The three families of scalar accessors of the buffer. -/
inductive Slot where
  | state (i_c i_w k : Nat)
  | control (i_c i_w k : Nat)
  | times (i : Nat)
deriving DecidableEq

/-- The indices of a slot are in range. -/
def Slot.valid (d : Dims) : Slot → Prop
  | .state i_c i_w k => i_c < d.n_c ∧ i_w < d.n_w ∧ k < d.n_x
  | .control i_c i_w k => i_c < d.n_c ∧ i_w < d.n_w ∧ k < d.n_u
  | .times i => i < d.n_w

instance (d : Dims) (s : Slot) : Decidable (s.valid d) := by
  cases s <;> unfold Slot.valid <;> infer_instance

/-- The buffer offset a slot addresses: `state(i_c,i_w)[k]`, `control(i_c,i_w)[k]`,
`times[i]`. -/
def Slot.offset (d : Dims) : Slot → Nat
  | .state i_c i_w k => (VariableGetter.state d i_c i_w).idx k 0
  | .control i_c i_w k => (VariableGetter.control d i_c i_w).idx k 0
  | .times i => (VariableGetter.times d).idx 0 i

end VariableGetter

/-! ## `lagrange_derivatives.h` -/

/-- The class `LagrangeDerivatives`: the `n_c` by `n_c` matrix `derivative_coefficients`
and the matrix `derivatives`, whose column `i` (a buffer of `n_vars` scalars) holds the
`(i+1)`-th derivatives. -/
structure LagrangeDerivatives (α : Type) where
  derivative_coefficients : Nat → Nat → α
  derivatives : Nat → Nat → α

namespace LagrangeDerivatives

/-- Modelled from the spec: the derivative at `t` of the `j`-th Lagrange basis polynomial
of the nodes `τ 0, ..., τ (n_c - 1)`, that is of `∏ k ≠ j, (t - τ k) / (τ j - τ k)`, by the
product rule. The repository computes it in `utils.h`, which is not among the sources. -/
def lagrangeBasisDerivative {α : Type} [Field α] (n_c : Nat) (τ : Nat → α) (j : Nat)
    (t : α) : α :=
  ∑ m ∈ (Finset.range n_c).erase j,
    (∏ k ∈ ((Finset.range n_c).erase j).erase m, (τ j - τ k)⁻¹ * (t - τ k)) * (τ j - τ m)⁻¹

/-- Modelled from the spec: `lagrangeDerivativeCoefficients` of `utils.h` (not among the
sources), the Lagrange differentiation matrix of the node set. Entry `(j, c)` is the
derivative of the `j`-th basis polynomial at node `c`, the orientation in which the product
`values * derivative_coefficients` of `generate` differentiates every row of node samples. -/
def lagrangeDerivativeCoefficients {α : Type} [Field α] (n_c : Nat) (τ : Nat → α) :
    Nat → Nat → α :=
  fun j c => lagrangeBasisDerivative n_c τ j (τ c)

/-- The constructor: the coefficients of the collocation points, and a zero matrix. -/
def create {α : Type} [Field α] (d : Dims) (collocation_points : Nat → α) :
    LagrangeDerivatives α :=
  ⟨lagrangeDerivativeCoefficients d.n_c collocation_points, fun _ _ => 0⟩

/-- What the local pointer `x` of `generate` points at: the argument `x0`, or column `i`
of `derivatives`. -/
inductive Src where
  | input
  | column (i : Nat)
deriving DecidableEq

/-- Dereference the local pointer `x` of `generate`. -/
def deref {α : Type} (x0 : Nat → α) (der : Nat → Nat → α) : Src → (Nat → α)
  | .input => x0
  | .column i => der i

/-- The inner loop of `generate` over the waypoints `0 .. n-1`:
`varsAtWaypoint(dx, i_w) = varsAtWaypoint(x, i_w) * derivative_coefficients / times(x)(i_w)`. -/
def generateWaypoints {α : Type} [Zero α] [Add α] [Mul α] [Div α] (d : Dims) (D : Nat → Nat → α)
    (x : Nat → α) :
    Nat → (Nat → α) → (Nat → α)
  | 0, dx => dx
  | i_w + 1, dx =>
    (VariableGetter.varsAtWaypoint d i_w).assign (generateWaypoints d D x i_w dx)
      (fun r c =>
        MatView.sumLoop (fun j => (VariableGetter.varsAtWaypoint d i_w).read x r j * D j c)
            d.n_c
          / (VariableGetter.times d).read x 0 i_w)

/-- The outer loop of `generate` over the derivative orders `i = 0 .. n-1`; the state is
the pointer `x` and the matrix `derivatives`. -/
def generateLoop {α : Type} [Zero α] [Add α] [Mul α] [Div α] (d : Dims) (D : Nat → Nat → α)
    (x0 : Nat → α) :
    Nat → Src × (Nat → Nat → α) → Src × (Nat → Nat → α)
  | 0, s => s
  | i + 1, s =>
    let s1 := generateLoop d D x0 i s
    let x := deref x0 s1.2 s1.1
    (Src.column i, Function.update s1.2 i (generateWaypoints d D x d.n_w (s1.2 i)))

/-- The member `generate<up_to_derivative>(x0)`. -/
def generate {α : Type} [Zero α] [Add α] [Mul α] [Div α] (d : Dims) (up_to_derivative : Nat)
    (self : LagrangeDerivatives α) (x0 : Nat → α) : LagrangeDerivatives α :=
  { self with
    derivatives :=
      (generateLoop d self.derivative_coefficients x0 up_to_derivative
        (Src.input, self.derivatives)).2 }

/-- The member `get<degree>()`: the data of column `degree - 1`. -/
def get {α : Type} (self : LagrangeDerivatives α) (degree : Nat) : Nat → α :=
  self.derivatives (degree - 1)

/-- The two static assertions of `get<degree>()`, on integer template arguments:
`degree >= 0` and `degree <= max_derivatives`. -/
def getAccepts (max_derivatives degree : Int) : Bool :=
  decide (degree ≥ 0) && decide (degree ≤ max_derivatives)

/-- The column index `degree - 1` that `get<degree>()` passes to `derivatives.col`. -/
def getColumn (degree : Int) : Int := degree - 1

end LagrangeDerivatives

/-! ## `collocation_constraints.h` -/

namespace CollocationConstraints

/-- The declared number of constraints. -/
def n_constraints (d : Dims) : Nat := (d.n_x + d.n_u) * (d.n_w - 1)

/-- The declared derivative order. -/
def derivatives : Nat := 0

/-- The member `operator()(g, x, lagrange_derivatives)`. -/
def call {α : Type} [Sub α] (d : Dims) (out : Nat → α) (g : Nat) (x : Nat → α)
    (_lagrange_derivatives : LagrangeDerivatives α) : (Nat → α) × Nat :=
  let c_0 := VariableGetter.varsAtCollocationPoint d 0
  let c_end := VariableGetter.varsAtCollocationPoint d (d.n_c - 1)
  let G := MatView.map g (d.n_x + d.n_u) (d.n_w - 1)
  (G.assign out (fun r c =>
      (c_0.rightCols (d.n_w - 1)).read x r c - (c_end.leftCols (d.n_w - 1)).read x r c),
    g + n_constraints d)

end CollocationConstraints

/-! ## `control_rate_constraints.h` -/

/-- The data members of `ControlRateConstraints`. -/
structure ControlRateConstraints (α : Type) where
  lower_bound : Nat → α
  upper_bound : Nat → α

namespace ControlRateConstraints

/-- The declared number of constraints. -/
def n_constraints (d : Dims) : Nat := 2 * d.n_u * d.n_w * d.n_c

/-- The declared derivative order. -/
def derivatives : Nat := 1

/-- The loop of `operator()` over the waypoints `0 .. n-1`; the state is the output memory
and the cursor `g`. -/
def callLoop {α : Type} [Field α] (d : Dims) (self : ControlRateConstraints α)
    (dx : Nat → α) : Nat → (Nat → α) × Nat → (Nat → α) × Nat
  | 0, s => s
  | i_w + 1, s =>
    let s1 := callLoop d self dx i_w s
    let upper := MatView.map s1.2 d.n_u d.n_c
    let out1 := upper.assign s1.1 (fun r c =>
      (VariableGetter.controlsAtWaypoint d i_w).read dx r c - self.upper_bound r)
    let g1 := s1.2 + d.n_u * d.n_c
    let lower := MatView.map g1 d.n_u d.n_c
    let out2 := lower.assign out1 (fun r c =>
      -(VariableGetter.controlsAtWaypoint d i_w).read dx r c + self.lower_bound r)
    (out2, g1 + d.n_u * d.n_c)

/-- The member `operator()(g, x, lagrange_derivatives)`. -/
def call {α : Type} [Field α] (d : Dims) (self : ControlRateConstraints α)
    (out : Nat → α) (g : Nat) (_x : Nat → α)
    (lagrange_derivatives : LagrangeDerivatives α) : (Nat → α) × Nat :=
  let dx := lagrange_derivatives.get 1
  callLoop d self dx d.n_w (out, g)

end ControlRateConstraints

/-! ## `dynamics_constraints.h` -/

namespace DynamicsConstraints

/-- The declared number of constraints. -/
def n_constraints (d : Dims) : Nat := d.n_c * d.n_x * d.n_w

/-- The declared derivative order. -/
def derivatives : Nat := 1

/-- The member `mass`. -/
def mass {α : Type} [Field α] : α := 1.0

/-- The member `gravity`. -/
def gravity {α : Type} [Field α] : α := 9.81

/-- The member `mass_gravity`. -/
def mass_gravity {α : Type} [Field α] : α := mass * gravity

/-- The member `dynamics(x, dx, waypoint_index)`, for `n_x = 6` and `n_u = 4` (its two
static assertions); `out` is the memory `dx` points into, `sin` and `cos` are those of the
scalar type. -/
def dynamics {α : Type} [Field α] (sin cos : α → α) (d : Dims) (x : Nat → α)
    (out : Nat → α) (dx : Nat) (waypoint_index : Nat) : Nat → α :=
  let u := VariableGetter.controlsAtWaypoint d waypoint_index
  let thrust := fun c => (u.row 0).read x 0 c
  let phi := fun c => (u.row 1).read x 0 c
  let theta := fun c => (u.row 2).read x 0 c
  let psi := fun c => (u.row 3).read x 0 c
  let dX := MatView.map dx d.n_x d.n_c
  let out1 := (dX.topRows 3).assign out (fun r c =>
    ((VariableGetter.statesAtWaypoint d waypoint_index).bottomRows 3).read x r c)
  let out2 := (dX.row 3).assign out1 (fun _ c =>
    -thrust c * (sin (phi c) * sin (psi c) + cos (phi c) * cos (psi c) * sin (theta c)))
  let out3 := (dX.row 4).assign out2 (fun _ c =>
    thrust c * (cos (psi c) * sin (phi c) - cos (phi c) * sin (psi c) * sin (theta c)))
  (dX.row 5).assign out3 (fun _ c =>
    -thrust c * cos (phi c) * cos (theta c) + mass_gravity)

/-- The loop of `operator()` over the waypoints `0 .. n-1`; the state is the output memory
and the cursor `g`. -/
def callLoop {α : Type} [Field α] (sin cos : α → α) (d : Dims) (x dx : Nat → α) :
    Nat → (Nat → α) × Nat → (Nat → α) × Nat
  | 0, s => s
  | i_w + 1, s =>
    let s1 := callLoop sin cos d x dx i_w s
    let out1 := dynamics sin cos d x s1.1 s1.2 i_w
    let G := MatView.map s1.2 d.n_x d.n_c
    let out2 := G.assign out1 (fun r c =>
      G.read out1 r c - (VariableGetter.statesAtWaypoint d i_w).read dx r c)
    (out2, s1.2 + d.n_x * d.n_c)

/-- The member `operator()(g, x, lagrange_derivatives)`. -/
def call {α : Type} [Field α] (sin cos : α → α) (d : Dims) (out : Nat → α) (g : Nat)
    (x : Nat → α) (lagrange_derivatives : LagrangeDerivatives α) : (Nat → α) × Nat :=
  let dx := lagrange_derivatives.get 1
  callLoop sin cos d x dx d.n_w (out, g)

end DynamicsConstraints

/-! ## `waypoint_constraints.h` -/

/-- The data member of `WaypointConstraints`: the `n_x` by `n_w` matrix `waypoints`. -/
structure WaypointConstraints (α : Type) where
  waypoints : Nat → Nat → α

namespace WaypointConstraints

/-- The declared number of constraints. -/
def n_constraints (d : Dims) : Nat := d.n_x * d.n_w

/-- The declared derivative order. -/
def derivatives : Nat := 0

/-- The member `operator()(g, x, lagrange_derivatives)`. -/
def call {α : Type} [Sub α] (d : Dims) (self : WaypointConstraints α) (out : Nat → α)
    (g : Nat) (x : Nat → α) (_lagrange_derivatives : LagrangeDerivatives α) :
    (Nat → α) × Nat :=
  let G := MatView.map g d.n_x d.n_w
  (G.assign out (fun r c =>
      (VariableGetter.statesAtCollocationPoint d (d.n_c - 1)).read x r c
        - self.waypoints r c),
    g + n_constraints d)

end WaypointConstraints

/-! ## `initial_state_constraints.h` -/

/-- The data member of `InitialStateConstraints`: the vector `initial_state`. -/
structure InitialStateConstraints (α : Type) where
  initial_state : Nat → α

namespace InitialStateConstraints

/-- The declared number of constraints. -/
def n_constraints (d : Dims) : Nat := d.n_x

/-- The declared derivative order. -/
def derivatives : Nat := 0

/-- The member `operator()(g, x, lagrange_derivatives)`. -/
def call {α : Type} [Sub α] (d : Dims) (self : InitialStateConstraints α) (out : Nat → α)
    (g : Nat) (x : Nat → α) (_lagrange_derivatives : LagrangeDerivatives α) :
    (Nat → α) × Nat :=
  let G := MatView.map g d.n_x 1
  (G.assign out (fun r c => (VariableGetter.state d 0 0).read x r c - self.initial_state r),
    g + n_constraints d)

end InitialStateConstraints

/-! ## `smooth_control_constraints.h` -/

namespace SmoothControlConstraints

/-- The declared number of constraints. -/
def n_constraints (d : Dims) : Nat := d.n_u * (d.n_w - 1)

/-- The declared derivative order. -/
def derivatives : Nat := 1

/-- The member `operator()(g, x, lagrange_derivatives)`. -/
def call {α : Type} [Field α] (d : Dims) (out : Nat → α) (g : Nat) (_x : Nat → α)
    (lagrange_derivatives : LagrangeDerivatives α) : (Nat → α) × Nat :=
  let dx := lagrange_derivatives.get 1
  let c_0 := VariableGetter.controlsAtCollocationPoint d 0
  let c_end := VariableGetter.controlsAtCollocationPoint d (d.n_c - 1)
  let G := MatView.map g d.n_u (d.n_w - 1)
  (G.assign out (fun r c =>
      (c_0.rightCols (d.n_w - 1)).read dx r c - (c_end.leftCols (d.n_w - 1)).read dx r c),
    g + n_constraints d)

end SmoothControlConstraints

/-! ## `waypoint_constraint.h` -/

/-- The template parameter `state_index` and the data member `waypoints` (a `1` by `n_w`
matrix) of the single-component `WaypointConstraint`. -/
structure WaypointConstraint (α : Type) where
  state_index : Nat
  waypoints : Nat → α

namespace WaypointConstraint

/-- The declared number of constraints. -/
def n_constraints (d : Dims) : Nat := d.n_w

/-- The declared derivative order. -/
def derivatives : Nat := 0

/-- The member `operator()(g, x, lagrange_derivatives)`. -/
def call {α : Type} [Field α] (d : Dims) (self : WaypointConstraint α) (out : Nat → α)
    (g : Nat) (x : Nat → α) (_lagrange_derivatives : LagrangeDerivatives α) :
    (Nat → α) × Nat :=
  let G := MatView.map g 1 d.n_w
  (G.assign out (fun r c =>
      ((VariableGetter.statesAtCollocationPoint d (d.n_c - 1)).row self.state_index).read
          x r c
        - self.waypoints c),
    g + n_constraints d)

/-- The constructor, for an integer template argument `state_index`: its two static
assertions `state_index >= 0` and `state_index < n_x` reject the instantiation. -/
def create {α : Type} (d : Dims) (state_index : Int) (waypoints : Nat → α) :
    Option (WaypointConstraint α) :=
  if state_index ≥ 0 then
    if state_index < (d.n_x : Int) then some ⟨state_index.toNat, waypoints⟩ else none
  else none

end WaypointConstraint

/-! ## `equality_constraint.h`, `inequality_constraint.h` -/

/-- The loop of `std::fill(first, first + n, v)` on the memory `mem`. -/
def stdFill {β : Type} (mem : Nat → β) (first : Nat) (v : β) : Nat → (Nat → β)
  | 0 => mem
  | n + 1 => Function.update (stdFill mem first v n) (first + n) v

namespace EqualityConstraint

/-- The static member `writeLowerBound(bounds)`: fill with `0.0`, return
`bounds + n_constraints`. -/
def writeLowerBound {β : Type} [Field β] (n_constraints : Nat) (mem : Nat → β)
    (bounds : Nat) : (Nat → β) × Nat :=
  (stdFill mem bounds 0.0 n_constraints, bounds + n_constraints)

/-- The static member `writeUpperBound(bounds)`: fill with `0.0`, return
`bounds + n_constraints`. -/
def writeUpperBound {β : Type} [Field β] (n_constraints : Nat) (mem : Nat → β)
    (bounds : Nat) : (Nat → β) × Nat :=
  (stdFill mem bounds 0.0 n_constraints, bounds + n_constraints)

end EqualityConstraint

namespace InequalityConstraint

/-- The static member `writeLowerBound(bounds)`: fill with `-1e10`, return
`bounds + n_constraints`. -/
def writeLowerBound {β : Type} [Field β] (n_constraints : Nat) (mem : Nat → β)
    (bounds : Nat) : (Nat → β) × Nat :=
  (stdFill mem bounds (-1e10) n_constraints, bounds + n_constraints)

/-- The static member `writeUpperBound(bounds)`: fill with `0.0`, return
`bounds + n_constraints`. -/
def writeUpperBound {β : Type} [Field β] (n_constraints : Nat) (mem : Nat → β)
    (bounds : Nat) : (Nat → β) × Nat :=
  (stdFill mem bounds 0.0 n_constraints, bounds + n_constraints)

end InequalityConstraint

/-! ## The constraint classes a tuple can hold -/

/-- An element of the `Tuple` of `FusedConstraint`: one of the seven constraint classes of
the repository, with its data members. -/
inductive Block (α : Type) where
  | collocation
  | controlRate (self : ControlRateConstraints α)
  | dynamics
  | initialState (self : InitialStateConstraints α)
  | smoothControl
  | waypoints (self : WaypointConstraints α)
  | waypoint (self : WaypointConstraint α)

namespace Block

/-- The static member `n_constraints` of the class. -/
def n_constraints {α : Type} (d : Dims) : Block α → Nat
  | .collocation => CollocationConstraints.n_constraints d
  | .controlRate _ => ControlRateConstraints.n_constraints d
  | .dynamics => DynamicsConstraints.n_constraints d
  | .initialState _ => InitialStateConstraints.n_constraints d
  | .smoothControl => SmoothControlConstraints.n_constraints d
  | .waypoints _ => WaypointConstraints.n_constraints d
  | .waypoint _ => WaypointConstraint.n_constraints d

/-- The static member `derivatives` of the class. -/
def derivatives {α : Type} : Block α → Nat
  | .collocation => CollocationConstraints.derivatives
  | .controlRate _ => ControlRateConstraints.derivatives
  | .dynamics => DynamicsConstraints.derivatives
  | .initialState _ => InitialStateConstraints.derivatives
  | .smoothControl => SmoothControlConstraints.derivatives
  | .waypoints _ => WaypointConstraints.derivatives
  | .waypoint _ => WaypointConstraint.derivatives

/-- The class derives from `InequalityConstraint` (only `ControlRateConstraints` does);
the others derive from `EqualityConstraint`. -/
def isInequality {α : Type} : Block α → Bool
  | .controlRate _ => true
  | _ => false

/-- The static member `writeLowerBound` inherited from the base class. -/
def writeLowerBound {α β : Type} [Field β] (d : Dims) (b : Block α) (mem : Nat → β)
    (bounds : Nat) : (Nat → β) × Nat :=
  if b.isInequality then InequalityConstraint.writeLowerBound (b.n_constraints d) mem bounds
  else EqualityConstraint.writeLowerBound (b.n_constraints d) mem bounds

/-- The static member `writeUpperBound` inherited from the base class. -/
def writeUpperBound {α β : Type} [Field β] (d : Dims) (b : Block α) (mem : Nat → β)
    (bounds : Nat) : (Nat → β) × Nat :=
  if b.isInequality then InequalityConstraint.writeUpperBound (b.n_constraints d) mem bounds
  else EqualityConstraint.writeUpperBound (b.n_constraints d) mem bounds

/-- The static assertions of the class: `n_x == 6` and `n_u == 4` in `dynamics`,
`state_index < n_x` in the constructor of `WaypointConstraint`. -/
def wellFormed {α : Type} (d : Dims) : Block α → Prop
  | .dynamics => d.n_x = 6 ∧ d.n_u = 4
  | .waypoint self => self.state_index < d.n_x
  | _ => True

/-- The member `operator()(g, x, lagrange_derivatives)` of the class; `sin` and `cos` are
those of the scalar type. -/
def call {α : Type} [Field α] (sin cos : α → α) (d : Dims) (b : Block α) (out : Nat → α)
    (g : Nat) (x : Nat → α) (ld : LagrangeDerivatives α) : (Nat → α) × Nat :=
  match b with
  | .collocation => CollocationConstraints.call d out g x ld
  | .controlRate self => ControlRateConstraints.call d self out g x ld
  | .dynamics => DynamicsConstraints.call sin cos d out g x ld
  | .initialState self => InitialStateConstraints.call d self out g x ld
  | .smoothControl => SmoothControlConstraints.call d out g x ld
  | .waypoints self => WaypointConstraints.call d self out g x ld
  | .waypoint self => WaypointConstraint.call d self out g x ld

end Block

/-! ## `fused_contraint.h` -/

/-- The data members of `FusedConstraint`: the tuple `constraints` and the member
`lagrange_derivatives`. -/
structure FusedConstraint (α : Type) where
  constraints : List (Block α)
  lagrange_derivatives : LagrangeDerivatives α

namespace FusedConstraint

/-- The type `std::tuple_element<i, Tuple>::type`; an index past the end of the tuple, which
the source cannot name, reads as the Continuity class. -/
def element {α : Type} (t : List (Block α)) (i : Nat) : Block α := t.getD i Block.collocation

/-- The static member `n_constraint_classes`. -/
def n_constraint_classes {α : Type} (t : List (Block α)) : Nat := t.length

/-- The private `numberOfConstraints(Integer<i>)`. -/
def numberOfConstraints {α : Type} (d : Dims) (t : List (Block α)) : Nat → Nat
  | 0 => (element t 0).n_constraints d
  | i + 1 => (element t (i + 1)).n_constraints d + numberOfConstraints d t i

/-- The private `maxDerivative(Integer<i>)`. -/
def maxDerivative {α : Type} (t : List (Block α)) : Nat → Nat
  | 0 => (element t 0).derivatives
  | i + 1 =>
    if (element t (i + 1)).derivatives ≥ maxDerivative t i then (element t (i + 1)).derivatives
    else maxDerivative t i

/-- The static member `n_constraints`. -/
def n_constraints {α : Type} (d : Dims) (t : List (Block α)) : Nat :=
  numberOfConstraints d t (n_constraint_classes t - 1)

/-- The static member `max_derivative`. -/
def max_derivative {α : Type} (t : List (Block α)) : Nat :=
  maxDerivative t (n_constraint_classes t - 1)

/-- The private `fillUpperBound(bound, Integer<i>)`; `remaining` is
`n_constraint_classes - 1 - i`, and `0` selects the overload for
`Integer<n_constraint_classes - 1>`. -/
def fillUpperBound {α β : Type} [Field β] (d : Dims) (t : List (Block α)) :
    (remaining : Nat) → (i : Nat) → (Nat → β) × Nat → (Nat → β) × Nat
  | 0, i, s => (element t i).writeUpperBound d s.1 s.2
  | k + 1, i, s =>
    fillUpperBound d t k (i + 1) ((element t i).writeUpperBound d s.1 s.2)

/-- The private `fillLowerBound(bound, Integer<i>)`; `remaining` is
`n_constraint_classes - 1 - i`, and `0` selects the overload for
`Integer<n_constraint_classes - 1>`. -/
def fillLowerBound {α β : Type} [Field β] (d : Dims) (t : List (Block α)) :
    (remaining : Nat) → (i : Nat) → (Nat → β) × Nat → (Nat → β) × Nat
  | 0, i, s => (element t i).writeLowerBound d s.1 s.2
  | k + 1, i, s =>
    fillLowerBound d t k (i + 1) ((element t i).writeLowerBound d s.1 s.2)

/-- The private `createUpperBound()`; `bound` is the content of the array before it is
filled. -/
def createUpperBound {α β : Type} [Field β] (d : Dims) (t : List (Block α))
    (bound : Nat → β) : Nat → β :=
  (fillUpperBound d t (n_constraint_classes t - 1) 0 (bound, 0)).1

/-- The private `createLowerBound()`; `bound` is the content of the array before it is
filled. -/
def createLowerBound {α β : Type} [Field β] (d : Dims) (t : List (Block α))
    (bound : Nat → β) : Nat → β :=
  (fillLowerBound d t (n_constraint_classes t - 1) 0 (bound, 0)).1

/-- The constructor; the static assertion `n_constraint_classes > 0` rejects the empty
tuple. -/
def create {α : Type} [Field α] (d : Dims) (constraints : List (Block α))
    (collocation_points : Nat → α) : Option (FusedConstraint α) :=
  if 0 < n_constraint_classes constraints then
    some ⟨constraints, LagrangeDerivatives.create d collocation_points⟩
  else none

/-- The private `evaluateConstraintsTuple(g, x, Integer<i>)`; `remaining` is
`n_constraint_classes - 1 - i`, and `0` selects the overload for
`Integer<n_constraint_classes - 1>`. -/
def evaluateConstraintsTuple {α : Type} [Field α] (sin cos : α → α) (d : Dims)
    (t : List (Block α)) (ld : LagrangeDerivatives α) (x : Nat → α) :
    (remaining : Nat) → (i : Nat) → (Nat → α) × Nat → (Nat → α) × Nat
  | 0, i, s => (element t i).call sin cos d s.1 s.2 x ld
  | k + 1, i, s =>
    evaluateConstraintsTuple sin cos d t ld x k (i + 1)
      ((element t i).call sin cos d s.1 s.2 x ld)

/-- The member `operator()(g, x)`: the updated object, the output memory and the returned
cursor. -/
def call {α : Type} [Field α] (sin cos : α → α) (d : Dims) (self : FusedConstraint α)
    (out : Nat → α) (g : Nat) (x : Nat → α) : FusedConstraint α × (Nat → α) × Nat :=
  let ld := self.lagrange_derivatives.generate d (max_derivative self.constraints) x
  ({ self with lagrange_derivatives := ld },
    evaluateConstraintsTuple sin cos d self.constraints ld x
      (n_constraint_classes self.constraints - 1) 0 (out, g))

end FusedConstraint

/-! ## `fg_eval.h` -/

/-- A vector: its `size()` and the memory `data()` points at. -/
structure Vec (α : Type) where
  size : Nat
  data : Nat → α

/-- The data member of `FG_eval`: the reference `fused_constraints`. -/
structure FG_eval (α : Type) where
  fused_constraints : FusedConstraint α

namespace FG_eval

/-- The constructor: it stores the reference. -/
def create {α : Type} (fused_constraints : FusedConstraint α) : FG_eval α :=
  ⟨fused_constraints⟩

/-- The loop `for i < n: fg[0] += times(i)`. -/
def sumTimes {α : Type} [Field α] (d : Dims) (x : Nat → α) : Nat → (Nat → α) → (Nat → α)
  | 0, fg => fg
  | i + 1, fg =>
    Function.update (sumTimes d x i fg) 0
      (sumTimes d x i fg 0 + (VariableGetter.times d).read x 0 i)

/-- The member `operator()(fg, x)`, with the two assertions enabled: `none` is the abort
of a failed assertion; otherwise the updated object and the vector `fg`. -/
def call {α : Type} [Field α] (sin cos : α → α) (d : Dims) (self : FG_eval α)
    (fg x : Vec α) : Option (FG_eval α × Vec α) :=
  if fg.size = 1 + FusedConstraint.n_constraints d self.fused_constraints.constraints then
    if x.size = VariableGetter.n_vars d then
      let fg0 := Function.update fg.data 0 0
      let fg1 := sumTimes d x.data (VariableGetter.times d).cols fg0
      let r := self.fused_constraints.call sin cos d fg1 1 x.data
      some (⟨r.1⟩, ⟨fg.size, r.2.1⟩)
    else none
  else none

end FG_eval

/-! ## `main.cpp`: the scalar type `double` -/

/-- The `Scalar = double` of `main.cpp`, an IEEE-754 binary64 value: `some q` is the finite
value `q` (the two zeros are not told apart); `none` is an infinity, a NaN, or a result
computed from one, about which nothing is recorded. -/
structure Double where
  val : Option ℚ
deriving DecidableEq

namespace Double

/-- Rounding to the nearest integer, a tie going to the even one. -/
def roundHalfEven (x : ℚ) : ℤ :=
  if x - ⌊x⌋ < 1 / 2 then ⌊x⌋
  else if 1 / 2 < x - ⌊x⌋ then ⌊x⌋ + 1
  else if ⌊x⌋ % 2 = 0 then ⌊x⌋ else ⌊x⌋ + 1

/-- The exponent of the unit in the last place at `q`: 52 binary places below the leading
bit of `q`, and not below `-1074` (the subnormal range). -/
def ulpExponent (q : ℚ) : ℤ := max (Int.log 2 |q| - 52) (-1074)

/-- The binary64 value of the exact result `q` under round-to-nearest, ties-to-even: the
nearest multiple of the unit in the last place, or an infinity when that reaches `2^1024`. -/
def round (q : ℚ) : Double :=
  if |(roundHalfEven (q / 2 ^ ulpExponent q) : ℚ) * 2 ^ ulpExponent q| < 2 ^ (1024 : ℤ) then
    ⟨some ((roundHalfEven (q / 2 ^ ulpExponent q) : ℚ) * 2 ^ ulpExponent q)⟩
  else ⟨none⟩

/-- Addition: the rounded exact sum of two finite values. -/
def add (a b : Double) : Double :=
  match a.val, b.val with
  | some x, some y => round (x + y)
  | _, _ => ⟨none⟩

/-- Subtraction: the rounded exact difference of two finite values. -/
def sub (a b : Double) : Double :=
  match a.val, b.val with
  | some x, some y => round (x - y)
  | _, _ => ⟨none⟩

/-- Multiplication: the rounded exact product of two finite values. -/
def mul (a b : Double) : Double :=
  match a.val, b.val with
  | some x, some y => round (x * y)
  | _, _ => ⟨none⟩

/-- Division: the rounded exact quotient of two finite values; a zero divisor gives an
infinity or a NaN. -/
def div (a b : Double) : Double :=
  match a.val, b.val with
  | some x, some y => if y = 0 then ⟨none⟩ else round (x / y)
  | _, _ => ⟨none⟩

/-- Negation. -/
def neg (a : Double) : Double :=
  match a.val with
  | some x => round (-x)
  | none => ⟨none⟩

instance : Zero Double := ⟨⟨some 0⟩⟩

instance : One Double := ⟨⟨some 1⟩⟩

instance : Add Double := ⟨add⟩

instance : Sub Double := ⟨sub⟩

instance : Mul Double := ⟨mul⟩

instance : Div Double := ⟨div⟩

instance : Neg Double := ⟨neg⟩

end Double

/-! ## `main.cpp`: the initial guess -/

namespace Main

/-- The local `time`. -/
def time {α : Type} [One α] : α := 1

/-- The matrix `differences`, filled by the comma initialiser: column 0 is
`waypoints.col(0) - initial_state`, the `n_w - 1` columns after it are
`waypoints.rightCols<n_w - 1>() - waypoints.leftCols<n_w - 1>()`. -/
def differences {α : Type} [Sub α] (d : Dims) (initial_state : Nat → α)
    (waypoints : Nat → Nat → α) : Nat → Nat → α :=
  fun r c =>
    if c = 0 then waypoints r 0 - initial_state r
    else waypoints r (d.n_w - (d.n_w - 1) + (c - 1)) - waypoints r (c - 1)

/-- The array `dc = -collocation_points.array() + 1`. -/
def dc {α : Type} [Neg α] [Add α] [One α] (collocation_points : Nat → α) : Nat → α :=
  fun i_c => -collocation_points i_c + 1

/-- The loop `for i_c < n`: `statesAtCollocationPoint(i_c) = waypoints - dc(i_c) *
differences`, on the memory of `initial_guess`. -/
def initialGuessLoop {α : Type} [One α] [Add α] [Sub α] [Mul α] [Neg α] (d : Dims)
    (collocation_points : Nat → α) (initial_state : Nat → α) (waypoints : Nat → Nat → α) :
    Nat → (Nat → α) → (Nat → α)
  | 0, mem => mem
  | i_c + 1, mem =>
    (VariableGetter.statesAtCollocationPoint d i_c).assign
      (initialGuessLoop d collocation_points initial_state waypoints i_c mem)
      (fun r c => waypoints r c
        - dc collocation_points i_c * differences d initial_state waypoints r c)

/-- The array `initial_guess` after the block "Initial guess" of `main`: `setZero()` on its
`n_vars` entries, the times filled with `time`, then the loop over the collocation points;
`mem` is the content of the array before. -/
def initial_guess {α : Type} [Zero α] [One α] [Add α] [Sub α] [Mul α] [Neg α] (d : Dims)
    (collocation_points : Nat → α) (initial_state : Nat → α) (waypoints : Nat → Nat → α)
    (mem : Nat → α) : Nat → α :=
  let g0 := stdFill mem 0 0 (VariableGetter.n_vars d)
  let g1 := (VariableGetter.times d).assign g0 (fun _ _ => time)
  initialGuessLoop d collocation_points initial_state waypoints d.n_c g1

end Main

/-! ## Concrete configurations used to evaluate the code -/

/-- One segment of three nodes, one state and one control component. -/
def exDims : Dims := ⟨1, 1, 3, 1⟩

/-- The node set `0, 1/2, 1`. -/
def exNodes : Nat → ℚ := fun i => i / 2

/-- A buffer for `exDims`: the state samples `0, 1/4, 1` (offsets `0, 2, 4`), the control
samples `0` (offsets `1, 3, 5`) and the duration `2` (offset `6`). -/
def exBuffer : Nat → ℚ :=
  fun p => if p = 2 then 1/4 else if p = 4 then 1 else if p = 6 then 2 else 0

/-- A buffer for `exDims` in which every node holds the state `5` and the control `5`,
with duration `2`. -/
def exConstBuffer : Nat → ℚ := fun p => if p = 6 then 2 else 5

/-- Two segments of two nodes, one state and one control component. -/
def exDims2 : Dims := ⟨1, 1, 2, 2⟩

/-- A buffer for `exDims2` whose segment 1 starts (offsets `4, 5`) where segment 0 ends
(offsets `2, 3`): state `7`, control `9`. -/
def exContBuffer : Nat → ℚ :=
  fun p => if p = 2 ∨ p = 4 then 7 else if p = 3 ∨ p = 5 then 9 else p

/-- The two target waypoints `[2, 2, -1, 0, 0, 0]` and `[0, 0, 0, 0, 0, 0]`. -/
def exWaypoints : Nat → Nat → ℚ :=
  fun k i => if i = 0 then (if k < 2 then 2 else if k = 2 then -1 else 0) else 0

/-- A buffer for `n_x = 6, n_u = 4, n_c = 2, n_w = 2` whose last-node states (offsets
`10 .. 15` and `30 .. 35`) are the targets `exWaypoints`; every other entry is `1`. -/
def exWaypointBuffer : Nat → ℚ :=
  fun p => if p = 10 ∨ p = 11 then 2 else if p = 12 then -1
    else if (13 ≤ p ∧ p ≤ 15) ∨ (30 ≤ p ∧ p ≤ 35) then 0 else 1

/-- A fused constraint for `exDims2` over the blocks Continuity, Control-rate (bounds
`-1` and `1`) and Initial-state (initial state `3`), freshly constructed on the nodes
`0, 1/2`. -/
def exFused : FusedConstraint ℚ :=
  ⟨[Block.collocation, Block.controlRate ⟨fun _ => -1, fun _ => 1⟩,
      Block.initialState ⟨fun _ => 3⟩],
    LagrangeDerivatives.create exDims2 exNodes⟩

/-- The six blocks of `test_constraints.cpp`, with rate bounds `-1` and `1`, initial state
`0` and waypoints `0`. -/
def exSixBlocks : List (Block ℚ) :=
  [Block.collocation, Block.controlRate ⟨fun _ => -1, fun _ => 1⟩, Block.dynamics,
    Block.initialState ⟨fun _ => 0⟩, Block.smoothControl, Block.waypoints ⟨fun _ _ => 0⟩]

/-- The buffer `exBuffer` with the duration `-2` instead of `2`. -/
def exNegBuffer : Nat → ℚ :=
  fun p => if p = 2 then 1/4 else if p = 4 then 1 else if p = 6 then -2 else 0

/-- A fused constraint for `exDims` over the Control-rate block alone (bounds `-1` and
`1`), freshly constructed on the nodes `0, 1/2, 1`. -/
def exFusedRate : FusedConstraint ℚ :=
  ⟨[Block.controlRate ⟨fun _ => -1, fun _ => 1⟩], LagrangeDerivatives.create exDims exNodes⟩

/-- One segment of two nodes, one state and one control component. -/
def exDims1 : Dims := ⟨1, 1, 2, 1⟩

/-- The node set `0, 1` in binary64. -/
def exUnitNodes : Nat → Double := fun i => if i = 0 then 0 else 1

/-- The sizes of `main.cpp`. -/
def exMainDims : Dims := ⟨6, 4, 11, 6⟩

/-- The targets `waypoints` of `main.cpp`: row `k` of column `j`. -/
def exMainWaypoints : Nat → Nat → ℤ :=
  fun k j =>
    if j = 0 then (if k < 2 then 2 else if k = 2 then -1 else 0)
    else if j = 1 then (if k = 0 then 4 else if k = 1 then 2 else if k = 2 then -1 else 0)
    else if j = 2 then (if k = 0 then 8 else if k = 2 then -1 else 0)
    else if j = 3 then (if k = 0 then 4 else if k = 1 then -2 else if k = 2 then -1 else 0)
    else if j = 4 then (if k = 0 then 2 else if k = 1 then -2 else if k = 2 then -1 else 0)
    else 0

/-- Eleven binary64 nodes from `0` to `1`: the tenths, rounded. -/
def exMainNodes : Nat → Double :=
  fun i => if i = 0 then 0 else if i = 10 then 1 else Double.round (i / 10)

/-- The differentiation matrix of the nodes `0, 1/2, 1` held in binary64: its entries, the
integers `-3, -1, 1; 4, 0, -4; -1, 1, 3`, are binary64 values. -/
def exHalfMatrix : Nat → Nat → Double :=
  fun j c => ⟨some (LagrangeDerivatives.lagrangeDerivativeCoefficients 3 exNodes j c)⟩

/-- A binary64 buffer for `exDims` in which every node holds the state `0.1` and the control
`0.1`, with duration `2`. -/
def exTenthBuffer : Nat → Double :=
  fun p => if p = 6 then ⟨some 2⟩ else Double.round (1 / 10)

/-- A binary64 buffer for `exDims` in which every node holds the state `5` and the control
`5`, with duration `2`. -/
def exFiveBuffer : Nat → Double :=
  fun p => if p = 6 then ⟨some 2⟩ else ⟨some ((5 : ℤ) : ℚ)⟩

namespace MatView

theorem idx_inj {v : MatView} {r c r1 c1 : Nat} (hv : v.rows ≤ v.outer) (hr : r < v.rows)
    (hr1 : r1 < v.rows) (h : v.idx r c = v.idx r1 c1) : r = r1 ∧ c = c1 := by
  unfold idx at h
  have hro : r < v.outer := lt_of_lt_of_le hr hv
  have hr1o : r1 < v.outer := lt_of_lt_of_le hr1 hv
  have h2 : r + v.outer * c = r1 + v.outer * c1 := by omega
  have hc : c = c1 := by
    have := congrArg (fun t => t / v.outer) h2
    simpa [Nat.add_mul_div_left _ _ (Nat.zero_lt_of_lt hro), Nat.div_eq_of_lt hro,
      Nat.div_eq_of_lt hr1o] using this
  subst hc
  exact ⟨by omega, rfl⟩

theorem assignRows_of_lt {α : Type} (v : MatView) (e : Nat → Nat → α) (c : Nat) (g : Nat → α)
    (n r : Nat) (hr : r < n) : assignRows v e c n g (v.idx r c) = e r c := by
  induction n with
  | zero => omega
  | succ n ih =>
    simp only [assignRows]
    by_cases h : r = n
    · subst h; simp
    · have hne : v.idx r c ≠ v.idx n c := by unfold idx; omega
      rw [Function.update_noteq hne]
      exact ih (by omega)

theorem assignRows_frame {α : Type} (v : MatView) (e : Nat → Nat → α) (c : Nat) (g : Nat → α)
    (n p : Nat) (hp : ∀ r, r < n → p ≠ v.idx r c) : assignRows v e c n g p = g p := by
  induction n with
  | zero => rfl
  | succ n ih =>
    simp only [assignRows]
    rw [Function.update_noteq (hp n (by omega))]
    exact ih (fun r hr => hp r (by omega))

theorem assignCols_of_lt {α : Type} (v : MatView) (e : Nat → Nat → α) (g : Nat → α)
    (hv : v.rows ≤ v.outer) (n r c : Nat) (hr : r < v.rows) (hc : c < n) :
    assignCols v e n g (v.idx r c) = e r c := by
  induction n with
  | zero => omega
  | succ n ih =>
    simp only [assignCols]
    by_cases h : c = n
    · subst h; exact assignRows_of_lt v e c _ _ r hr
    · rw [assignRows_frame]
      · exact ih (by omega)
      · intro r1 hr1 heq
        exact h (idx_inj hv hr hr1 heq).2

theorem assignCols_frame {α : Type} (v : MatView) (e : Nat → Nat → α) (g : Nat → α)
    (n p : Nat) (hp : ∀ r c, r < v.rows → c < n → p ≠ v.idx r c) :
    assignCols v e n g p = g p := by
  induction n with
  | zero => rfl
  | succ n ih =>
    simp only [assignCols]
    rw [assignRows_frame _ _ _ _ _ _ (fun r hr => hp r n hr (by omega))]
    exact ih (fun r c hr hc => hp r c hr (by omega))

theorem assign_idx {α : Type} (v : MatView) (g : Nat → α) (e : Nat → Nat → α)
    (hv : v.rows ≤ v.outer) {r c : Nat} (hr : r < v.rows) (hc : c < v.cols) :
    v.assign g e (v.idx r c) = e r c :=
  assignCols_of_lt v e g hv v.cols r c hr hc

theorem assign_frame {α : Type} (v : MatView) (g : Nat → α) (e : Nat → Nat → α) (p : Nat)
    (hp : ∀ r c, r < v.rows → c < v.cols → p ≠ v.idx r c) : v.assign g e p = g p :=
  assignCols_frame v e g v.cols p hp

end MatView

/-! ## The layout of the decision buffer -/

namespace VariableGetter

theorem divmod_unique {m a b a1 b1 : Nat} (hb : b < m) (hb1 : b1 < m)
    (h : b + m * a = b1 + m * a1) : b = b1 ∧ a = a1 := by
  have hm : 0 < m := Nat.zero_lt_of_lt hb
  have ha : a = a1 := by
    have := congrArg (fun t => t / m) h
    simpa [Nat.add_mul_div_left _ _ hm, Nat.div_eq_of_lt hb, Nat.div_eq_of_lt hb1] using this
  subst ha
  exact ⟨by omega, rfl⟩

/-- Offset of row `r` of node `i_c` of segment `i_w`. -/
theorem node_lt {d : Dims} {i_c i_w r : Nat} (hc : i_c < d.n_c) (hw : i_w < d.n_w)
    (hr : r < d.n_x + d.n_u) :
    (d.n_x + d.n_u) * i_c + r + (d.n_x + d.n_u) * d.n_c * i_w
      < (d.n_x + d.n_u) * d.n_c * d.n_w := by
  have h1 : (d.n_x + d.n_u) * i_c + r < (d.n_x + d.n_u) * d.n_c := by
    calc (d.n_x + d.n_u) * i_c + r < (d.n_x + d.n_u) * i_c + (d.n_x + d.n_u) := by omega
      _ = (d.n_x + d.n_u) * (i_c + 1) := by ring
      _ ≤ (d.n_x + d.n_u) * d.n_c := Nat.mul_le_mul_left _ hc
  calc (d.n_x + d.n_u) * i_c + r + (d.n_x + d.n_u) * d.n_c * i_w
      < (d.n_x + d.n_u) * d.n_c + (d.n_x + d.n_u) * d.n_c * i_w := by omega
    _ = (d.n_x + d.n_u) * d.n_c * (i_w + 1) := by ring
    _ ≤ (d.n_x + d.n_u) * d.n_c * d.n_w := Nat.mul_le_mul_left _ hw

theorem node_inj {d : Dims} {i_c i_w r j_c j_w s : Nat} (hc : i_c < d.n_c) (hjc : j_c < d.n_c)
    (hr : r < d.n_x + d.n_u) (hs : s < d.n_x + d.n_u)
    (h : (d.n_x + d.n_u) * i_c + r + (d.n_x + d.n_u) * d.n_c * i_w
      = (d.n_x + d.n_u) * j_c + s + (d.n_x + d.n_u) * d.n_c * j_w) :
    i_c = j_c ∧ i_w = j_w ∧ r = s := by
  have hq : ∀ {c q : Nat}, c < d.n_c → q < d.n_x + d.n_u →
      (d.n_x + d.n_u) * c + q < (d.n_x + d.n_u) * d.n_c := by
    intro c q hc hq
    calc (d.n_x + d.n_u) * c + q < (d.n_x + d.n_u) * c + (d.n_x + d.n_u) := by omega
      _ = (d.n_x + d.n_u) * (c + 1) := by ring
      _ ≤ (d.n_x + d.n_u) * d.n_c := Nat.mul_le_mul_left _ hc
  obtain ⟨h1, h2⟩ := divmod_unique (hq hc hr) (hq hjc hs) h
  have h3 : r + (d.n_x + d.n_u) * i_c = s + (d.n_x + d.n_u) * j_c := by omega
  obtain ⟨h4, h5⟩ := divmod_unique hr hs h3
  exact ⟨h5, h2, h4⟩

theorem node_surj {d : Dims} {p : Nat} (hp : p < (d.n_x + d.n_u) * d.n_c * d.n_w) :
    ∃ i_c i_w r, i_c < d.n_c ∧ i_w < d.n_w ∧ r < d.n_x + d.n_u ∧
      (d.n_x + d.n_u) * i_c + r + (d.n_x + d.n_u) * d.n_c * i_w = p := by
  have hR : 0 < (d.n_x + d.n_u) * d.n_c := by
    rcases Nat.eq_zero_or_pos ((d.n_x + d.n_u) * d.n_c) with h | h
    · rw [h] at hp; simp at hp
    · exact h
  have hm : 0 < d.n_x + d.n_u := Nat.pos_of_mul_pos_right hR
  refine ⟨(p % ((d.n_x + d.n_u) * d.n_c)) / (d.n_x + d.n_u), p / ((d.n_x + d.n_u) * d.n_c),
    (p % ((d.n_x + d.n_u) * d.n_c)) % (d.n_x + d.n_u), ?_, ?_, Nat.mod_lt _ hm, ?_⟩
  · exact Nat.div_lt_of_lt_mul (Nat.mod_lt _ hR)
  · exact Nat.div_lt_of_lt_mul hp
  · rw [Nat.div_add_mod, Nat.mod_add_div]


theorem state_idx (d : Dims) (i_c i_w k : Nat) :
    (state d i_c i_w).idx k 0
      = (d.n_x + d.n_u) * i_c + k + (d.n_x + d.n_u) * d.n_c * i_w := by
  simp [state, statesAtCollocationPoint, varsAtCollocationPoint, asMatrix, MatView.col,
    MatView.topRows, MatView.middleRows, MatView.map, MatView.idx]
  ring

theorem control_idx (d : Dims) (i_c i_w k : Nat) :
    (control d i_c i_w).idx k 0
      = (d.n_x + d.n_u) * i_c + (d.n_x + k) + (d.n_x + d.n_u) * d.n_c * i_w := by
  simp [control, controlsAtCollocationPoint, varsAtCollocationPoint, asMatrix, MatView.col,
    MatView.bottomRows, MatView.middleRows, MatView.map, MatView.idx]
  ring

theorem times_idx (d : Dims) (i : Nat) :
    (times d).idx 0 i = (d.n_x + d.n_u) * d.n_c * d.n_w + i := by
  simp [times, MatView.map, MatView.idx]

theorem n_vars_eq (d : Dims) : n_vars d = (d.n_x + d.n_u) * d.n_c * d.n_w + d.n_w := by
  unfold n_vars; ring

/-- C1. The scalar accessors `state(i_c,i_w)[k]`, `control(i_c,i_w)[k]` and `times[i]`
partition the buffer: `n_vars = ((n_x+n_u)*n_c + 1) * n_w`; every in-range accessor addresses
an offset below `n_vars`; two in-range accessors with the same offset are the same accessor;
every offset below `n_vars` is addressed by an in-range accessor; and the offsets of the
durations are exactly those of `[(n_x+n_u)*n_c*n_w, n_vars)`. -/
theorem layout_partitions_buffer (d : Dims) :
    n_vars d = ((d.n_x + d.n_u) * d.n_c + 1) * d.n_w ∧
    (∀ s : Slot, s.valid d → s.offset d < n_vars d) ∧
    (∀ s t : Slot, s.valid d → t.valid d → s.offset d = t.offset d → s = t) ∧
    (∀ p, p < n_vars d → ∃ s : Slot, s.valid d ∧ s.offset d = p) ∧
    (∀ p, (∃ i, i < d.n_w ∧ (Slot.times i).offset d = p) ↔
      ((d.n_x + d.n_u) * d.n_c * d.n_w ≤ p ∧ p < n_vars d)) := by
  refine ⟨rfl, ?_, ?_, ?_, ?_⟩
  · intro s hs
    rw [n_vars_eq]
    cases s with
    | state i_c i_w k =>
      obtain ⟨hc, hw, hk⟩ := hs
      have := node_lt hc hw (show k < d.n_x + d.n_u by omega)
      simp only [Slot.offset, state_idx]; omega
    | control i_c i_w k =>
      obtain ⟨hc, hw, hk⟩ := hs
      have := node_lt hc hw (show d.n_x + k < d.n_x + d.n_u by omega)
      simp only [Slot.offset, control_idx]; omega
    | times i =>
      have hi : i < d.n_w := hs
      simp only [Slot.offset, times_idx]; omega
  · intro s t hs ht h
    cases s with
    | state i_c i_w k =>
      obtain ⟨hc, hw, hk⟩ := hs
      cases t with
      | state j_c j_w l =>
        obtain ⟨hc1, hw1, hk1⟩ := ht
        simp only [Slot.offset, state_idx] at h
        obtain ⟨h1, h2, h3⟩ := node_inj hc hc1 (by omega) (by omega) h
        subst h1 h2 h3; rfl
      | control j_c j_w l =>
        obtain ⟨hc1, hw1, hk1⟩ := ht
        simp only [Slot.offset, state_idx, control_idx] at h
        obtain ⟨h1, h2, h3⟩ := node_inj hc hc1 (by omega) (by omega) h
        omega
      | times j =>
        simp only [Slot.offset, state_idx, times_idx] at h
        have := node_lt hc hw (show k < d.n_x + d.n_u by omega)
        omega
    | control i_c i_w k =>
      obtain ⟨hc, hw, hk⟩ := hs
      cases t with
      | state j_c j_w l =>
        obtain ⟨hc1, hw1, hk1⟩ := ht
        simp only [Slot.offset, state_idx, control_idx] at h
        obtain ⟨h1, h2, h3⟩ := node_inj hc hc1 (by omega) (by omega) h
        omega
      | control j_c j_w l =>
        obtain ⟨hc1, hw1, hk1⟩ := ht
        simp only [Slot.offset, control_idx] at h
        obtain ⟨h1, h2, h3⟩ := node_inj hc hc1 (by omega) (by omega) h
        have : k = l := by omega
        subst h1 h2 this; rfl
      | times j =>
        simp only [Slot.offset, control_idx, times_idx] at h
        have := node_lt hc hw (show d.n_x + k < d.n_x + d.n_u by omega)
        omega
    | times i =>
      cases t with
      | state j_c j_w l =>
        obtain ⟨hc1, hw1, hk1⟩ := ht
        simp only [Slot.offset, state_idx, times_idx] at h
        have := node_lt hc1 hw1 (show l < d.n_x + d.n_u by omega)
        omega
      | control j_c j_w l =>
        obtain ⟨hc1, hw1, hk1⟩ := ht
        simp only [Slot.offset, control_idx, times_idx] at h
        have := node_lt hc1 hw1 (show d.n_x + l < d.n_x + d.n_u by omega)
        omega
      | times j =>
        simp only [Slot.offset, times_idx] at h
        have : i = j := by omega
        subst this; rfl
  · intro p hp
    rw [n_vars_eq] at hp
    by_cases h : p < (d.n_x + d.n_u) * d.n_c * d.n_w
    · obtain ⟨i_c, i_w, r, hc, hw, hr, hoff⟩ := node_surj h
      by_cases hrx : r < d.n_x
      · exact ⟨Slot.state i_c i_w r, ⟨hc, hw, hrx⟩, by simp only [Slot.offset, state_idx]; exact hoff⟩
      · refine ⟨Slot.control i_c i_w (r - d.n_x), ⟨hc, hw, by omega⟩, ?_⟩
        simp only [Slot.offset, control_idx]
        rw [show d.n_x + (r - d.n_x) = r by omega]; exact hoff
    · refine ⟨Slot.times (p - (d.n_x + d.n_u) * d.n_c * d.n_w), ?_, ?_⟩
      · show p - (d.n_x + d.n_u) * d.n_c * d.n_w < d.n_w
        omega
      · simp only [Slot.offset, times_idx]; omega
  · intro p
    rw [n_vars_eq]
    constructor
    · rintro ⟨i, hi, h⟩
      simp only [Slot.offset, times_idx] at h
      omega
    · rintro ⟨h1, h2⟩
      refine ⟨p - (d.n_x + d.n_u) * d.n_c * d.n_w, by omega, ?_⟩
      simp only [Slot.offset, times_idx]; omega

/-- C1, the configuration of `test_constraints.cpp`: `n_vars = 666`, the last state
component of the last node of the last segment sits below the durations, and the durations
are the offsets `660 .. 665`. -/
theorem layout_partitions_buffer_witness :
    n_vars ⟨6, 4, 11, 6⟩ = 666 ∧
    (Slot.control 10 5 3).offset ⟨6, 4, 11, 6⟩ = 659 ∧
    (Slot.control 10 5 3).offset ⟨6, 4, 11, 6⟩ < n_vars ⟨6, 4, 11, 6⟩ ∧
    ((∃ i, i < 6 ∧ (Slot.times i).offset ⟨6, 4, 11, 6⟩ = 665) ↔ (660 ≤ 665 ∧ 665 < 666)) :=
  ⟨by decide, by decide,
    (layout_partitions_buffer ⟨6, 4, 11, 6⟩).2.1 (Slot.control 10 5 3) (by decide),
    (layout_partitions_buffer ⟨6, 4, 11, 6⟩).2.2.2.2 665⟩


theorem varsAtWaypoint_idx (d : Dims) (i_w r c : Nat) :
    (varsAtWaypoint d i_w).idx r c
      = (d.n_x + d.n_u) * d.n_c * i_w + (d.n_x + d.n_u) * c + r := by
  simp [varsAtWaypoint, asMatrix, MatView.col, MatView.data, MatView.map, MatView.idx]
  ring

theorem varsAtCollocationPoint_idx (d : Dims) (i_c r i_w : Nat) :
    (varsAtCollocationPoint d i_c).idx r i_w
      = (d.n_x + d.n_u) * d.n_c * i_w + (d.n_x + d.n_u) * i_c + r := by
  simp [varsAtCollocationPoint, asMatrix, MatView.middleRows, MatView.map, MatView.idx]
  ring

theorem statesAtWaypoint_idx (d : Dims) (i_w k c : Nat) :
    (statesAtWaypoint d i_w).idx k c = (varsAtWaypoint d i_w).idx k c := rfl

theorem controlsAtWaypoint_idx (d : Dims) (i_w k c : Nat) :
    (controlsAtWaypoint d i_w).idx k c = (varsAtWaypoint d i_w).idx (d.n_x + k) c := by
  simp [controlsAtWaypoint, varsAtWaypoint, MatView.bottomRows, MatView.map, MatView.idx]
  ring

theorem statesAtCollocationPoint_idx (d : Dims) (i_c k i_w : Nat) :
    (statesAtCollocationPoint d i_c).idx k i_w = (varsAtCollocationPoint d i_c).idx k i_w :=
  rfl

theorem controlsAtCollocationPoint_idx (d : Dims) (i_c k i_w : Nat) :
    (controlsAtCollocationPoint d i_c).idx k i_w
      = (varsAtCollocationPoint d i_c).idx (d.n_x + k) i_w := by
  simp [controlsAtCollocationPoint, varsAtCollocationPoint, asMatrix, MatView.bottomRows,
    MatView.middleRows, MatView.map, MatView.idx]
  ring

theorem state_idx_eq (d : Dims) (i_c i_w k : Nat) :
    (state d i_c i_w).idx k 0 = (varsAtWaypoint d i_w).idx k i_c := by
  rw [state_idx, varsAtWaypoint_idx]; ring

theorem control_idx_eq (d : Dims) (i_c i_w k : Nat) :
    (control d i_c i_w).idx k 0 = (varsAtWaypoint d i_w).idx (d.n_x + k) i_c := by
  rw [control_idx, varsAtWaypoint_idx]; ring

/-- C2. The per-segment and per-node views alias the same buffer positions. For a segment
`i_w < n_w`, a node `c < n_c` and a row `r < n_x + n_u`, element `(r, c)` of
`varsAtWaypoint(i_w)` and element `(r, i_w)` of `varsAtCollocationPoint(c)` are both at
offset `(n_x+n_u)*n_c*i_w + (n_x+n_u)*c + r`; for `r < n_x` this is element `r` of the three
state views, for `n_x ≤ r` it is element `r - n_x` of the three control views; and a value
stored at that offset through the per-segment view is the value every other view reads. -/
theorem views_alias_same_offset {α : Type} (d : Dims) (i_w c r : Nat) (_hw : i_w < d.n_w)
    (_hc : c < d.n_c) (_hr : r < d.n_x + d.n_u) :
    (varsAtWaypoint d i_w).idx r c
        = (d.n_x + d.n_u) * d.n_c * i_w + (d.n_x + d.n_u) * c + r ∧
    (varsAtCollocationPoint d c).idx r i_w
        = (d.n_x + d.n_u) * d.n_c * i_w + (d.n_x + d.n_u) * c + r ∧
    (r < d.n_x →
      (statesAtWaypoint d i_w).idx r c = (varsAtWaypoint d i_w).idx r c ∧
      (statesAtCollocationPoint d c).idx r i_w = (varsAtWaypoint d i_w).idx r c ∧
      (state d c i_w).idx r 0 = (varsAtWaypoint d i_w).idx r c) ∧
    (d.n_x ≤ r →
      (controlsAtWaypoint d i_w).idx (r - d.n_x) c = (varsAtWaypoint d i_w).idx r c ∧
      (controlsAtCollocationPoint d c).idx (r - d.n_x) i_w = (varsAtWaypoint d i_w).idx r c ∧
      (control d c i_w).idx (r - d.n_x) 0 = (varsAtWaypoint d i_w).idx r c) ∧
    (∀ (x : Nat → α) (a : α),
      (varsAtCollocationPoint d c).read
          (Function.update x ((varsAtWaypoint d i_w).idx r c) a) r i_w = a ∧
      (r < d.n_x →
        (statesAtWaypoint d i_w).read
            (Function.update x ((varsAtWaypoint d i_w).idx r c) a) r c = a ∧
        (statesAtCollocationPoint d c).read
            (Function.update x ((varsAtWaypoint d i_w).idx r c) a) r i_w = a ∧
        (state d c i_w).read
            (Function.update x ((varsAtWaypoint d i_w).idx r c) a) r 0 = a) ∧
      (d.n_x ≤ r →
        (controlsAtWaypoint d i_w).read
            (Function.update x ((varsAtWaypoint d i_w).idx r c) a) (r - d.n_x) c = a ∧
        (controlsAtCollocationPoint d c).read
            (Function.update x ((varsAtWaypoint d i_w).idx r c) a) (r - d.n_x) i_w = a ∧
        (control d c i_w).read
            (Function.update x ((varsAtWaypoint d i_w).idx r c) a) (r - d.n_x) 0 = a)) := by
  have hvc : (varsAtCollocationPoint d c).idx r i_w = (varsAtWaypoint d i_w).idx r c := by
    rw [varsAtCollocationPoint_idx, varsAtWaypoint_idx]
  have hs : (state d c i_w).idx r 0 = (varsAtWaypoint d i_w).idx r c := state_idx_eq d c i_w r
  have hcw : d.n_x ≤ r →
      (controlsAtWaypoint d i_w).idx (r - d.n_x) c = (varsAtWaypoint d i_w).idx r c := by
    intro h
    rw [controlsAtWaypoint_idx, show d.n_x + (r - d.n_x) = r by omega]
  have hcc : d.n_x ≤ r →
      (controlsAtCollocationPoint d c).idx (r - d.n_x) i_w
        = (varsAtWaypoint d i_w).idx r c := by
    intro h
    rw [controlsAtCollocationPoint_idx, show d.n_x + (r - d.n_x) = r by omega, hvc]
  have hct : d.n_x ≤ r →
      (control d c i_w).idx (r - d.n_x) 0 = (varsAtWaypoint d i_w).idx r c := by
    intro h
    rw [control_idx_eq, show d.n_x + (r - d.n_x) = r by omega]
  refine ⟨varsAtWaypoint_idx d i_w r c, ?_, ?_, ?_, ?_⟩
  · rw [hvc, varsAtWaypoint_idx]
  · intro _
    exact ⟨rfl, hvc, hs⟩
  · intro h
    exact ⟨hcw h, hcc h, hct h⟩
  · intro x a
    refine ⟨?_, ?_, ?_⟩
    · rw [MatView.read, hvc, Function.update_same]
    · intro _
      refine ⟨?_, ?_, ?_⟩
      · rw [MatView.read, statesAtWaypoint_idx, Function.update_same]
      · rw [MatView.read, statesAtCollocationPoint_idx, hvc, Function.update_same]
      · rw [MatView.read, hs, Function.update_same]
    · intro h
      refine ⟨?_, ?_, ?_⟩
      · rw [MatView.read, hcw h, Function.update_same]
      · rw [MatView.read, hcc h, Function.update_same]
      · rw [MatView.read, hct h, Function.update_same]

/-- C2 in the configuration of `test_constraints.cpp`: row 7 (control 1) of node 3 of
segment 2 is at offset `2*110 + 3*10 + 7 = 257` through every view. -/
theorem views_alias_same_offset_witness :
    (varsAtWaypoint ⟨6, 4, 11, 6⟩ 2).idx 7 3 = 257 ∧
    (varsAtCollocationPoint ⟨6, 4, 11, 6⟩ 3).idx 7 2 = 257 ∧
    (control ⟨6, 4, 11, 6⟩ 3 2).idx 1 0 = 257 :=
  have h := @views_alias_same_offset ℚ ⟨6, 4, 11, 6⟩ 2 3 7 (by decide) (by decide) (by decide)
  ⟨h.1, h.2.1, (h.2.2.2.1 (by decide)).2.2.trans h.1⟩

end VariableGetter

/-! ## The differentiation matrix -/

namespace LagrangeDerivatives

open Polynomial in
theorem derivative_finset_prod {F : Type} [Field F] (s : Finset Nat) (f : Nat → F[X]) :
    derivative (∏ i ∈ s, f i) = ∑ i ∈ s, (∏ j ∈ s.erase i, f j) * derivative (f i) := by
  have h := @Polynomial.derivative_prod F Nat _ _ s.val f
  unfold Finset.prod Finset.sum
  rw [h]
  refine congrArg Multiset.sum (Multiset.map_congr rfl (fun i _ => ?_))
  rw [Finset.erase_val]

open Polynomial in
theorem lagrangeBasisDerivative_eq_eval {F : Type} [Field F] (n_c : Nat) (τ : Nat → F)
    (j : Nat) (t : F) :
    lagrangeBasisDerivative n_c τ j t
      = eval t (derivative (Lagrange.basis (Finset.range n_c) τ j)) := by
  unfold lagrangeBasisDerivative Lagrange.basis
  rw [derivative_finset_prod, eval_finset_sum]
  refine Finset.sum_congr rfl (fun m _ => ?_)
  rw [eval_mul, eval_prod]
  congr 1
  · refine Finset.prod_congr rfl (fun k _ => ?_)
    simp [Lagrange.basisDivisor]
  · simp [Lagrange.basisDivisor]

open Polynomial in
/-- The coefficients applied to a constant sample vector sum to zero: for pairwise distinct
nodes the basis polynomials sum to `1`, whose derivative vanishes. -/
theorem lagrangeDerivativeCoefficients_sum {F : Type} [Field F] (n_c : Nat) (τ : Nat → F)
    (hτ : ∀ i j, i < n_c → j < n_c → τ i = τ j → i = j) (c : Nat) (hc : c < n_c) :
    ∑ j ∈ Finset.range n_c, lagrangeDerivativeCoefficients n_c τ j c = 0 := by
  unfold lagrangeDerivativeCoefficients
  simp only [lagrangeBasisDerivative_eq_eval]
  rw [← eval_finset_sum, ← map_sum]
  have hinj : Set.InjOn τ (Finset.range n_c : Set Nat) := by
    intro a ha b hb hab
    exact hτ a b (by simpa using ha) (by simpa using hb) hab
  have hne : (Finset.range n_c).Nonempty := ⟨c, by simpa using hc⟩
  rw [Lagrange.sum_basis hinj hne]
  simp

end LagrangeDerivatives

/-! ## `generate` -/

namespace LagrangeDerivatives

open VariableGetter

/-- Two in-range elements of per-segment views share an offset only if they are the same
element of the same segment. -/
theorem varsAtWaypoint_idx_inj {d : Dims} {i r c i1 r1 c1 : Nat} (hr : r < d.n_x + d.n_u)
    (hc : c < d.n_c) (hr1 : r1 < d.n_x + d.n_u) (hc1 : c1 < d.n_c)
    (h : (varsAtWaypoint d i).idx r c = (varsAtWaypoint d i1).idx r1 c1) :
    i = i1 ∧ r = r1 ∧ c = c1 := by
  rw [varsAtWaypoint_idx, varsAtWaypoint_idx] at h
  have h2 : (d.n_x + d.n_u) * c + r + (d.n_x + d.n_u) * d.n_c * i
      = (d.n_x + d.n_u) * c1 + r1 + (d.n_x + d.n_u) * d.n_c * i1 := by omega
  obtain ⟨h3, h4, h5⟩ := node_inj hc hc1 hr hr1 h2
  exact ⟨h4, h5, h3⟩

/-- In a commutative monoid the accumulation order does not matter: the loop is the sum. -/
theorem sumLoop_eq_sum {α : Type} [AddCommMonoid α] (f : Nat → α) (n : Nat) :
    MatView.sumLoop f n = ∑ j ∈ Finset.range n, f j := by
  cases n with
  | zero => rfl
  | succ n =>
    induction n with
    | zero => simp [MatView.sumLoop]
    | succ n ih =>
      rw [Finset.sum_range_succ, ← ih]
      rfl

/-- What the inner loop of `generate` stores for segment `i`, for any scalar arithmetic. -/
theorem generateWaypoints_idx_loop {α : Type} [Zero α] [Add α] [Mul α] [Div α] (d : Dims)
    (D : Nat → Nat → α) (x dx : Nat → α) (n i r c : Nat) (hi : i < n)
    (hr : r < d.n_x + d.n_u) (hc : c < d.n_c) :
    generateWaypoints d D x n dx ((varsAtWaypoint d i).idx r c)
      = MatView.sumLoop (fun j => (varsAtWaypoint d i).read x r j * D j c) d.n_c
          / (times d).read x 0 i := by
  induction n with
  | zero => omega
  | succ n ih =>
    simp only [generateWaypoints]
    by_cases h : i = n
    · subst h
      rw [MatView.assign_idx _ _ _ (le_refl _) hr hc]
    · rw [MatView.assign_frame]
      · exact ih (by omega)
      · intro r1 c1 hr1 hc1 heq
        exact h (varsAtWaypoint_idx_inj hr hc hr1 hc1 heq).1

theorem generateWaypoints_idx {α : Type} [Field α] (d : Dims) (D : Nat → Nat → α)
    (x dx : Nat → α) (n i r c : Nat) (hi : i < n) (hr : r < d.n_x + d.n_u) (hc : c < d.n_c) :
    generateWaypoints d D x n dx ((varsAtWaypoint d i).idx r c)
      = (∑ j ∈ Finset.range d.n_c, (varsAtWaypoint d i).read x r j * D j c)
          / (times d).read x 0 i := by
  rw [generateWaypoints_idx_loop d D x dx n i r c hi hr hc, sumLoop_eq_sum]

theorem generateWaypoints_frame {α : Type} [Zero α] [Add α] [Mul α] [Div α] (d : Dims)
    (D : Nat → Nat → α)
    (x dx : Nat → α) (n p : Nat)
    (hp : ∀ i r c, i < n → r < d.n_x + d.n_u → c < d.n_c → p ≠ (varsAtWaypoint d i).idx r c) :
    generateWaypoints d D x n dx p = dx p := by
  induction n with
  | zero => rfl
  | succ n ih =>
    simp only [generateWaypoints]
    rw [MatView.assign_frame]
    · exact ih (fun i r c hi hr hc => hp i r c (by omega) hr hc)
    · intro r c hr hc
      exact hp n r c (by omega) hr hc

/-- The positions of the durations are not written by the inner loop of `generate`. -/
theorem generateWaypoints_times {α : Type} [Zero α] [Add α] [Mul α] [Div α] (d : Dims)
    (D : Nat → Nat → α)
    (x dx : Nat → α) (i : Nat) :
    (times d).read (generateWaypoints d D x d.n_w dx) 0 i = (times d).read dx 0 i := by
  unfold MatView.read
  apply generateWaypoints_frame
  intro i1 r c hi hr hc heq
  rw [times_idx, varsAtWaypoint_idx] at heq
  have := node_lt hc hi hr
  omega

theorem generateLoop_fst {α : Type} [Zero α] [Add α] [Mul α] [Div α] (d : Dims)
    (D : Nat → Nat → α)
    (x0 : Nat → α) (der : Nat → Nat → α) (k : Nat) :
    (generateLoop d D x0 (k + 1) (Src.input, der)).1 = Src.column k := rfl

theorem generateLoop_column_ge {α : Type} [Zero α] [Add α] [Mul α] [Div α] (d : Dims)
    (D : Nat → Nat → α)
    (x0 : Nat → α) (der : Nat → Nat → α) (k i : Nat) (hi : k ≤ i) :
    (generateLoop d D x0 k (Src.input, der)).2 i = der i := by
  induction k with
  | zero => rfl
  | succ k ih =>
    simp only [generateLoop]
    rw [Function.update_noteq (by omega)]
    exact ih (by omega)

/-- Column `0` after `generate`: the inner loop run on the argument `x0`. -/
theorem generateLoop_column_zero {α : Type} [Zero α] [Add α] [Mul α] [Div α] (d : Dims)
    (D : Nat → Nat → α)
    (x0 : Nat → α) (der : Nat → Nat → α) (k : Nat) (hk : 1 ≤ k) :
    (generateLoop d D x0 k (Src.input, der)).2 0
      = generateWaypoints d D x0 d.n_w (der 0) := by
  induction k with
  | zero => omega
  | succ k ih =>
    simp only [generateLoop]
    by_cases h : k = 0
    · subst h
      simp [generateLoop, deref]
    · rw [Function.update_noteq (by omega)]
      exact ih (by omega)

theorem generateLoop_succ {α : Type} [Zero α] [Add α] [Mul α] [Div α] (d : Dims)
    (D : Nat → Nat → α)
    (x0 : Nat → α) (s : Src × (Nat → Nat → α)) (k : Nat) :
    generateLoop d D x0 (k + 1) s
      = (Src.column k, Function.update (generateLoop d D x0 k s).2 k
          (generateWaypoints d D
            (deref x0 (generateLoop d D x0 k s).2 (generateLoop d D x0 k s).1) d.n_w
            ((generateLoop d D x0 k s).2 k))) := rfl

/-- Column `i + 1` after `generate`: the inner loop run on column `i`. -/
theorem generateLoop_column_succ {α : Type} [Zero α] [Add α] [Mul α] [Div α] (d : Dims)
    (D : Nat → Nat → α)
    (x0 : Nat → α) (der : Nat → Nat → α) (k i : Nat) (hk : i + 2 ≤ k) :
    (generateLoop d D x0 k (Src.input, der)).2 (i + 1)
      = generateWaypoints d D ((generateLoop d D x0 k (Src.input, der)).2 i) d.n_w
          (der (i + 1)) := by
  induction k with
  | zero => omega
  | succ k ih =>
    rw [generateLoop_succ]
    by_cases h : k = i + 1
    · subst h
      simp only []
      rw [Function.update_same, Function.update_noteq (by omega),
        generateLoop_column_ge d D x0 der (i + 1) (i + 1) (le_refl _), generateLoop_fst]
      rfl
    · simp only []
      rw [Function.update_noteq (by omega), Function.update_noteq (by omega)]
      exact ih (by omega)


theorem exNodes_basis_derivative (t : ℚ) :
    lagrangeBasisDerivative 3 exNodes 0 t = 4 * t - 3 ∧
    lagrangeBasisDerivative 3 exNodes 1 t = 4 - 8 * t ∧
    lagrangeBasisDerivative 3 exNodes 2 t = 4 * t - 1 := by
  have e0 : (Finset.range 3).erase 0 = {1, 2} := by decide
  have e1 : (Finset.range 3).erase 1 = {0, 2} := by decide
  have e2 : (Finset.range 3).erase 2 = {0, 1} := by decide
  have e01 : ({1, 2} : Finset Nat).erase 1 = {2} := by decide
  have e02 : ({1, 2} : Finset Nat).erase 2 = {1} := by decide
  have e10 : ({0, 2} : Finset Nat).erase 0 = {2} := by decide
  have e12 : ({0, 2} : Finset Nat).erase 2 = {0} := by decide
  have e20 : ({0, 1} : Finset Nat).erase 0 = {1} := by decide
  have e21 : ({0, 1} : Finset Nat).erase 1 = {0} := by decide
  refine ⟨?_, ?_, ?_⟩
  · simp only [lagrangeBasisDerivative, e0, e01, e02,
      Finset.sum_pair (show (1:Nat) ≠ 2 by decide), Finset.prod_singleton, exNodes]
    norm_num
    ring
  · simp only [lagrangeBasisDerivative, e1, e10, e12,
      Finset.sum_pair (show (0:Nat) ≠ 2 by decide), Finset.prod_singleton, exNodes]
    norm_num
    ring
  · simp only [lagrangeBasisDerivative, e2, e20, e21,
      Finset.sum_pair (show (0:Nat) ≠ 1 by decide), Finset.prod_singleton, exNodes]
    norm_num
    ring

/-- The order-1 result of `generate`, read through the per-segment view, for any scalar
arithmetic: the accumulated product divided by the duration read from the argument. -/
theorem generate_get_one_loop {α : Type} [Zero α] [Add α] [Mul α] [Div α] (d : Dims)
    (self : LagrangeDerivatives α) (x0 : Nat → α) (up_to i r c : Nat) (hk : 1 ≤ up_to)
    (hi : i < d.n_w) (hr : r < d.n_x + d.n_u) (hc : c < d.n_c) :
    (varsAtWaypoint d i).read ((generate d up_to self x0).get 1) r c
      = MatView.sumLoop
          (fun j => (varsAtWaypoint d i).read x0 r j * self.derivative_coefficients j c)
          d.n_c
          / (times d).read x0 0 i := by
  unfold generate get MatView.read
  simp only [Nat.sub_self]
  rw [generateLoop_column_zero d _ x0 _ up_to hk]
  exact generateWaypoints_idx_loop d _ x0 _ d.n_w i r c hi hr hc

/-- The order-1 result of `generate`, read through the per-segment view. -/
theorem generate_get_one {α : Type} [Field α] (d : Dims) (self : LagrangeDerivatives α)
    (x0 : Nat → α) (up_to i r c : Nat) (hk : 1 ≤ up_to) (hi : i < d.n_w)
    (hr : r < d.n_x + d.n_u) (hc : c < d.n_c) :
    (varsAtWaypoint d i).read ((generate d up_to self x0).get 1) r c
      = (∑ j ∈ Finset.range d.n_c,
          (varsAtWaypoint d i).read x0 r j * self.derivative_coefficients j c)
          / (times d).read x0 0 i := by
  unfold generate get MatView.read
  simp only [Nat.sub_self]
  rw [generateLoop_column_zero d _ x0 _ up_to hk]
  exact generateWaypoints_idx d _ x0 _ d.n_w i r c hi hr hc

/-- The order-`k+2` result of `generate`, read through the per-segment view: the divisor is
read from the slot of order `k+1`, not from the argument. -/
theorem generate_get_succ {α : Type} [Field α] (d : Dims) (self : LagrangeDerivatives α)
    (x0 : Nat → α) (up_to k i r c : Nat) (hk : k + 2 ≤ up_to) (hi : i < d.n_w)
    (hr : r < d.n_x + d.n_u) (hc : c < d.n_c) :
    (varsAtWaypoint d i).read ((generate d up_to self x0).get (k + 2)) r c
      = (∑ j ∈ Finset.range d.n_c,
          (varsAtWaypoint d i).read ((generate d up_to self x0).get (k + 1)) r j
            * self.derivative_coefficients j c)
          / (times d).read ((generate d up_to self x0).get (k + 1)) 0 i := by
  unfold generate get MatView.read
  simp only [Nat.add_sub_cancel]
  rw [show k + 2 - 1 = k + 1 by omega, generateLoop_column_succ d _ x0 _ up_to k hk]
  exact generateWaypoints_idx d _ _ _ d.n_w i r c hi hr hc

/-- The positions of the durations in every slot keep the value they had before the call
of `generate`. -/
theorem generate_get_times {α : Type} [Field α] (d : Dims) (self : LagrangeDerivatives α)
    (x0 : Nat → α) (up_to k i : Nat) :
    (times d).read ((generate d up_to self x0).get k) 0 i = (times d).read (self.get k) 0 i := by
  unfold generate get
  simp only []
  by_cases h : up_to ≤ k - 1
  · rw [generateLoop_column_ge d _ x0 _ up_to (k - 1) h]
  · rcases Nat.eq_zero_or_pos (k - 1) with h0 | h0
    · rw [h0, generateLoop_column_zero d _ x0 _ up_to (by omega), generateWaypoints_times]
    · obtain ⟨m, hm⟩ : ∃ m, k - 1 = m + 1 := ⟨k - 1 - 1, by omega⟩
      rw [hm, generateLoop_column_succ d _ x0 _ up_to m (by omega), generateWaypoints_times]


theorem exBuffer_order_one (c : Nat) (hc : c < 3) :
    (varsAtWaypoint exDims 0).read
        ((generate exDims 2 (create exDims exNodes) exBuffer).get 1) 0 c = (c : ℚ) / 2 := by
  rw [generate_get_one exDims _ exBuffer 2 0 0 c (by decide) (by decide) (by decide) hc]
  have b0 : ∀ t, lagrangeBasisDerivative 3 exNodes 0 t = 4 * t - 3 :=
    fun t => (exNodes_basis_derivative t).1
  have b1 : ∀ t, lagrangeBasisDerivative 3 exNodes 1 t = 4 - 8 * t :=
    fun t => (exNodes_basis_derivative t).2.1
  have b2 : ∀ t, lagrangeBasisDerivative 3 exNodes 2 t = 4 * t - 1 :=
    fun t => (exNodes_basis_derivative t).2.2
  simp only [create, lagrangeDerivativeCoefficients, exDims, Finset.sum_range_succ,
    Finset.sum_range_zero, b0, b1, b2, MatView.read, varsAtWaypoint_idx, times_idx]
  simp only [exBuffer, exNodes]
  norm_num
  ring

/-- C3, at order 2. For one segment of three nodes `0, 1/2, 1`, duration `2` and the state
samples `0, 1/4, 1`, `generate<2>` produces the order-1 values `0, 1/2, 1`; the claim makes
the order-2 value at node 0 the product with the coefficients divided by the duration `2`
of the input buffer, that is `1/2`. The code divides by the duration position of the
order-1 slot instead, which holds `0`, and the order-2 value is not `1/2`. -/
theorem generate_order_two_divisor_is_slot_time :
    (times exDims).read exBuffer 0 0 = 2 ∧
    (times exDims).read ((generate exDims 2 (create exDims exNodes) exBuffer).get 1) 0 0 = 0 ∧
    (varsAtWaypoint exDims 0).read
        ((generate exDims 2 (create exDims exNodes) exBuffer).get 2) 0 0
      = (∑ j ∈ Finset.range exDims.n_c,
          (varsAtWaypoint exDims 0).read
              ((generate exDims 2 (create exDims exNodes) exBuffer).get 1) 0 j
            * (create exDims exNodes).derivative_coefficients j 0)
          / (times exDims).read
              ((generate exDims 2 (create exDims exNodes) exBuffer).get 1) 0 0 ∧
    (∑ j ∈ Finset.range exDims.n_c,
        (varsAtWaypoint exDims 0).read
            ((generate exDims 2 (create exDims exNodes) exBuffer).get 1) 0 j
          * (create exDims exNodes).derivative_coefficients j 0)
        / (times exDims).read exBuffer 0 0 = 1 / 2 ∧
    (varsAtWaypoint exDims 0).read
        ((generate exDims 2 (create exDims exNodes) exBuffer).get 2) 0 0 ≠ 1 / 2 := by
  have htime : (times exDims).read exBuffer 0 0 = 2 := by
    simp [MatView.read, times_idx, exDims, exBuffer]
  have hslot : (times exDims).read
      ((generate exDims 2 (create exDims exNodes) exBuffer).get 1) 0 0 = 0 := by
    rw [generate_get_times]
    rfl
  have hcode := generate_get_succ exDims (create exDims exNodes) exBuffer 2 0 0 0 0
    (by decide) (by decide) (by decide) (by decide)
  have hsum : (∑ j ∈ Finset.range exDims.n_c,
        (varsAtWaypoint exDims 0).read
            ((generate exDims 2 (create exDims exNodes) exBuffer).get 1) 0 j
          * (create exDims exNodes).derivative_coefficients j 0) = 1 := by
    have b0 : ∀ t, lagrangeBasisDerivative 3 exNodes 0 t = 4 * t - 3 :=
      fun t => (exNodes_basis_derivative t).1
    have b1 : ∀ t, lagrangeBasisDerivative 3 exNodes 1 t = 4 - 8 * t :=
      fun t => (exNodes_basis_derivative t).2.1
    have b2 : ∀ t, lagrangeBasisDerivative 3 exNodes 2 t = 4 * t - 1 :=
      fun t => (exNodes_basis_derivative t).2.2
    simp only [show exDims.n_c = 3 from rfl, Finset.sum_range_succ, Finset.sum_range_zero,
      exBuffer_order_one 0 (by decide), exBuffer_order_one 1 (by decide),
      exBuffer_order_one 2 (by decide)]
    simp only [create, lagrangeDerivativeCoefficients, show exDims.n_c = 3 from rfl, b0, b1,
      b2, exNodes]
    norm_num
  refine ⟨htime, hslot, hcode, ?_, ?_⟩
  · rw [hsum, htime]
  · rw [hcode, hslot, div_zero]
    norm_num


/-- In exact arithmetic (an ordered field as scalar type): with the differentiation matrix
of a strictly increasing node set, a segment of positive duration whose nodes all hold the same state/control vector gets, from
`generate<1>`, a first-derivative estimate that is zero at every node and every component. -/
theorem constant_segment_derivative_zero_exact {α : Type} [LinearOrderedField α] (d : Dims)
    (τ : Nat → α) (self : LagrangeDerivatives α) (x0 : Nat → α) (i : Nat) (v : Nat → α)
    (hD : self.derivative_coefficients = lagrangeDerivativeCoefficients d.n_c τ)
    (hτ : ∀ a b, a < b → b < d.n_c → τ a < τ b)
    (hi : i < d.n_w) (_ht : 0 < (times d).read x0 0 i)
    (hconst : ∀ r c, r < d.n_x + d.n_u → c < d.n_c →
      (varsAtWaypoint d i).read x0 r c = v r) :
    ∀ r c, r < d.n_x + d.n_u → c < d.n_c →
      (varsAtWaypoint d i).read ((generate d 1 self x0).get 1) r c = 0 := by
  intro r c hr hc
  have hinj : ∀ a b, a < d.n_c → b < d.n_c → τ a = τ b → a = b := by
    intro a b ha hb hab
    rcases Nat.lt_trichotomy a b with h | h | h
    · exact absurd hab (ne_of_lt (hτ a b h hb))
    · exact h
    · exact absurd hab.symm (ne_of_lt (hτ b a h ha))
  rw [generate_get_one d self x0 1 i r c (le_refl _) hi hr hc, hD]
  have hsum : ∑ j ∈ Finset.range d.n_c,
      (varsAtWaypoint d i).read x0 r j * lagrangeDerivativeCoefficients d.n_c τ j c
      = v r * ∑ j ∈ Finset.range d.n_c, lagrangeDerivativeCoefficients d.n_c τ j c := by
    rw [Finset.mul_sum]
    refine Finset.sum_congr rfl (fun j hj => ?_)
    rw [hconst r j hr (Finset.mem_range.mp hj)]
  rw [hsum, lagrangeDerivativeCoefficients_sum d.n_c τ hinj c hc, mul_zero, zero_div]

/-- The same on one segment of three nodes `0, 1/2, 1` that all hold the value `5`, with
duration `2`: the first-derivative estimates of the state and of the control vanish at
node 1. -/
theorem constant_segment_derivative_zero_exact_small :
    (varsAtWaypoint exDims 0).read
        ((generate exDims 1 (create exDims exNodes) exConstBuffer).get 1) 0 1 = 0 ∧
    (varsAtWaypoint exDims 0).read
        ((generate exDims 1 (create exDims exNodes) exConstBuffer).get 1) 1 1 = 0 :=
  have h := constant_segment_derivative_zero_exact exDims exNodes (create exDims exNodes)
    exConstBuffer 0 (fun _ => 5) rfl
    (by
      intro a b hab _
      simp only [exNodes]
      have : (a : ℚ) < b := by exact_mod_cast hab
      linarith)
    (by decide)
    (by simp [MatView.read, times_idx, exDims, exConstBuffer])
    (by
      intro r c hr hc
      have hr2 : r < 2 := hr
      have hc3 : c < 3 := hc
      simp [MatView.read, varsAtWaypoint_idx, exDims, exConstBuffer]
      omega)
  ⟨h 0 1 (by decide) (by decide), h 1 1 (by decide) (by decide)⟩

end LagrangeDerivatives

/-! ## The Continuity block -/

namespace VariableGetter

theorem state_idx_colloc (d : Dims) (i_c i_w k : Nat) :
    (state d i_c i_w).idx k 0 = (varsAtCollocationPoint d i_c).idx k i_w := by
  rw [state_idx, varsAtCollocationPoint_idx]; ring

theorem control_idx_colloc (d : Dims) (i_c i_w k : Nat) :
    (control d i_c i_w).idx k 0 = (varsAtCollocationPoint d i_c).idx (d.n_x + k) i_w := by
  rw [control_idx, varsAtCollocationPoint_idx]; ring

end VariableGetter

namespace CollocationConstraints
open VariableGetter

/-- What the Continuity block stores for row `r` at the boundary between the segments `j`
and `j + 1`. -/
theorem continuity_call_idx {α : Type} [Sub α] (d : Dims) (out : Nat → α) (g : Nat) (x : Nat → α)
    (ld : LagrangeDerivatives α) (r j : Nat) (hr : r < d.n_x + d.n_u) (hj : j + 1 < d.n_w) :
    (call d out g x ld).1 (g + r + (d.n_x + d.n_u) * j)
      = (varsAtCollocationPoint d 0).read x r (j + 1)
        - (varsAtCollocationPoint d (d.n_c - 1)).read x r j := by
  have h := MatView.assign_idx (MatView.map g (d.n_x + d.n_u) (d.n_w - 1)) out
    (fun r c =>
      ((varsAtCollocationPoint d 0).rightCols (d.n_w - 1)).read x r c
        - ((varsAtCollocationPoint d (d.n_c - 1)).leftCols (d.n_w - 1)).read x r c)
    (le_refl _) (show r < d.n_x + d.n_u from hr) (show j < d.n_w - 1 by omega)
  have hcols : d.n_w - (d.n_w - 1) = 1 := by omega
  have hright : ((varsAtCollocationPoint d 0).rightCols (d.n_w - 1)).idx r j
      = (varsAtCollocationPoint d 0).idx r (j + 1) := by
    simp only [MatView.rightCols, MatView.idx, varsAtCollocationPoint, MatView.middleRows,
      asMatrix, MatView.map, hcols]
    ring
  have hleft : ((varsAtCollocationPoint d (d.n_c - 1)).leftCols (d.n_w - 1)).idx r j
      = (varsAtCollocationPoint d (d.n_c - 1)).idx r j := rfl
  simp only [MatView.read, hright, hleft] at h
  exact h

/-- C5. For at least two segments, the residual vector of the Continuity block is all zeros
exactly when, at every interior boundary `i = 1 .. n_w - 1`, every state and every control
component at node 0 of segment `i` equals the one at node `n_c - 1` of segment `i - 1`. -/
theorem continuity_residual_zero_iff {α : Type} [Field α] (d : Dims) (out : Nat → α)
    (g : Nat) (x : Nat → α) (ld : LagrangeDerivatives α) (_hw : 2 ≤ d.n_w) :
    (∀ p, p < n_constraints d → (call d out g x ld).1 (g + p) = 0) ↔
    (∀ i, 1 ≤ i → i < d.n_w →
      (∀ k, k < d.n_x →
        (state d 0 i).read x k 0 = (state d (d.n_c - 1) (i - 1)).read x k 0) ∧
      (∀ k, k < d.n_u →
        (control d 0 i).read x k 0 = (control d (d.n_c - 1) (i - 1)).read x k 0)) := by
  have hlt : ∀ r j, r < d.n_x + d.n_u → j + 1 < d.n_w →
      r + (d.n_x + d.n_u) * j < n_constraints d := by
    intro r j hr hj
    unfold n_constraints
    calc r + (d.n_x + d.n_u) * j < (d.n_x + d.n_u) + (d.n_x + d.n_u) * j := by omega
      _ = (d.n_x + d.n_u) * (j + 1) := by ring
      _ ≤ (d.n_x + d.n_u) * (d.n_w - 1) := Nat.mul_le_mul_left _ (by omega)
  constructor
  · intro h i hi1 hiw
    obtain ⟨j, rfl⟩ : ∃ j, i = j + 1 := ⟨i - 1, by omega⟩
    simp only [Nat.add_sub_cancel]
    constructor
    · intro k hk
      have h1 := h _ (hlt k j (by omega) hiw)
      rw [← Nat.add_assoc, continuity_call_idx d out g x ld k j (by omega) hiw, sub_eq_zero] at h1
      simpa only [MatView.read, state_idx_colloc] using h1
    · intro k hk
      have h1 := h _ (hlt (d.n_x + k) j (by omega) hiw)
      rw [← Nat.add_assoc, continuity_call_idx d out g x ld (d.n_x + k) j (by omega) hiw,
        sub_eq_zero] at h1
      simpa only [MatView.read, control_idx_colloc] using h1
  · intro h p hp
    unfold n_constraints at hp
    have hm : 0 < d.n_x + d.n_u := by
      rcases Nat.eq_zero_or_pos (d.n_x + d.n_u) with h0 | h0
      · rw [h0] at hp; simp at hp
      · exact h0
    have hj : p / (d.n_x + d.n_u) + 1 < d.n_w := by
      have := Nat.div_lt_of_lt_mul hp
      omega
    have hr : p % (d.n_x + d.n_u) < d.n_x + d.n_u := Nat.mod_lt _ hm
    have hp2 : g + p = g + p % (d.n_x + d.n_u) + (d.n_x + d.n_u) * (p / (d.n_x + d.n_u)) := by
      have := Nat.mod_add_div p (d.n_x + d.n_u)
      omega
    rw [hp2, continuity_call_idx d out g x ld _ _ hr hj, sub_eq_zero]
    obtain ⟨hs, hc⟩ := h (p / (d.n_x + d.n_u) + 1) (Nat.le_add_left 1 _) hj
    simp only [Nat.add_sub_cancel] at hs hc
    by_cases hrx : p % (d.n_x + d.n_u) < d.n_x
    · simpa only [MatView.read, state_idx_colloc] using hs _ hrx
    · have h2 := hc (p % (d.n_x + d.n_u) - d.n_x) (by omega)
      simp only [MatView.read, control_idx_colloc] at h2
      rw [show d.n_x + (p % (d.n_x + d.n_u) - d.n_x) = p % (d.n_x + d.n_u) by omega] at h2
      exact h2


/-- C5 on two segments of two nodes whose boundary values agree: both residuals, written
from cursor `3`, are zero. -/
theorem continuity_residual_zero_iff_witness :
    (call exDims2 (fun _ => (1 : ℚ)) 3 exContBuffer (LagrangeDerivatives.create exDims2 (fun _ => (0 : ℚ)))).1
        (3 + 0) = 0 ∧
    (call exDims2 (fun _ => (1 : ℚ)) 3 exContBuffer (LagrangeDerivatives.create exDims2 (fun _ => (0 : ℚ)))).1
        (3 + 1) = 0 :=
  have h := (continuity_residual_zero_iff exDims2 (fun _ => (1 : ℚ)) 3 exContBuffer
    (LagrangeDerivatives.create exDims2 (fun _ => (0 : ℚ))) (by decide)).2
    (by
      intro i h1 h2
      have h3 : i < 2 := h2
      have hi : i = 1 := by omega
      subst hi
      constructor
      · intro k hk
        have hk1 : k < 1 := hk
        have hk0 : k = 0 := by omega
        subst hk0
        simp [MatView.read, state_idx, exDims2, exContBuffer]
      · intro k hk
        have hk1 : k < 1 := hk
        have hk0 : k = 0 := by omega
        subst hk0
        simp [MatView.read, control_idx, exDims2, exContBuffer])
  ⟨h 0 (by decide), h 1 (by decide)⟩

end CollocationConstraints

/-! ## The Control-rate block -/

namespace MatView

theorem map_idx (g rows cols r c : Nat) : (map g rows cols).idx r c = g + r + rows * c := rfl

theorem map_idx_lt {g rows cols r c : Nat} (hr : r < rows) (hc : c < cols) :
    (map g rows cols).idx r c < g + rows * cols := by
  rw [map_idx]
  have : r + rows * c < rows * cols := by
    calc r + rows * c < rows + rows * c := by omega
      _ = rows * (c + 1) := by ring
      _ ≤ rows * cols := Nat.mul_le_mul_left _ hc
  omega

/-- An assignment through `Map(g)` leaves the memory before `g` alone. -/
theorem assign_map_of_lt {α : Type} (g rows cols : Nat) (out : Nat → α)
    (e : Nat → Nat → α) (p : Nat) (hp : p < g) : (map g rows cols).assign out e p = out p := by
  apply assign_frame
  intro r c _ _ h
  rw [map_idx] at h
  omega

/-- An assignment through `Map(g)` leaves the memory from `g + rows * cols` on alone. -/
theorem assign_map_of_ge {α : Type} (g rows cols : Nat) (out : Nat → α)
    (e : Nat → Nat → α) (p : Nat) (hp : g + rows * cols ≤ p) :
    (map g rows cols).assign out e p = out p := by
  apply assign_frame
  intro r c hr hc h
  have := @map_idx_lt g rows cols r c hr hc
  omega

theorem assign_map_idx {α : Type} (g rows cols : Nat) (out : Nat → α)
    (e : Nat → Nat → α) {r c : Nat} (hr : r < rows) (hc : c < cols) :
    (map g rows cols).assign out e (g + r + rows * c) = e r c :=
  assign_idx (map g rows cols) out e (le_refl _) hr hc

theorem exists_row_col {rows cols p : Nat} (hp : p < rows * cols) :
    ∃ r c, r < rows ∧ c < cols ∧ p = r + rows * c := by
  have hrows : 0 < rows := by
    rcases Nat.eq_zero_or_pos rows with h | h
    · rw [h] at hp; simp at hp
    · exact h
  exact ⟨p % rows, p / rows, Nat.mod_lt _ hrows, Nat.div_lt_of_lt_mul hp,
    (Nat.mod_add_div p rows).symm⟩

end MatView

namespace ControlRateConstraints
open VariableGetter

theorem controlRate_callLoop_succ {α : Type} [Field α] (d : Dims) (self : ControlRateConstraints α)
    (dx : Nat → α) (n : Nat) (s : (Nat → α) × Nat) :
    callLoop d self dx (n + 1) s
      = ((MatView.map ((callLoop d self dx n s).2 + d.n_u * d.n_c) d.n_u d.n_c).assign
          ((MatView.map (callLoop d self dx n s).2 d.n_u d.n_c).assign
            (callLoop d self dx n s).1
            (fun r c => (controlsAtWaypoint d n).read dx r c - self.upper_bound r))
          (fun r c => -(controlsAtWaypoint d n).read dx r c + self.lower_bound r),
        (callLoop d self dx n s).2 + d.n_u * d.n_c + d.n_u * d.n_c) := rfl

/-- The cursor of the Control-rate block after `n` segments. -/
theorem controlRate_callLoop_cursor {α : Type} [Field α] (d : Dims)
    (self : ControlRateConstraints α) (dx : Nat → α) (n : Nat) (out : Nat → α) (g : Nat) :
    (callLoop d self dx n (out, g)).2 = g + n * (2 * (d.n_u * d.n_c)) := by
  induction n with
  | zero => simp [callLoop]
  | succ n ih => rw [controlRate_callLoop_succ]; simp only []; rw [ih]; ring

/-- The Control-rate loop writes nothing from the cursor it has reached on. -/
theorem controlRate_callLoop_ge {α : Type} [Field α] (d : Dims)
    (self : ControlRateConstraints α) (dx : Nat → α) (n : Nat) (out : Nat → α) (g p : Nat)
    (hp : g + n * (2 * (d.n_u * d.n_c)) ≤ p) :
    (callLoop d self dx n (out, g)).1 p = out p := by
  induction n with
  | zero => rfl
  | succ n ih =>
    rw [controlRate_callLoop_succ]
    simp only []
    rw [controlRate_callLoop_cursor]
    have h1 : g + (n + 1) * (2 * (d.n_u * d.n_c))
        = g + n * (2 * (d.n_u * d.n_c)) + d.n_u * d.n_c + d.n_u * d.n_c := by ring
    rw [MatView.assign_map_of_ge _ _ _ _ _ _ (by omega),
      MatView.assign_map_of_ge _ _ _ _ _ _ (by omega)]
    exact ih (by omega)

/-- The two residuals the Control-rate block stores for channel `k` at node `c` of segment
`i_w`. -/
theorem controlRate_callLoop_idx {α : Type} [Field α] (d : Dims)
    (self : ControlRateConstraints α) (dx : Nat → α) (n : Nat) (out : Nat → α)
    (g i_w k c : Nat) (hi : i_w < n) (hk : k < d.n_u) (hc : c < d.n_c) :
    (callLoop d self dx n (out, g)).1 (g + i_w * (2 * (d.n_u * d.n_c)) + k + d.n_u * c)
        = (controlsAtWaypoint d i_w).read dx k c - self.upper_bound k ∧
    (callLoop d self dx n (out, g)).1
        (g + i_w * (2 * (d.n_u * d.n_c)) + d.n_u * d.n_c + k + d.n_u * c)
        = -(controlsAtWaypoint d i_w).read dx k c + self.lower_bound k := by
  induction n with
  | zero => omega
  | succ n ih =>
    rw [controlRate_callLoop_succ]
    simp only []
    rw [controlRate_callLoop_cursor]
    have hkc : k + d.n_u * c < d.n_u * d.n_c := by
      calc k + d.n_u * c < d.n_u + d.n_u * c := by omega
        _ = d.n_u * (c + 1) := by ring
        _ ≤ d.n_u * d.n_c := Nat.mul_le_mul_left _ hc
    by_cases h : i_w = n
    · subst h
      constructor
      · rw [MatView.assign_map_of_lt _ _ _ _ _ _ (by omega),
          MatView.assign_map_idx _ _ _ _ _ hk hc]
      · rw [MatView.assign_map_idx _ _ _ _ _ hk hc]
    · have hlt : i_w < n := by omega
      have hstep : (i_w + 1) * (2 * (d.n_u * d.n_c)) ≤ n * (2 * (d.n_u * d.n_c)) :=
        Nat.mul_le_mul_right _ hlt
      have hexp : (i_w + 1) * (2 * (d.n_u * d.n_c))
          = i_w * (2 * (d.n_u * d.n_c)) + d.n_u * d.n_c + d.n_u * d.n_c := by ring
      constructor
      · rw [MatView.assign_map_of_lt _ _ _ _ _ _ (by omega),
          MatView.assign_map_of_lt _ _ _ _ _ _ (by omega)]
        exact (ih hlt).1
      · rw [MatView.assign_map_of_lt _ _ _ _ _ _ (by omega),
          MatView.assign_map_of_lt _ _ _ _ _ _ (by omega)]
        exact (ih hlt).2


/-- C6. Every residual the Control-rate block writes is `≤ 0` exactly when, at every
segment, node and control channel, the control part of the order-1 derivative estimate lies
between the lower and the upper bound of that channel. -/
theorem control_rate_residuals_nonpos_iff {α : Type} [LinearOrderedField α] (d : Dims)
    (self : ControlRateConstraints α) (out : Nat → α) (g : Nat) (x : Nat → α)
    (ld : LagrangeDerivatives α) :
    (∀ p, p < n_constraints d → (call d self out g x ld).1 (g + p) ≤ 0) ↔
    (∀ i_w c k, i_w < d.n_w → c < d.n_c → k < d.n_u →
      self.lower_bound k ≤ (controlsAtWaypoint d i_w).read (ld.get 1) k c ∧
      (controlsAtWaypoint d i_w).read (ld.get 1) k c ≤ self.upper_bound k) := by
  have hcount : n_constraints d = (2 * (d.n_u * d.n_c)) * d.n_w := by
    unfold n_constraints; ring
  constructor
  · intro h i_w c k hw hc hk
    obtain ⟨h1, h2⟩ := controlRate_callLoop_idx d self (ld.get 1) d.n_w out g i_w k c hw hk hc
    have hkc : k + d.n_u * c < d.n_u * d.n_c := by
      calc k + d.n_u * c < d.n_u + d.n_u * c := by omega
        _ = d.n_u * (c + 1) := by ring
        _ ≤ d.n_u * d.n_c := Nat.mul_le_mul_left _ hc
    have hstep : (i_w + 1) * (2 * (d.n_u * d.n_c)) ≤ d.n_w * (2 * (d.n_u * d.n_c)) :=
      Nat.mul_le_mul_right _ hw
    have hexp : (i_w + 1) * (2 * (d.n_u * d.n_c))
        = i_w * (2 * (d.n_u * d.n_c)) + d.n_u * d.n_c + d.n_u * d.n_c := by ring
    have hcomm : d.n_w * (2 * (d.n_u * d.n_c)) = (2 * (d.n_u * d.n_c)) * d.n_w := by ring
    have hu := h (i_w * (2 * (d.n_u * d.n_c)) + k + d.n_u * c) (by rw [hcount]; omega)
    have hl := h (i_w * (2 * (d.n_u * d.n_c)) + d.n_u * d.n_c + k + d.n_u * c)
      (by rw [hcount]; omega)
    have e1 : g + (i_w * (2 * (d.n_u * d.n_c)) + k + d.n_u * c)
        = g + i_w * (2 * (d.n_u * d.n_c)) + k + d.n_u * c := by omega
    have e2 : g + (i_w * (2 * (d.n_u * d.n_c)) + d.n_u * d.n_c + k + d.n_u * c)
        = g + i_w * (2 * (d.n_u * d.n_c)) + d.n_u * d.n_c + k + d.n_u * c := by omega
    unfold call at hu hl
    rw [e1, h1] at hu
    rw [e2, h2] at hl
    constructor
    · linarith
    · linarith
  · intro h p hp
    rw [hcount] at hp
    obtain ⟨q, i_w, hq, hw, rfl⟩ := MatView.exists_row_col hp
    by_cases hlow : q < d.n_u * d.n_c
    · obtain ⟨k, c, hk, hc, rfl⟩ := MatView.exists_row_col hlow
      obtain ⟨h1, _⟩ :=
        controlRate_callLoop_idx d self (ld.get 1) d.n_w out g i_w k c hw hk hc
      have e1 : g + (k + d.n_u * c + 2 * (d.n_u * d.n_c) * i_w)
          = g + i_w * (2 * (d.n_u * d.n_c)) + k + d.n_u * c := by ring
      unfold call
      rw [e1, h1]
      linarith [(h i_w c k hw hc hk).2]
    · have hq2 : q - d.n_u * d.n_c < d.n_u * d.n_c := by omega
      obtain ⟨k, c, hk, hc, hkc⟩ := MatView.exists_row_col hq2
      obtain ⟨_, h2⟩ :=
        controlRate_callLoop_idx d self (ld.get 1) d.n_w out g i_w k c hw hk hc
      have e2 : g + (q + 2 * (d.n_u * d.n_c) * i_w)
          = g + i_w * (2 * (d.n_u * d.n_c)) + d.n_u * d.n_c + k + d.n_u * c := by
        have : q = d.n_u * d.n_c + (k + d.n_u * c) := by omega
        rw [this]; ring
      unfold call
      rw [e2, h2]
      linarith [(h i_w c k hw hc hk).1]

end ControlRateConstraints

/-! ## The Dynamics block -/

namespace DynamicsConstraints
open VariableGetter

theorem row_idx (v : MatView) (i c : Nat) : (v.row i).idx 0 c = v.idx i c := by
  simp [MatView.row, MatView.idx]

/-- What `dynamics` stores in column `c` of the block mapped at `dx`, for six states. -/
theorem dynamics_idx {α : Type} [Field α] (sin cos : α → α) (d : Dims) (hx : d.n_x = 6)
    (x out : Nat → α) (dx i_w c : Nat) (hc : c < d.n_c) :
    (∀ r, r < 3 → dynamics sin cos d x out dx i_w (dx + r + 6 * c)
        = (statesAtWaypoint d i_w).read x (3 + r) c) ∧
    dynamics sin cos d x out dx i_w (dx + 3 + 6 * c)
      = -(controlsAtWaypoint d i_w).read x 0 c
          * (sin ((controlsAtWaypoint d i_w).read x 1 c)
                * sin ((controlsAtWaypoint d i_w).read x 3 c)
              + cos ((controlsAtWaypoint d i_w).read x 1 c)
                * cos ((controlsAtWaypoint d i_w).read x 3 c)
                * sin ((controlsAtWaypoint d i_w).read x 2 c)) ∧
    dynamics sin cos d x out dx i_w (dx + 4 + 6 * c)
      = (controlsAtWaypoint d i_w).read x 0 c
          * (cos ((controlsAtWaypoint d i_w).read x 3 c)
                * sin ((controlsAtWaypoint d i_w).read x 1 c)
              - cos ((controlsAtWaypoint d i_w).read x 1 c)
                * sin ((controlsAtWaypoint d i_w).read x 3 c)
                * sin ((controlsAtWaypoint d i_w).read x 2 c)) ∧
    dynamics sin cos d x out dx i_w (dx + 5 + 6 * c)
      = -(controlsAtWaypoint d i_w).read x 0 c
          * cos ((controlsAtWaypoint d i_w).read x 1 c)
          * cos ((controlsAtWaypoint d i_w).read x 2 c) + mass_gravity := by
  have hrow : ∀ i r1 c1, ((MatView.map dx d.n_x d.n_c).row i).idx r1 c1
      = dx + i + r1 + 6 * c1 := by
    intro i r1 c1
    simp [MatView.row, MatView.map, MatView.idx, hx]
  have htop : ∀ r1 c1, ((MatView.map dx d.n_x d.n_c).topRows 3).idx r1 c1
      = dx + r1 + 6 * c1 := by
    intro r1 c1
    simp [MatView.topRows, MatView.map, MatView.idx, hx]
  have hbot : ∀ r1, ((statesAtWaypoint d i_w).bottomRows 3).idx r1 c
      = (statesAtWaypoint d i_w).idx (3 + r1) c := by
    intro r1
    simp [MatView.bottomRows, statesAtWaypoint, MatView.topRows, varsAtWaypoint, MatView.map,
      MatView.idx, hx]
    ring
  have hwrite : ∀ (i : Nat) (o : Nat → α) (e : Nat → Nat → α),
      ((MatView.map dx d.n_x d.n_c).row i).assign o e (dx + i + 6 * c) = e 0 c := by
    intro i o e
    have h := MatView.assign_idx ((MatView.map dx d.n_x d.n_c).row i) o e
      (show 1 ≤ d.n_x by omega) (show 0 < 1 by decide) hc
    rw [hrow] at h
    exact h
  have hskip : ∀ (i : Nat) (o : Nat → α) (e : Nat → Nat → α) (r1 c1 : Nat), r1 < 6 → r1 ≠ i →
      i < 6 → ((MatView.map dx d.n_x d.n_c).row i).assign o e (dx + r1 + 6 * c1)
        = o (dx + r1 + 6 * c1) := by
    intro i o e r1 c1 hr1 hne hi
    apply MatView.assign_frame
    intro r2 c2 hr2 _ heq
    have hr2' : r2 < 1 := hr2
    rw [hrow] at heq
    omega
  unfold dynamics
  simp only [row_idx, MatView.read] at *
  refine ⟨?_, ?_, ?_, ?_⟩
  · intro r hr
    rw [hskip 5 _ _ r c (by omega) (by omega) (by omega),
      hskip 4 _ _ r c (by omega) (by omega) (by omega),
      hskip 3 _ _ r c (by omega) (by omega) (by omega)]
    have h := MatView.assign_idx ((MatView.map dx d.n_x d.n_c).topRows 3) out
      (fun r c => x (((statesAtWaypoint d i_w).bottomRows 3).idx r c))
      (show 3 ≤ d.n_x by omega) (show r < 3 from hr) hc
    rw [htop] at h
    rw [h]
    simp only [hbot]
  · rw [hskip 5 _ _ 3 c (by omega) (by omega) (by omega),
      hskip 4 _ _ 3 c (by omega) (by omega) (by omega), hwrite 3]
  · rw [hskip 5 _ _ 4 c (by omega) (by omega) (by omega), hwrite 4]
  · rw [hwrite 5]

/-- The member `dynamics` leaves the memory outside the block mapped at `dx` alone. -/
theorem dynamics_frame {α : Type} [Field α] (sin cos : α → α) (d : Dims) (hx : d.n_x = 6)
    (x out : Nat → α) (dx i_w p : Nat) (hp : p < dx ∨ dx + 6 * d.n_c ≤ p) :
    dynamics sin cos d x out dx i_w p = out p := by
  have hrow : ∀ i r1 c1, ((MatView.map dx d.n_x d.n_c).row i).idx r1 c1
      = dx + i + r1 + 6 * c1 := by
    intro i r1 c1
    simp [MatView.row, MatView.map, MatView.idx, hx]
  have htop : ∀ r1 c1, ((MatView.map dx d.n_x d.n_c).topRows 3).idx r1 c1
      = dx + r1 + 6 * c1 := by
    intro r1 c1
    simp [MatView.topRows, MatView.map, MatView.idx, hx]
  have hskip : ∀ (i : Nat) (o : Nat → α) (e : Nat → Nat → α), i < 6 →
      ((MatView.map dx d.n_x d.n_c).row i).assign o e p = o p := by
    intro i o e hi
    apply MatView.assign_frame
    intro r2 c2 hr2 hc2 heq
    have hr2' : r2 < 1 := hr2
    have hc2' : c2 < d.n_c := hc2
    rw [hrow] at heq
    omega
  unfold dynamics
  simp only []
  rw [hskip 5 _ _ (by omega), hskip 4 _ _ (by omega), hskip 3 _ _ (by omega)]
  apply MatView.assign_frame
  intro r2 c2 hr2 hc2 heq
  have hr2' : r2 < 3 := hr2
  have hc2' : c2 < d.n_c := hc2
  rw [htop] at heq
  omega


theorem dynamics_callLoop_succ {α : Type} [Field α] (sin cos : α → α) (d : Dims)
    (x dx : Nat → α) (n : Nat) (s : (Nat → α) × Nat) :
    callLoop sin cos d x dx (n + 1) s
      = ((MatView.map (callLoop sin cos d x dx n s).2 d.n_x d.n_c).assign
          (dynamics sin cos d x (callLoop sin cos d x dx n s).1
            (callLoop sin cos d x dx n s).2 n)
          (fun r c =>
            (MatView.map (callLoop sin cos d x dx n s).2 d.n_x d.n_c).read
                (dynamics sin cos d x (callLoop sin cos d x dx n s).1
                  (callLoop sin cos d x dx n s).2 n) r c
              - (statesAtWaypoint d n).read dx r c),
        (callLoop sin cos d x dx n s).2 + d.n_x * d.n_c) := rfl

/-- The cursor of the Dynamics block after `n` segments. -/
theorem dynamics_callLoop_cursor {α : Type} [Field α] (sin cos : α → α) (d : Dims)
    (x dx : Nat → α) (n : Nat) (out : Nat → α) (g : Nat) :
    (callLoop sin cos d x dx n (out, g)).2 = g + n * (d.n_x * d.n_c) := by
  induction n with
  | zero => simp [callLoop]
  | succ n ih => rw [dynamics_callLoop_succ]; simp only []; rw [ih]; ring

/-- The residual the Dynamics block stores for state `k` at node `c` of segment `i_w`: the
value `dynamics` stores there minus the order-1 estimate. -/
theorem dynamics_callLoop_idx {α : Type} [Field α] (sin cos : α → α) (d : Dims)
    (hx : d.n_x = 6) (x dx : Nat → α) (n : Nat) (out : Nat → α) (g i_w k c : Nat)
    (hi : i_w < n) (hk : k < 6) (hc : c < d.n_c) :
    (callLoop sin cos d x dx n (out, g)).1 (g + i_w * (6 * d.n_c) + k + 6 * c)
      = dynamics sin cos d x (callLoop sin cos d x dx i_w (out, g)).1
          (g + i_w * (6 * d.n_c)) i_w (g + i_w * (6 * d.n_c) + k + 6 * c)
        - (statesAtWaypoint d i_w).read dx k c := by
  induction n with
  | zero => omega
  | succ n ih =>
    rw [dynamics_callLoop_succ]
    simp only []
    rw [dynamics_callLoop_cursor, hx]
    by_cases h : i_w = n
    · subst h
      have h1 := MatView.assign_map_idx (g + i_w * (6 * d.n_c)) 6 d.n_c
        (dynamics sin cos d x (callLoop sin cos d x dx i_w (out, g)).1
          (g + i_w * (6 * d.n_c)) i_w)
        (fun r c =>
          (MatView.map (g + i_w * (6 * d.n_c)) 6 d.n_c).read
              (dynamics sin cos d x (callLoop sin cos d x dx i_w (out, g)).1
                (g + i_w * (6 * d.n_c)) i_w) r c
            - (statesAtWaypoint d i_w).read dx r c) hk hc
      rw [h1]
      rfl
    · have hlt : i_w < n := by omega
      have hkc : k + 6 * c < 6 * d.n_c := by omega
      have hstep : (i_w + 1) * (6 * d.n_c) ≤ n * (6 * d.n_c) := Nat.mul_le_mul_right _ hlt
      have hexp : (i_w + 1) * (6 * d.n_c) = i_w * (6 * d.n_c) + 6 * d.n_c := by ring
      rw [MatView.assign_map_of_lt _ _ _ _ _ _ (by omega),
        dynamics_frame sin cos d hx _ _ _ _ _ (Or.inl (by omega))]
      exact ih hlt


theorem controlsAtWaypoint_read_eq {α : Type} (d : Dims) (x : Nat → α) (i_w j c : Nat) :
    (controlsAtWaypoint d i_w).read x j c = (control d c i_w).read x j 0 := by
  unfold MatView.read
  rw [controlsAtWaypoint_idx, control_idx_eq]

theorem statesAtWaypoint_read_eq {α : Type} (d : Dims) (x : Nat → α) (i_w k c : Nat) :
    (statesAtWaypoint d i_w).read x k c = (state d c i_w).read x k 0 := by
  unfold MatView.read
  rw [statesAtWaypoint_idx, state_idx_eq]

/-- C7. For six states and four controls, the Dynamics block stores at output offset
`i_w*n_x*n_c + c*n_x + k` the right-hand side `f_k` of the equations of motion at node `c`
of segment `i_w` minus the order-1 derivative estimate of state `k` there: `f_0..f_2` are
the states `3..5`, and `f_3, f_4, f_5` are the closed forms in the thrust `T` and the
angles `phi, theta, psi`, with the term `mass * gravity` in `f_5`. -/
theorem dynamics_residual_formula {α : Type} [Field α] (sin cos : α → α) (d : Dims)
    (out : Nat → α) (g : Nat) (x : Nat → α) (ld : LagrangeDerivatives α) (i_w c : Nat)
    (T phi theta psi : α) (hx : d.n_x = 6) (_hu : d.n_u = 4) (hw : i_w < d.n_w)
    (hc : c < d.n_c)
    (hT : T = (control d c i_w).read x 0 0) (hphi : phi = (control d c i_w).read x 1 0)
    (htheta : theta = (control d c i_w).read x 2 0)
    (hpsi : psi = (control d c i_w).read x 3 0) :
    (∀ k, k < 3 →
      (call sin cos d out g x ld).1 (g + (i_w * d.n_x * d.n_c + c * d.n_x + k))
        = (state d c i_w).read x (3 + k) 0 - (state d c i_w).read (ld.get 1) k 0) ∧
    (call sin cos d out g x ld).1 (g + (i_w * d.n_x * d.n_c + c * d.n_x + 3))
      = -T * (sin phi * sin psi + cos phi * cos psi * sin theta)
        - (state d c i_w).read (ld.get 1) 3 0 ∧
    (call sin cos d out g x ld).1 (g + (i_w * d.n_x * d.n_c + c * d.n_x + 4))
      = T * (cos psi * sin phi - cos phi * sin psi * sin theta)
        - (state d c i_w).read (ld.get 1) 4 0 ∧
    (call sin cos d out g x ld).1 (g + (i_w * d.n_x * d.n_c + c * d.n_x + 5))
      = -T * cos phi * cos theta + mass * gravity
        - (state d c i_w).read (ld.get 1) 5 0 := by
  have hoff : ∀ k, g + (i_w * d.n_x * d.n_c + c * d.n_x + k)
      = g + i_w * (6 * d.n_c) + k + 6 * c := by
    intro k; rw [hx]; ring
  have hres : ∀ k, k < 6 →
      (call sin cos d out g x ld).1 (g + (i_w * d.n_x * d.n_c + c * d.n_x + k))
        = dynamics sin cos d x (callLoop sin cos d x (ld.get 1) i_w (out, g)).1
            (g + i_w * (6 * d.n_c)) i_w (g + i_w * (6 * d.n_c) + k + 6 * c)
          - (state d c i_w).read (ld.get 1) k 0 := by
    intro k hk
    rw [hoff, ← statesAtWaypoint_read_eq]
    exact dynamics_callLoop_idx sin cos d hx x (ld.get 1) d.n_w out g i_w k c hw hk hc
  obtain ⟨h012, h3, h4, h5⟩ := dynamics_idx sin cos d hx x
    (callLoop sin cos d x (ld.get 1) i_w (out, g)).1 (g + i_w * (6 * d.n_c)) i_w c hc
  simp only [controlsAtWaypoint_read_eq, ← hT, ← hphi, ← htheta, ← hpsi] at h3 h4 h5
  refine ⟨?_, ?_, ?_, ?_⟩
  · intro k hk
    rw [hres k (by omega), h012 k hk, statesAtWaypoint_read_eq]
  · rw [hres 3 (by omega), h3]
  · rw [hres 4 (by omega), h4]
  · rw [hres 5 (by omega), h5]
    rfl

/-- C7 on one segment of one node with the buffer `x[p] = p` of `test_constraints.cpp`
(thrust `6`, angles `7, 8, 9`), an all-zero derivative cache, `sin t = t` and `cos t = 1`:
the residual at offset `3`. -/
theorem dynamics_residual_formula_witness :
    (call (fun t => t) (fun _ => 1) ⟨6, 4, 1, 1⟩ (fun _ => 0) 0 (fun p => (p : ℚ))
        ⟨fun _ _ => 0, fun _ _ => 0⟩).1 (0 + (0 * 6 * 1 + 0 * 6 + 3))
      = -6 * (7 * 9 + 1 * 1 * 8)
        - (state ⟨6, 4, 1, 1⟩ 0 0).read
            (LagrangeDerivatives.get (⟨fun _ _ => 0, fun _ _ => 0⟩ : LagrangeDerivatives ℚ) 1)
            3 0 :=
  (dynamics_residual_formula (fun t => t) (fun _ => 1) ⟨6, 4, 1, 1⟩ (fun _ => 0) 0
    (fun p => (p : ℚ)) ⟨fun _ _ => 0, fun _ _ => 0⟩ 0 0 6 7 8 9 rfl rfl (by decide)
    (by decide)
    (by simp [MatView.read, control_idx])
    (by simp [MatView.read, control_idx])
    (by simp [MatView.read, control_idx])
    (by simp [MatView.read, control_idx])).2.1

/-- C8. In `dynamics`, at a node whose thrust and three attitude angles are all zero, the
three velocity derivatives (rows 3, 4, 5 of the block, before the derivative estimate is
subtracted) are `0, 0, gravity`, and `gravity` is `9.81`. -/
theorem dynamics_zero_thrust_level {α : Type} [Field α] (sin cos : α → α) (d : Dims)
    (x out : Nat → α) (dx i_w c : Nat) (hx : d.n_x = 6) (_hu : d.n_u = 4) (hc : c < d.n_c)
    (hT : (control d c i_w).read x 0 0 = 0) (_hphi : (control d c i_w).read x 1 0 = 0)
    (_htheta : (control d c i_w).read x 2 0 = 0)
    (_hpsi : (control d c i_w).read x 3 0 = 0) :
    (MatView.map dx d.n_x d.n_c).read (dynamics sin cos d x out dx i_w) 3 c = 0 ∧
    (MatView.map dx d.n_x d.n_c).read (dynamics sin cos d x out dx i_w) 4 c = 0 ∧
    (MatView.map dx d.n_x d.n_c).read (dynamics sin cos d x out dx i_w) 5 c = gravity ∧
    (gravity : α) = 9.81 := by
  obtain ⟨_, h3, h4, h5⟩ := dynamics_idx sin cos d hx x out dx i_w c hc
  simp only [controlsAtWaypoint_read_eq, hT] at h3 h4 h5
  have hmass : (mass : α) = 1 := by unfold mass; norm_num
  refine ⟨?_, ?_, ?_, rfl⟩
  · rw [MatView.read, MatView.map_idx, hx, h3]; ring
  · rw [MatView.read, MatView.map_idx, hx, h4]; ring
  · rw [MatView.read, MatView.map_idx, hx, h5]
    unfold mass_gravity
    rw [hmass]; ring

/-- C8 on one segment of one node of an all-zero buffer, with `sin t = t` and
`cos t = 1`: the velocity derivatives are `0, 0, gravity`. -/
theorem dynamics_zero_thrust_level_witness :
    (MatView.map 0 6 1).read
        (dynamics (fun t => t) (fun _ => 1) ⟨6, 4, 1, 1⟩ (fun _ => (0 : ℚ)) (fun _ => 0) 0 0)
        3 0 = 0 ∧
    (MatView.map 0 6 1).read
        (dynamics (fun t => t) (fun _ => 1) ⟨6, 4, 1, 1⟩ (fun _ => (0 : ℚ)) (fun _ => 0) 0 0)
        4 0 = 0 ∧
    (MatView.map 0 6 1).read
        (dynamics (fun t => t) (fun _ => 1) ⟨6, 4, 1, 1⟩ (fun _ => (0 : ℚ)) (fun _ => 0) 0 0)
        5 0 = gravity :=
  have h := dynamics_zero_thrust_level (fun t => t) (fun _ => 1) ⟨6, 4, 1, 1⟩
    (fun _ => (0 : ℚ)) (fun _ => 0) 0 0 0 rfl rfl (by decide) rfl rfl rfl rfl
  ⟨h.1, h.2.1, h.2.2.1⟩

end DynamicsConstraints

/-! ## The Waypoints block -/

namespace MatView

theorem assignRows_congr {α : Type} (v : MatView) (e e1 : Nat → Nat → α) (c : Nat)
    (g : Nat → α) (n : Nat) (h : ∀ r, r < n → e r c = e1 r c) :
    assignRows v e c n g = assignRows v e1 c n g := by
  induction n with
  | zero => rfl
  | succ n ih =>
    simp only [assignRows]
    rw [ih (fun r hr => h r (by omega)), h n (by omega)]

theorem assignCols_congr {α : Type} (v : MatView) (e e1 : Nat → Nat → α) (g : Nat → α)
    (n : Nat) (h : ∀ r c, r < v.rows → c < n → e r c = e1 r c) :
    assignCols v e n g = assignCols v e1 n g := by
  induction n with
  | zero => rfl
  | succ n ih =>
    simp only [assignCols]
    rw [ih (fun r c hr hc => h r c hr (by omega)),
      assignRows_congr v e e1 n _ v.rows (fun r hr => h r n hr (by omega))]

/-- An assignment depends on the right-hand side only through the elements in range. -/
theorem assign_congr {α : Type} (v : MatView) (g : Nat → α) (e e1 : Nat → Nat → α)
    (h : ∀ r c, r < v.rows → c < v.cols → e r c = e1 r c) : v.assign g e = v.assign g e1 :=
  assignCols_congr v e e1 g v.cols h

end MatView

namespace WaypointConstraints
open VariableGetter

theorem waypoints_call_idx {α : Type} [Sub α] (d : Dims) (self : WaypointConstraints α)
    (out : Nat → α) (g : Nat) (x : Nat → α) (ld : LagrangeDerivatives α) (i k : Nat)
    (hi : i < d.n_w) (hk : k < d.n_x) :
    (call d self out g x ld).1 (g + (i * d.n_x + k))
      = (state d (d.n_c - 1) i).read x k 0 - self.waypoints k i := by
  have h := MatView.assign_map_idx g d.n_x d.n_w out
    (fun r c => (statesAtCollocationPoint d (d.n_c - 1)).read x r c - self.waypoints r c) hk hi
  have e : g + (i * d.n_x + k) = g + k + d.n_x * i := by ring
  unfold call
  simp only []
  rw [e, h]
  simp only [MatView.read, state_idx_colloc, statesAtCollocationPoint_idx]

/-- C9. The Waypoints block stores at output offset `i*n_x + k` the state `k` at the last
node of segment `i` minus `waypoints(k, i)`; hence, when every last-node state equals its
target, all `n_x * n_w` residuals are zero. -/
theorem waypoints_residual {α : Type} [Field α] (d : Dims) (self : WaypointConstraints α)
    (out : Nat → α) (g : Nat) (x : Nat → α) (ld : LagrangeDerivatives α) :
    (∀ i k, i < d.n_w → k < d.n_x →
      (call d self out g x ld).1 (g + (i * d.n_x + k))
        = (state d (d.n_c - 1) i).read x k 0 - self.waypoints k i) ∧
    ((∀ i k, i < d.n_w → k < d.n_x →
        (state d (d.n_c - 1) i).read x k 0 = self.waypoints k i) →
      ∀ p, p < n_constraints d → (call d self out g x ld).1 (g + p) = 0) := by
  refine ⟨fun i k hi hk => waypoints_call_idx d self out g x ld i k hi hk, ?_⟩
  intro h p hp
  obtain ⟨k, i, hk, hi, rfl⟩ := MatView.exists_row_col hp
  have e : g + (k + d.n_x * i) = g + (i * d.n_x + k) := by ring
  rw [e, waypoints_call_idx d self out g x ld i k hi hk, h i k hi hk, sub_self]

/-- C9 for `n_x = 6`, `n_w = 2`, the targets `[2, 2, -1, 0, 0, 0]` and
`[0, 0, 0, 0, 0, 0]` and a buffer whose last-node states are the targets: the residual is
twelve zeros. -/
theorem waypoints_residual_witness :
    (call ⟨6, 4, 2, 2⟩ ⟨exWaypoints⟩ (fun _ => 5) 0 exWaypointBuffer
        ⟨fun _ _ => 0, fun _ _ => 0⟩).1 (0 + (0 * 6 + 2))
      = (state ⟨6, 4, 2, 2⟩ (2 - 1) 0).read exWaypointBuffer 2 0 - exWaypoints 2 0 ∧
    (List.range 12).map (fun p => (call ⟨6, 4, 2, 2⟩ ⟨exWaypoints⟩ (fun _ => 5) 0
        exWaypointBuffer ⟨fun _ _ => 0, fun _ _ => 0⟩).1 (0 + p))
      = List.replicate 12 0 :=
  have h := waypoints_residual ⟨6, 4, 2, 2⟩ ⟨exWaypoints⟩ (fun _ => 5) 0 exWaypointBuffer
    ⟨fun _ _ => 0, fun _ _ => 0⟩
  have hz := h.2 (by
    intro i k hi hk
    have hi2 : i < 2 := hi
    have hk6 : k < 6 := hk
    interval_cases i <;> interval_cases k <;>
      norm_num [MatView.read, state_idx, exWaypoints, exWaypointBuffer])
  ⟨h.1 0 2 (by decide) (by decide), by
    simp only [List.range, List.range.loop, List.map, List.replicate]
    rw [hz 0 (by decide), hz 1 (by decide), hz 2 (by decide), hz 3 (by decide),
      hz 4 (by decide), hz 5 (by decide), hz 6 (by decide), hz 7 (by decide),
      hz 8 (by decide), hz 9 (by decide), hz 10 (by decide), hz 11 (by decide)]⟩

end WaypointConstraints

/-! ## The Initial-state block -/

namespace InitialStateConstraints
open VariableGetter

theorem initial_call_idx {α : Type} [Sub α] (d : Dims) (self : InitialStateConstraints α)
    (out : Nat → α) (g : Nat) (x : Nat → α) (ld : LagrangeDerivatives α) (k : Nat)
    (hk : k < d.n_x) :
    (call d self out g x ld).1 (g + k) = (state d 0 0).read x k 0 - self.initial_state k := by
  have h := MatView.assign_map_idx g d.n_x 1 out
    (fun r c => (state d 0 0).read x r c - self.initial_state r) hk (show 0 < 1 by decide)
  simp only [Nat.mul_zero, Nat.add_zero] at h
  exact h

/-- C10. The Initial-state block stores at output offset `k` the state `k` at node 0 of
segment 0 minus `initial_state[k]`; its residual is all zeros exactly when that state is
the initial state; and two buffers with the same state at node 0 of segment 0 give the same
output memory and cursor, whatever their other positions and the derivative caches are. -/
theorem initial_state_residual {α : Type} [Field α] (d : Dims)
    (self : InitialStateConstraints α) (out : Nat → α) (g : Nat) (x : Nat → α)
    (ld : LagrangeDerivatives α) :
    (∀ k, k < d.n_x →
      (call d self out g x ld).1 (g + k)
        = (state d 0 0).read x k 0 - self.initial_state k) ∧
    ((∀ k, k < n_constraints d → (call d self out g x ld).1 (g + k) = 0) ↔
      (∀ k, k < d.n_x → (state d 0 0).read x k 0 = self.initial_state k)) ∧
    (∀ (y : Nat → α) (ld1 : LagrangeDerivatives α),
      (∀ k, k < d.n_x → (state d 0 0).read y k 0 = (state d 0 0).read x k 0) →
      call d self out g y ld1 = call d self out g x ld) := by
  refine ⟨fun k hk => initial_call_idx d self out g x ld k hk, ?_, ?_⟩
  · constructor
    · intro h k hk
      have h1 := h k hk
      rw [initial_call_idx d self out g x ld k hk, sub_eq_zero] at h1
      exact h1
    · intro h k hk
      rw [initial_call_idx d self out g x ld k hk, h k hk, sub_self]
  · intro y ld1 h
    unfold call
    simp only []
    congr 1
    apply MatView.assign_congr
    intro r c hr hc
    have hc0 : c = 0 := by
      have : c < 1 := hc
      omega
    subst hc0
    rw [h r hr]

end InitialStateConstraints

/-! ## The Smooth-control block -/

namespace SmoothControlConstraints
open VariableGetter

/-- What the Smooth-control block stores for channel `k` at the boundary between the
segments `j` and `j + 1`. -/
theorem smooth_call_idx {α : Type} [Field α] (d : Dims) (out : Nat → α) (g : Nat)
    (x : Nat → α) (ld : LagrangeDerivatives α) (k j : Nat) (hk : k < d.n_u)
    (hj : j + 1 < d.n_w) :
    (call d out g x ld).1 (g + k + d.n_u * j)
      = (control d 0 (j + 1)).read (ld.get 1) k 0
        - (control d (d.n_c - 1) j).read (ld.get 1) k 0 := by
  have h := MatView.assign_map_idx g d.n_u (d.n_w - 1) out
    (fun r c =>
      ((controlsAtCollocationPoint d 0).rightCols (d.n_w - 1)).read (ld.get 1) r c
        - ((controlsAtCollocationPoint d (d.n_c - 1)).leftCols (d.n_w - 1)).read
            (ld.get 1) r c)
    hk (show j < d.n_w - 1 by omega)
  have hcols : d.n_w - (d.n_w - 1) = 1 := by omega
  have hright : ((controlsAtCollocationPoint d 0).rightCols (d.n_w - 1)).idx k j
      = (control d 0 (j + 1)).idx k 0 := by
    rw [control_idx]
    simp only [MatView.rightCols, MatView.idx, controlsAtCollocationPoint,
      varsAtCollocationPoint, MatView.bottomRows, MatView.middleRows, asMatrix, MatView.map,
      hcols, Nat.add_sub_cancel]
    ring
  have hleft : ((controlsAtCollocationPoint d (d.n_c - 1)).leftCols (d.n_w - 1)).idx k j
      = (control d (d.n_c - 1) j).idx k 0 := by
    rw [control_idx]
    simp only [MatView.leftCols, MatView.idx, controlsAtCollocationPoint,
      varsAtCollocationPoint, MatView.bottomRows, MatView.middleRows, asMatrix, MatView.map,
      Nat.add_sub_cancel]
    ring
  simp only [MatView.read, hright, hleft] at h
  exact h

/-- C11. The Smooth-control block stores at output offset `j*n_u + k`, for an interior
boundary `j = 0 .. n_w-2` and a channel `k < n_u`, the order-1 derivative estimate of
control `k` at node 0 of segment `j+1` minus the one at node `n_c-1` of segment `j`; and
two derivative caches whose order-1 slots agree on every control component of every node
give the same output, whatever their state components are. -/
theorem smooth_control_residual {α : Type} [Field α] (d : Dims) (out : Nat → α) (g : Nat)
    (x : Nat → α) (ld : LagrangeDerivatives α) :
    (∀ j k, j + 1 < d.n_w → k < d.n_u →
      (call d out g x ld).1 (g + (j * d.n_u + k))
        = (control d 0 (j + 1)).read (ld.get 1) k 0
          - (control d (d.n_c - 1) j).read (ld.get 1) k 0) ∧
    (0 < d.n_c → ∀ ld1 : LagrangeDerivatives α,
      (∀ c w k, c < d.n_c → w < d.n_w → k < d.n_u →
        (control d c w).read (ld1.get 1) k 0 = (control d c w).read (ld.get 1) k 0) →
      call d out g x ld1 = call d out g x ld) := by
  constructor
  · intro j k hj hk
    have e : g + (j * d.n_u + k) = g + k + d.n_u * j := by ring
    rw [e]
    exact smooth_call_idx d out g x ld k j hk hj
  · intro hc ld1 h
    unfold call
    simp only []
    congr 1
    apply MatView.assign_congr
    intro r c hr hcol
    have hr1 : r < d.n_u := hr
    have hc1 : c < d.n_w - 1 := hcol
    have hcols : d.n_w - (d.n_w - 1) = 1 := by omega
    have hright : ((controlsAtCollocationPoint d 0).rightCols (d.n_w - 1)).idx r c
        = (control d 0 (c + 1)).idx r 0 := by
      rw [control_idx]
      simp only [MatView.rightCols, MatView.idx, controlsAtCollocationPoint,
        varsAtCollocationPoint, MatView.bottomRows, MatView.middleRows, asMatrix,
        MatView.map, hcols, Nat.add_sub_cancel]
      ring
    have hleft : ((controlsAtCollocationPoint d (d.n_c - 1)).leftCols (d.n_w - 1)).idx r c
        = (control d (d.n_c - 1) c).idx r 0 := by
      rw [control_idx]
      simp only [MatView.leftCols, MatView.idx, controlsAtCollocationPoint,
        varsAtCollocationPoint, MatView.bottomRows, MatView.middleRows, asMatrix,
        MatView.map, Nat.add_sub_cancel]
      ring
    have h1 := h 0 (c + 1) r hc (by omega) hr1
    have h2 := h (d.n_c - 1) c r (by omega) (by omega) hr1
    simp only [MatView.read] at h1 h2 ⊢
    rw [hright, hleft, h1, h2]

end SmoothControlConstraints

/-! ## The contract of a block: cursor, written range, frame -/

namespace MatView

/-- What an assignment through `Map(g)` stores at `g + p` depends neither on the memory
before the assignment nor on `g`. -/
theorem assign_map_written {α : Type} (g g1 rows cols : Nat) (out out1 : Nat → α)
    (e : Nat → Nat → α) (p : Nat) (hp : p < rows * cols) :
    (map g rows cols).assign out e (g + p) = (map g1 rows cols).assign out1 e (g1 + p) := by
  obtain ⟨r, c, hr, hc, rfl⟩ := exists_row_col hp
  rw [← Nat.add_assoc, ← Nat.add_assoc, assign_map_idx _ _ _ _ _ hr hc,
    assign_map_idx _ _ _ _ _ hr hc]

theorem assign_map_frame {α : Type} (g rows cols : Nat) (out : Nat → α)
    (e : Nat → Nat → α) (p : Nat) (hp : p < g ∨ g + rows * cols ≤ p) :
    (map g rows cols).assign out e p = out p := by
  rcases hp with h | h
  · exact assign_map_of_lt g rows cols out e p h
  · exact assign_map_of_ge g rows cols out e p h

end MatView

namespace ControlRateConstraints
open VariableGetter

/-- The Control-rate loop writes nothing before the cursor it started from. -/
theorem controlRate_callLoop_lt {α : Type} [Field α] (d : Dims)
    (self : ControlRateConstraints α) (dx : Nat → α) (n : Nat) (out : Nat → α) (g p : Nat)
    (hp : p < g) : (callLoop d self dx n (out, g)).1 p = out p := by
  induction n with
  | zero => rfl
  | succ n ih =>
    rw [controlRate_callLoop_succ]
    simp only []
    rw [controlRate_callLoop_cursor]
    rw [MatView.assign_map_of_lt _ _ _ _ _ _ (by omega),
      MatView.assign_map_of_lt _ _ _ _ _ _ (by omega)]
    exact ih

/-- What the Control-rate loop stores at `g + p` depends neither on the memory before the
call nor on `g`. -/
theorem controlRate_callLoop_written {α : Type} [Field α] (d : Dims)
    (self : ControlRateConstraints α) (dx : Nat → α) (out out1 : Nat → α) (g g1 p : Nat)
    (hp : p < (2 * (d.n_u * d.n_c)) * d.n_w) :
    (callLoop d self dx d.n_w (out, g)).1 (g + p)
      = (callLoop d self dx d.n_w (out1, g1)).1 (g1 + p) := by
  obtain ⟨q, i_w, hq, hw, rfl⟩ := MatView.exists_row_col hp
  by_cases hlow : q < d.n_u * d.n_c
  · obtain ⟨k, c, hk, hc, rfl⟩ := MatView.exists_row_col hlow
    have e1 : ∀ a : Nat, a + (k + d.n_u * c + 2 * (d.n_u * d.n_c) * i_w)
        = a + i_w * (2 * (d.n_u * d.n_c)) + k + d.n_u * c := by intro a; ring
    rw [e1, e1, (controlRate_callLoop_idx d self dx d.n_w out g i_w k c hw hk hc).1,
      (controlRate_callLoop_idx d self dx d.n_w out1 g1 i_w k c hw hk hc).1]
  · have hq2 : q - d.n_u * d.n_c < d.n_u * d.n_c := by omega
    obtain ⟨k, c, hk, hc, hkc⟩ := MatView.exists_row_col hq2
    have e2 : ∀ a : Nat, a + (q + 2 * (d.n_u * d.n_c) * i_w)
        = a + i_w * (2 * (d.n_u * d.n_c)) + d.n_u * d.n_c + k + d.n_u * c := by
      intro a
      have : q = d.n_u * d.n_c + (k + d.n_u * c) := by omega
      rw [this]; ring
    rw [e2, e2, (controlRate_callLoop_idx d self dx d.n_w out g i_w k c hw hk hc).2,
      (controlRate_callLoop_idx d self dx d.n_w out1 g1 i_w k c hw hk hc).2]

end ControlRateConstraints

namespace DynamicsConstraints
open VariableGetter

/-- The Dynamics loop writes nothing outside the range it has covered. -/
theorem dynamics_callLoop_frame {α : Type} [Field α] (sin cos : α → α) (d : Dims)
    (hx : d.n_x = 6) (x dx : Nat → α) (n : Nat) (out : Nat → α) (g p : Nat)
    (hp : p < g ∨ g + n * (6 * d.n_c) ≤ p) :
    (callLoop sin cos d x dx n (out, g)).1 p = out p := by
  induction n with
  | zero => rfl
  | succ n ih =>
    rw [dynamics_callLoop_succ]
    simp only []
    rw [dynamics_callLoop_cursor, hx]
    have hexp : (n + 1) * (6 * d.n_c) = n * (6 * d.n_c) + 6 * d.n_c := by ring
    rw [MatView.assign_map_frame _ _ _ _ _ _ (by omega),
      dynamics_frame sin cos d hx _ _ _ _ _ (by omega)]
    exact ih (by omega)

/-- What the Dynamics loop stores at `g + p` depends neither on the memory before the call
nor on `g`. -/
theorem dynamics_callLoop_written {α : Type} [Field α] (sin cos : α → α) (d : Dims)
    (hx : d.n_x = 6) (x dx : Nat → α) (out out1 : Nat → α) (g g1 p : Nat)
    (hp : p < (6 * d.n_c) * d.n_w) :
    (callLoop sin cos d x dx d.n_w (out, g)).1 (g + p)
      = (callLoop sin cos d x dx d.n_w (out1, g1)).1 (g1 + p) := by
  obtain ⟨q, i_w, hq, hw, rfl⟩ := MatView.exists_row_col hp
  obtain ⟨k, c, hk, hc, rfl⟩ := MatView.exists_row_col hq
  have e1 : ∀ a : Nat, a + (k + 6 * c + 6 * d.n_c * i_w)
      = a + i_w * (6 * d.n_c) + k + 6 * c := by intro a; ring
  rw [e1, e1, dynamics_callLoop_idx sin cos d hx x dx d.n_w out g i_w k c hw hk hc,
    dynamics_callLoop_idx sin cos d hx x dx d.n_w out1 g1 i_w k c hw hk hc]
  congr 1
  obtain ⟨a012, a3, a4, a5⟩ := dynamics_idx sin cos d hx x
    (callLoop sin cos d x dx i_w (out, g)).1 (g + i_w * (6 * d.n_c)) i_w c hc
  obtain ⟨b012, b3, b4, b5⟩ := dynamics_idx sin cos d hx x
    (callLoop sin cos d x dx i_w (out1, g1)).1 (g1 + i_w * (6 * d.n_c)) i_w c hc
  have hk6 : k < 3 ∨ k = 3 ∨ k = 4 ∨ k = 5 := by omega
  rcases hk6 with h | h | h | h
  · rw [a012 k h, b012 k h]
  · subst h; rw [a3, b3]
  · subst h; rw [a4, b4]
  · subst h; rw [a5, b5]

end DynamicsConstraints

namespace Block
open VariableGetter

theorem controlRate_count (d : Dims) :
    ControlRateConstraints.n_constraints d = (2 * (d.n_u * d.n_c)) * d.n_w := by
  unfold ControlRateConstraints.n_constraints; ring

theorem dynamics_count (d : Dims) (hx : d.n_x = 6) :
    DynamicsConstraints.n_constraints d = (6 * d.n_c) * d.n_w := by
  unfold DynamicsConstraints.n_constraints; rw [hx]; ring

/-- Every block returns its cursor advanced by its declared count. -/
theorem call_cursor {α : Type} [Field α] (sin cos : α → α) (d : Dims) (b : Block α)
    (out : Nat → α) (g : Nat) (x : Nat → α) (ld : LagrangeDerivatives α) :
    (b.call sin cos d out g x ld).2 = g + b.n_constraints d := by
  cases b with
  | collocation => rfl
  | controlRate self =>
    show (ControlRateConstraints.callLoop d self (ld.get 1) d.n_w (out, g)).2 = _
    rw [ControlRateConstraints.controlRate_callLoop_cursor]
    simp only [n_constraints, ControlRateConstraints.n_constraints]
    ring
  | dynamics =>
    show (DynamicsConstraints.callLoop sin cos d x (ld.get 1) d.n_w (out, g)).2 = _
    rw [DynamicsConstraints.dynamics_callLoop_cursor]
    simp only [n_constraints, DynamicsConstraints.n_constraints]
    ring
  | initialState self => rfl
  | smoothControl => rfl
  | waypoints self => rfl
  | waypoint self => rfl

/-- What a block stores at `g + p`, for `p` below its declared count, depends neither on
the memory before the call nor on `g`. -/
theorem call_written {α : Type} [Field α] (sin cos : α → α) (d : Dims) (b : Block α)
    (hb : b.wellFormed d) (out out1 : Nat → α) (g g1 : Nat) (x : Nat → α)
    (ld : LagrangeDerivatives α) (p : Nat) (hp : p < b.n_constraints d) :
    (b.call sin cos d out g x ld).1 (g + p) = (b.call sin cos d out1 g1 x ld).1 (g1 + p) := by
  cases b with
  | collocation => exact MatView.assign_map_written g g1 _ _ out out1 _ p hp
  | controlRate self =>
    simp only [n_constraints] at hp
    rw [controlRate_count] at hp
    exact ControlRateConstraints.controlRate_callLoop_written d self (ld.get 1) out out1 g g1
      p hp
  | dynamics =>
    simp only [n_constraints] at hp
    rw [dynamics_count d hb.1] at hp
    exact DynamicsConstraints.dynamics_callLoop_written sin cos d hb.1 x (ld.get 1) out out1
      g g1 p hp
  | initialState self =>
    exact MatView.assign_map_written g g1 d.n_x 1 out out1 _ p
      (by simpa [n_constraints, InitialStateConstraints.n_constraints] using hp)
  | smoothControl => exact MatView.assign_map_written g g1 _ _ out out1 _ p hp
  | waypoints self => exact MatView.assign_map_written g g1 _ _ out out1 _ p hp
  | waypoint self =>
    exact MatView.assign_map_written g g1 1 d.n_w out out1 _ p
      (by simpa [n_constraints, WaypointConstraint.n_constraints] using hp)

/-- A block leaves the memory outside `[g, g + n_constraints)` alone. -/
theorem call_frame {α : Type} [Field α] (sin cos : α → α) (d : Dims) (b : Block α)
    (hb : b.wellFormed d) (out : Nat → α) (g : Nat) (x : Nat → α)
    (ld : LagrangeDerivatives α) (p : Nat) (hp : p < g ∨ g + b.n_constraints d ≤ p) :
    (b.call sin cos d out g x ld).1 p = out p := by
  cases b with
  | collocation => exact MatView.assign_map_frame g _ _ out _ p hp
  | controlRate self =>
    simp only [n_constraints] at hp
    rw [controlRate_count] at hp
    rcases hp with h | h
    · exact ControlRateConstraints.controlRate_callLoop_lt d self (ld.get 1) d.n_w out g p h
    · exact ControlRateConstraints.controlRate_callLoop_ge d self (ld.get 1) d.n_w out g p
        (by
          have : d.n_w * (2 * (d.n_u * d.n_c)) = (2 * (d.n_u * d.n_c)) * d.n_w := by ring
          omega)
  | dynamics =>
    simp only [n_constraints] at hp
    rw [dynamics_count d hb.1] at hp
    exact DynamicsConstraints.dynamics_callLoop_frame sin cos d hb.1 x (ld.get 1) d.n_w out g
      p (by
        have : d.n_w * (6 * d.n_c) = (6 * d.n_c) * d.n_w := by ring
        omega)
  | initialState self =>
    exact MatView.assign_map_frame g d.n_x 1 out _ p
      (by simpa [n_constraints, InitialStateConstraints.n_constraints] using hp)
  | smoothControl => exact MatView.assign_map_frame g _ _ out _ p hp
  | waypoints self => exact MatView.assign_map_frame g _ _ out _ p hp
  | waypoint self =>
    exact MatView.assign_map_frame g 1 d.n_w out _ p
      (by simpa [n_constraints, WaypointConstraint.n_constraints] using hp)

/-- C12. Each of the seven blocks (with its static assertions satisfied) returns exactly
`g + n_constraints`, determines every output position of `[g, g + n_constraints)`
independently of the memory it found there, and leaves every position outside that range
unchanged; the cursors advanced by the loops of Control-rate and Dynamics end at the
declared counts `2*n_u*n_w*n_c` and `n_c*n_x*n_w`. -/
theorem block_writes_exactly_its_range {α : Type} [Field α] (sin cos : α → α) (d : Dims)
    (b : Block α) (out : Nat → α) (g : Nat) (x : Nat → α) (ld : LagrangeDerivatives α)
    (hb : b.wellFormed d) :
    (b.call sin cos d out g x ld).2 = g + b.n_constraints d ∧
    (∀ (out1 : Nat → α) p, p < b.n_constraints d →
      (b.call sin cos d out1 g x ld).1 (g + p) = (b.call sin cos d out g x ld).1 (g + p)) ∧
    (∀ p, p < g ∨ g + b.n_constraints d ≤ p → (b.call sin cos d out g x ld).1 p = out p) ∧
    (∀ self : ControlRateConstraints α,
      (ControlRateConstraints.callLoop d self (ld.get 1) d.n_w (out, g)).2
        = g + 2 * d.n_u * d.n_w * d.n_c) ∧
    (DynamicsConstraints.callLoop sin cos d x (ld.get 1) d.n_w (out, g)).2
      = g + d.n_c * d.n_x * d.n_w := by
  refine ⟨call_cursor sin cos d b out g x ld, ?_, ?_, ?_, ?_⟩
  · intro out1 p hp
    exact call_written sin cos d b hb out1 out g g x ld p hp
  · intro p hp
    exact call_frame sin cos d b hb out g x ld p hp
  · intro self
    rw [ControlRateConstraints.controlRate_callLoop_cursor]; ring
  · rw [DynamicsConstraints.dynamics_callLoop_cursor]; ring

/-- C12 for the Dynamics block in the configuration of `test_constraints.cpp`, called at
cursor `50` on the buffer `x[p] = p`: it returns `50 + 396`, and position `49` keeps its
value. -/
theorem block_writes_exactly_its_range_witness :
    ((Block.dynamics : Block ℚ).call (fun t => t) (fun _ => 1) ⟨6, 4, 11, 6⟩ (fun _ => 7)
        50 (fun p => (p : ℚ)) ⟨fun _ _ => 0, fun _ _ => 0⟩).2 = 446 ∧
    ((Block.dynamics : Block ℚ).call (fun t => t) (fun _ => 1) ⟨6, 4, 11, 6⟩ (fun _ => 7)
        50 (fun p => (p : ℚ)) ⟨fun _ _ => 0, fun _ _ => 0⟩).1 49 = 7 :=
  have h := block_writes_exactly_its_range (fun t => t) (fun _ => 1) ⟨6, 4, 11, 6⟩
    (Block.dynamics : Block ℚ) (fun _ => 7) 50 (fun p => (p : ℚ))
    ⟨fun _ _ => 0, fun _ _ => 0⟩ ⟨rfl, rfl⟩
  ⟨h.1, h.2.2.1 49 (Or.inl (by decide))⟩

end Block

/-! ## Constraint fusion: counts and derivative order -/

namespace FusedConstraint

theorem element_cons_succ {α : Type} (a : Block α) (t : List (Block α)) (l : Nat) :
    element (a :: t) (l + 1) = element t l := rfl

theorem element_cons_zero {α : Type} (a : Block α) (t : List (Block α)) :
    element (a :: t) 0 = a := rfl

theorem element_mem {α : Type} (t : List (Block α)) (l : Nat) (hl : l < t.length) :
    element t l ∈ t := by
  unfold element
  rw [List.getD_eq_getElem t Block.collocation hl]
  exact List.getElem_mem hl

theorem exists_element_of_mem {α : Type} (t : List (Block α)) (b : Block α) (hb : b ∈ t) :
    ∃ l, l < t.length ∧ element t l = b := by
  obtain ⟨l, hl, rfl⟩ := List.getElem_of_mem hb
  exact ⟨l, hl, by unfold element; rw [List.getD_eq_getElem t Block.collocation hl]⟩

/-- Summing over the indices of the tuple is summing over the list. -/
theorem sum_range_element {α : Type} (f : Block α → Nat) (t : List (Block α)) :
    ∑ l ∈ Finset.range t.length, f (element t l) = (t.map f).sum := by
  induction t with
  | nil => simp
  | cons a t ih =>
    rw [List.length_cons, Finset.sum_range_succ', List.map_cons, List.sum_cons]
    simp only [element_cons_succ, element_cons_zero]
    rw [ih, Nat.add_comm]

theorem element_take {α : Type} (t : List (Block α)) (b l : Nat) (hl : l < b) :
    element (t.take b) l = element t l := by
  unfold element
  simp [List.getElem?_take, hl]

/-- Summing over the first `b` indices of the tuple is summing over the first `b` blocks. -/
theorem sum_range_element_take {α : Type} (f : Block α → Nat) (t : List (Block α))
    (b : Nat) (hb : b ≤ t.length) :
    ∑ l ∈ Finset.range b, f (element t l) = ((t.take b).map f).sum := by
  rw [← sum_range_element f (t.take b), List.length_take, Nat.min_eq_left hb]
  refine Finset.sum_congr rfl (fun l hl => ?_)
  rw [element_take t b l (Finset.mem_range.mp hl)]

theorem numberOfConstraints_eq {α : Type} (d : Dims) (t : List (Block α)) (i : Nat) :
    numberOfConstraints d t i
      = ∑ l ∈ Finset.range (i + 1), (element t l).n_constraints d := by
  induction i with
  | zero => simp [numberOfConstraints]
  | succ i ih =>
    rw [numberOfConstraints, ih, Finset.sum_range_succ _ (i + 1), Nat.add_comm]

theorem n_constraints_eq_sum_range {α : Type} (d : Dims) (t : List (Block α))
    (ht : t ≠ []) :
    n_constraints d t = ∑ l ∈ Finset.range t.length, (element t l).n_constraints d := by
  have hlen : 0 < t.length := List.length_pos.mpr ht
  unfold n_constraints n_constraint_classes
  rw [numberOfConstraints_eq, Nat.sub_add_cancel hlen]

/-- C13. For a non-empty tuple, `n_constraints` is the sum of the declared counts of its
blocks; for the six blocks Continuity, Control-rate, Dynamics, Initial-state,
Smooth-control, Waypoints it is
`(n_x+n_u)*(n_w-1) + 2*n_u*n_w*n_c + n_c*n_x*n_w + n_x + n_u*(n_w-1) + n_x*n_w`. -/
theorem fused_count_is_sum {α : Type} (d : Dims) (t : List (Block α)) (ht : t ≠ []) :
    n_constraints d t = (t.map (Block.n_constraints d)).sum ∧
    (∀ (cr : ControlRateConstraints α) (ic : InitialStateConstraints α)
        (wp : WaypointConstraints α),
      n_constraints d [Block.collocation, Block.controlRate cr, Block.dynamics,
          Block.initialState ic, Block.smoothControl, Block.waypoints wp]
        = (d.n_x + d.n_u) * (d.n_w - 1) + 2 * d.n_u * d.n_w * d.n_c + d.n_c * d.n_x * d.n_w
          + d.n_x + d.n_u * (d.n_w - 1) + d.n_x * d.n_w) := by
  constructor
  · rw [n_constraints_eq_sum_range d t ht, sum_range_element]
  · intro cr ic wp
    simp only [n_constraints, n_constraint_classes, List.length_cons, List.length_nil,
      numberOfConstraints, element, List.getD_cons_succ, List.getD_cons_zero,
      Block.n_constraints, CollocationConstraints.n_constraints,
      ControlRateConstraints.n_constraints, DynamicsConstraints.n_constraints,
      InitialStateConstraints.n_constraints, SmoothControlConstraints.n_constraints,
      WaypointConstraints.n_constraints]
    ring

/-- C13 in the configuration of `test_constraints.cpp`: the six blocks for
`(n_x, n_u, n_c, n_w) = (6, 4, 11, 6)` give `50 + 528 + 396 + 6 + 20 + 36 = 1036`. -/
theorem fused_count_is_sum_witness :
    n_constraints ⟨6, 4, 11, 6⟩
        ([Block.collocation, Block.controlRate ⟨fun _ => -1, fun _ => 1⟩, Block.dynamics,
          Block.initialState ⟨fun _ => 0⟩, Block.smoothControl,
          Block.waypoints ⟨fun _ _ => 0⟩] : List (Block ℚ))
      = 50 + 528 + 396 + 6 + 20 + 36 ∧
    50 + 528 + 396 + 6 + 20 + 36 = 1036 :=
  ⟨(fused_count_is_sum ⟨6, 4, 11, 6⟩
      ([Block.collocation, Block.controlRate ⟨fun _ => -1, fun _ => 1⟩, Block.dynamics,
        Block.initialState ⟨fun _ => 0⟩, Block.smoothControl,
        Block.waypoints ⟨fun _ _ => 0⟩] : List (Block ℚ))
      (by simp)).1.trans (by rfl), by decide⟩

theorem maxDerivative_spec {α : Type} (t : List (Block α)) (i : Nat) :
    (∀ l, l ≤ i → (element t l).derivatives ≤ maxDerivative t i) ∧
    (∃ l, l ≤ i ∧ (element t l).derivatives = maxDerivative t i) := by
  induction i with
  | zero =>
    refine ⟨fun l hl => ?_, 0, le_refl _, rfl⟩
    have : l = 0 := by omega
    subst this
    exact le_refl _
  | succ i ih =>
    obtain ⟨hle, m, hm, hmeq⟩ := ih
    by_cases h : (element t (i + 1)).derivatives ≥ maxDerivative t i
    · have e : maxDerivative t (i + 1) = (element t (i + 1)).derivatives := by
        rw [maxDerivative, if_pos h]
      rw [e]
      refine ⟨fun l hl => ?_, i + 1, le_refl _, rfl⟩
      by_cases hl2 : l = i + 1
      · rw [hl2]
      · exact le_trans (hle l (by omega)) h
    · have e : maxDerivative t (i + 1) = maxDerivative t i := by
        rw [maxDerivative, if_neg h]
      rw [e]
      refine ⟨fun l hl => ?_, m, by omega, hmeq⟩
      by_cases hl2 : l = i + 1
      · rw [hl2]; omega
      · exact hle l (by omega)

/-- C14. For a non-empty tuple, `max_derivative` is the maximum of the declared
`derivatives` of its blocks: no block declares more, and some block declares exactly it;
for the six blocks of `test_constraints.cpp` it is `1`. -/
theorem fused_max_derivative_is_max {α : Type} (t : List (Block α)) (ht : t ≠ []) :
    (∀ b, b ∈ t → b.derivatives ≤ max_derivative t) ∧
    (∃ b, b ∈ t ∧ b.derivatives = max_derivative t) ∧
    (∀ (cr : ControlRateConstraints α) (ic : InitialStateConstraints α)
        (wp : WaypointConstraints α),
      max_derivative [Block.collocation, Block.controlRate cr, Block.dynamics,
          Block.initialState ic, Block.smoothControl, Block.waypoints wp] = 1) := by
  have hlen : 0 < t.length := List.length_pos.mpr ht
  obtain ⟨hle, m, hm, hmeq⟩ := maxDerivative_spec t (t.length - 1)
  refine ⟨?_, ?_, ?_⟩
  · intro b hb
    obtain ⟨l, hl, rfl⟩ := exists_element_of_mem t b hb
    exact hle l (by omega)
  · exact ⟨element t m, element_mem t m (by omega), hmeq⟩
  · intro cr ic wp
    rfl

/-- C14 on a tuple of order-0 blocks closed by the Control-rate block: the maximum is the
order `1` of that block. -/
theorem fused_max_derivative_is_max_witness :
    (Block.controlRate ⟨fun _ => -1, fun _ => 1⟩ : Block ℚ).derivatives
      ≤ max_derivative ([Block.collocation, Block.initialState ⟨fun _ => 0⟩,
          Block.controlRate ⟨fun _ => -1, fun _ => 1⟩] : List (Block ℚ)) ∧
    max_derivative ([Block.collocation, Block.initialState ⟨fun _ => 0⟩,
          Block.controlRate ⟨fun _ => -1, fun _ => 1⟩] : List (Block ℚ)) = 1 :=
  ⟨(fused_max_derivative_is_max
      ([Block.collocation, Block.initialState ⟨fun _ => 0⟩,
        Block.controlRate ⟨fun _ => -1, fun _ => 1⟩] : List (Block ℚ)) (by simp)).1 _
      (by simp), rfl⟩


theorem sum_range_mono (n : Nat → Nat) (a b : Nat) :
    ∑ l ∈ Finset.range a, n l ≤ ∑ l ∈ Finset.range (a + b), n l := by
  induction b with
  | zero => exact le_refl _
  | succ b ih =>
    rw [← Nat.add_assoc, Finset.sum_range_succ]
    omega

/-- The recursions over the tuple (`fillUpperBound`, `fillLowerBound`,
`evaluateConstraintsTuple`) thread a cursor through steps that each advance it by their
count, determine the positions they cover and leave the others alone: started at the
offset of element `i`, the recursion ends at the offset after element `i + k`, every
covered position holds the value of its step, and the rest of the memory is unchanged. -/
theorem chain_spec {β : Type} (step : Nat → (Nat → β) × Nat → (Nat → β) × Nat)
    (F : Nat → Nat → (Nat → β) × Nat → (Nat → β) × Nat)
    (hF0 : ∀ i s, F 0 i s = step i s)
    (hFs : ∀ k i s, F (k + 1) i s = F k (i + 1) (step i s))
    (n : Nat → Nat) (val : Nat → Nat → β)
    (hcursor : ∀ i mem g, (step i (mem, g)).2 = g + n i)
    (hwritten : ∀ i mem g p, p < n i → (step i (mem, g)).1 (g + p) = val i p)
    (hframe : ∀ i mem g p, p < g ∨ g + n i ≤ p → (step i (mem, g)).1 p = mem p)
    (g0 : Nat) :
    ∀ k i mem,
      (F k i (mem, g0 + ∑ l ∈ Finset.range i, n l)).2
          = g0 + ∑ l ∈ Finset.range (i + k + 1), n l ∧
      (∀ j p, i ≤ j → j ≤ i + k → p < n j →
        (F k i (mem, g0 + ∑ l ∈ Finset.range i, n l)).1
            (g0 + ∑ l ∈ Finset.range j, n l + p) = val j p) ∧
      (∀ p, p < g0 + ∑ l ∈ Finset.range i, n l
            ∨ g0 + ∑ l ∈ Finset.range (i + k + 1), n l ≤ p →
        (F k i (mem, g0 + ∑ l ∈ Finset.range i, n l)).1 p = mem p) := by
  intro k
  induction k with
  | zero =>
    intro i mem
    simp only [hF0, Nat.add_zero]
    refine ⟨?_, ?_, ?_⟩
    · rw [hcursor, Finset.sum_range_succ, Nat.add_assoc]
    · intro j p hij hji hp
      have : j = i := by omega
      subst this
      exact hwritten j mem _ p hp
    · intro p hp
      apply hframe
      rw [Finset.sum_range_succ, ← Nat.add_assoc] at hp
      exact hp
  | succ k ih =>
    intro i mem
    have hstep : step i (mem, g0 + ∑ l ∈ Finset.range i, n l)
        = ((step i (mem, g0 + ∑ l ∈ Finset.range i, n l)).1,
            g0 + ∑ l ∈ Finset.range (i + 1), n l) := by
      apply Prod.ext
      · rfl
      · simp only []
        rw [hcursor, Finset.sum_range_succ, Nat.add_assoc]
    obtain ⟨ih1, ih2, ih3⟩ := ih (i + 1) (step i (mem, g0 + ∑ l ∈ Finset.range i, n l)).1
    have hidx : i + 1 + k + 1 = i + (k + 1) + 1 := by omega
    rw [hidx] at ih1 ih3
    have hmono : ∑ l ∈ Finset.range (i + 1), n l
        ≤ ∑ l ∈ Finset.range (i + (k + 1) + 1), n l := by
      have := sum_range_mono n (i + 1) (k + 1)
      rw [show i + 1 + (k + 1) = i + (k + 1) + 1 by omega] at this
      exact this
    have hsucc : ∑ l ∈ Finset.range (i + 1), n l = ∑ l ∈ Finset.range i, n l + n i :=
      Finset.sum_range_succ _ _
    rw [hFs, hstep]
    refine ⟨ih1, ?_, ?_⟩
    · intro j p hij hji hp
      by_cases hj : j = i
      · subst hj
        rw [ih3 _ (Or.inl (by omega))]
        exact hwritten j mem _ p hp
      · exact ih2 j p (by omega) (by omega) hp
    · intro p hp
      rw [ih3 p (by omega)]
      apply hframe
      omega

end FusedConstraint

/-! ## Constraint fusion: the bound arrays -/

theorem stdFill_written {β : Type} (mem : Nat → β) (first : Nat) (v : β) (n p : Nat)
    (hp : p < n) : stdFill mem first v n (first + p) = v := by
  induction n with
  | zero => omega
  | succ n ih =>
    simp only [stdFill]
    by_cases h : p = n
    · subst h; simp
    · rw [Function.update_noteq (by omega)]
      exact ih (by omega)

theorem stdFill_frame {β : Type} (mem : Nat → β) (first : Nat) (v : β) (n p : Nat)
    (hp : p < first ∨ first + n ≤ p) : stdFill mem first v n p = mem p := by
  induction n with
  | zero => rfl
  | succ n ih =>
    simp only [stdFill]
    rw [Function.update_noteq (by omega)]
    exact ih (by omega)

namespace Block

theorem zero_literal {β : Type} [Field β] : (0.0 : β) = 0 := by norm_num

theorem writeLowerBound_cursor {α β : Type} [Field β] (d : Dims) (b : Block α)
    (mem : Nat → β) (g : Nat) : (b.writeLowerBound d mem g).2 = g + b.n_constraints d := by
  unfold writeLowerBound
  split <;> rfl

theorem writeUpperBound_cursor {α β : Type} [Field β] (d : Dims) (b : Block α)
    (mem : Nat → β) (g : Nat) : (b.writeUpperBound d mem g).2 = g + b.n_constraints d := by
  unfold writeUpperBound
  split <;> rfl

theorem writeLowerBound_written {α β : Type} [Field β] (d : Dims) (b : Block α)
    (mem : Nat → β) (g p : Nat) (hp : p < b.n_constraints d) :
    (b.writeLowerBound d mem g).1 (g + p) = if b.isInequality then -1e10 else 0 := by
  unfold writeLowerBound
  split
  · exact stdFill_written mem g _ _ p hp
  · rw [← zero_literal]
    exact stdFill_written mem g _ _ p hp

theorem writeUpperBound_written {α β : Type} [Field β] (d : Dims) (b : Block α)
    (mem : Nat → β) (g p : Nat) (hp : p < b.n_constraints d) :
    (b.writeUpperBound d mem g).1 (g + p) = 0 := by
  unfold writeUpperBound
  split
  · rw [← zero_literal]
    exact stdFill_written mem g _ _ p hp
  · rw [← zero_literal]
    exact stdFill_written mem g _ _ p hp

theorem writeLowerBound_frame {α β : Type} [Field β] (d : Dims) (b : Block α)
    (mem : Nat → β) (g p : Nat) (hp : p < g ∨ g + b.n_constraints d ≤ p) :
    (b.writeLowerBound d mem g).1 p = mem p := by
  unfold writeLowerBound
  split
  · exact stdFill_frame mem g _ _ p hp
  · exact stdFill_frame mem g _ _ p hp

theorem writeUpperBound_frame {α β : Type} [Field β] (d : Dims) (b : Block α)
    (mem : Nat → β) (g p : Nat) (hp : p < g ∨ g + b.n_constraints d ≤ p) :
    (b.writeUpperBound d mem g).1 p = mem p := by
  unfold writeUpperBound
  split
  · exact stdFill_frame mem g _ _ p hp
  · exact stdFill_frame mem g _ _ p hp

end Block

namespace FusedConstraint

/-- The lower bounds, block by block. -/
theorem fillLowerBound_spec {α β : Type} [Field β] (d : Dims) (t : List (Block α))
    (k : Nat) (mem : Nat → β) :
    (fillLowerBound d t k 0 (mem, 0)).2
        = ∑ l ∈ Finset.range (k + 1), (element t l).n_constraints d ∧
    (∀ j p, j ≤ k → p < (element t j).n_constraints d →
      (fillLowerBound d t k 0 (mem, 0)).1
          (∑ l ∈ Finset.range j, (element t l).n_constraints d + p)
        = if (element t j).isInequality then -1e10 else 0) ∧
    (∀ p, ∑ l ∈ Finset.range (k + 1), (element t l).n_constraints d ≤ p →
      (fillLowerBound d t k 0 (mem, 0)).1 p = mem p) := by
  have h := chain_spec (fun i s => (element t i).writeLowerBound d s.1 s.2)
    (fillLowerBound d t) (fun _ _ => rfl) (fun _ _ _ => rfl)
    (fun l => (element t l).n_constraints d)
    (fun j _ => if (element t j).isInequality then (-1e10 : β) else 0)
    (fun i mem g => Block.writeLowerBound_cursor d (element t i) mem g)
    (fun i mem g p hp => Block.writeLowerBound_written d (element t i) mem g p hp)
    (fun i mem g p hp => Block.writeLowerBound_frame d (element t i) mem g p hp)
    0 k 0 mem
  simp only [Finset.range_zero, Finset.sum_empty, Nat.zero_add, Nat.add_zero] at h
  obtain ⟨h1, h2, h3⟩ := h
  exact ⟨h1, fun j p hj hp => h2 j p (Nat.zero_le _) hj hp, fun p hp => h3 p (Or.inr hp)⟩

/-- The upper bounds, block by block. -/
theorem fillUpperBound_spec {α β : Type} [Field β] (d : Dims) (t : List (Block α))
    (k : Nat) (mem : Nat → β) :
    (fillUpperBound d t k 0 (mem, 0)).2
        = ∑ l ∈ Finset.range (k + 1), (element t l).n_constraints d ∧
    (∀ j p, j ≤ k → p < (element t j).n_constraints d →
      (fillUpperBound d t k 0 (mem, 0)).1
          (∑ l ∈ Finset.range j, (element t l).n_constraints d + p) = 0) ∧
    (∀ p, ∑ l ∈ Finset.range (k + 1), (element t l).n_constraints d ≤ p →
      (fillUpperBound d t k 0 (mem, 0)).1 p = mem p) := by
  have h := chain_spec (fun i s => (element t i).writeUpperBound d s.1 s.2)
    (fillUpperBound d t) (fun _ _ => rfl) (fun _ _ _ => rfl)
    (fun l => (element t l).n_constraints d)
    (fun _ _ => (0 : β))
    (fun i mem g => Block.writeUpperBound_cursor d (element t i) mem g)
    (fun i mem g p hp => Block.writeUpperBound_written d (element t i) mem g p hp)
    (fun i mem g p hp => Block.writeUpperBound_frame d (element t i) mem g p hp)
    0 k 0 mem
  simp only [Finset.range_zero, Finset.sum_empty, Nat.zero_add, Nat.add_zero] at h
  obtain ⟨h1, h2, h3⟩ := h
  exact ⟨h1, fun j p hj hp => h2 j p (Nat.zero_le _) hj hp, fun p hp => h3 p (Or.inr hp)⟩

/-- Every position below the total count lies in the range of exactly one block. -/
theorem exists_block_of_lt (n : Nat → Nat) (m p : Nat)
    (hp : p < ∑ l ∈ Finset.range m, n l) :
    ∃ j q, j < m ∧ q < n j ∧ p = ∑ l ∈ Finset.range j, n l + q := by
  induction m with
  | zero => simp at hp
  | succ m ih =>
    by_cases h : p < ∑ l ∈ Finset.range m, n l
    · obtain ⟨j, q, hj, hq, e⟩ := ih h
      exact ⟨j, q, by omega, hq, e⟩
    · rw [Finset.sum_range_succ] at hp
      exact ⟨m, p - ∑ l ∈ Finset.range m, n l, by omega, by omega, by omega⟩


/-- C15. For a non-empty tuple, filling either bound array returns the cursor
`n_constraints`; every entry below `n_constraints` is written (it does not depend on what
the array held before); and at every position of the range of block `b`, which starts at
the sum of the counts of the blocks before it, the upper bound is `0` and the lower bound
is `-1e10` for the inequality (Control-rate) block and `0` for an equality block. -/
theorem fused_bounds_by_block {α β : Type} [Field β] (d : Dims) (t : List (Block α))
    (bound : Nat → β) (ht : t ≠ []) :
    (fillLowerBound d t (n_constraint_classes t - 1) 0 (bound, 0)).2 = n_constraints d t ∧
    (fillUpperBound d t (n_constraint_classes t - 1) 0 (bound, 0)).2 = n_constraints d t ∧
    (∀ (bound1 : Nat → β) p, p < n_constraints d t →
      createLowerBound d t bound1 p = createLowerBound d t bound p ∧
      createUpperBound d t bound1 p = createUpperBound d t bound p) ∧
    (∀ b p, b < t.length → p < (element t b).n_constraints d →
      createUpperBound d t bound (((t.take b).map (Block.n_constraints d)).sum + p) = 0 ∧
      createLowerBound d t bound (((t.take b).map (Block.n_constraints d)).sum + p)
        = if (element t b).isInequality then -1e10 else 0) := by
  have hlen : 0 < t.length := List.length_pos.mpr ht
  have hcount := n_constraints_eq_sum_range d t ht
  have hk : t.length - 1 + 1 = t.length := Nat.sub_add_cancel hlen
  obtain ⟨l1, l2, _⟩ := fillLowerBound_spec d t (t.length - 1) bound
  obtain ⟨u1, u2, _⟩ := fillUpperBound_spec d t (t.length - 1) bound
  rw [hk] at l1 u1
  refine ⟨by rw [hcount]; exact l1, by rw [hcount]; exact u1, ?_, ?_⟩
  · intro bound1 p hp
    rw [hcount] at hp
    obtain ⟨j, q, hj, hq, rfl⟩ := exists_block_of_lt _ _ _ hp
    obtain ⟨_, l2', _⟩ := fillLowerBound_spec d t (t.length - 1) bound1
    obtain ⟨_, u2', _⟩ := fillUpperBound_spec d t (t.length - 1) bound1
    unfold createLowerBound createUpperBound n_constraint_classes
    rw [l2 j q (by omega) hq, l2' j q (by omega) hq, u2 j q (by omega) hq,
      u2' j q (by omega) hq]
    exact ⟨rfl, rfl⟩
  · intro b p hb hp
    rw [← sum_range_element_take (Block.n_constraints d) t b (by omega)]
    unfold createLowerBound createUpperBound n_constraint_classes
    exact ⟨u2 b p (by omega) hp, l2 b p (by omega) hp⟩

/-- C15 in the configuration of `test_constraints.cpp`, on an array that held `7`
everywhere: the lower bound is `-1e10` at the positions `50` and `577` (first and last of
the Control-rate block) and `0` at `49` and `578`; the upper bound is `0` at `50`; and
among the `1036` positions the lower bound is `-1e10` exactly on `50 .. 577`. -/
theorem fused_bounds_by_block_witness :
    createLowerBound ⟨6, 4, 11, 6⟩ exSixBlocks (fun _ => (7 : ℚ)) (50 + 0) = -1e10 ∧
    createLowerBound ⟨6, 4, 11, 6⟩ exSixBlocks (fun _ => (7 : ℚ)) (50 + 527) = -1e10 ∧
    createLowerBound ⟨6, 4, 11, 6⟩ exSixBlocks (fun _ => (7 : ℚ)) (0 + 49) = 0 ∧
    createLowerBound ⟨6, 4, 11, 6⟩ exSixBlocks (fun _ => (7 : ℚ)) (578 + 0) = 0 ∧
    createUpperBound ⟨6, 4, 11, 6⟩ exSixBlocks (fun _ => (7 : ℚ)) (50 + 0) = 0 ∧
    (∀ p, p < 1036 →
      (createLowerBound ⟨6, 4, 11, 6⟩ exSixBlocks (fun _ => (7 : ℚ)) p = -1e10
        ↔ (50 ≤ p ∧ p ≤ 577))) :=
  have h := (fused_bounds_by_block ⟨6, 4, 11, 6⟩ exSixBlocks (fun _ => (7 : ℚ))
    (by simp [exSixBlocks])).2.2.2
  ⟨(h 1 0 (by decide) (by decide)).2, (h 1 527 (by decide) (by decide)).2,
    (h 0 49 (by decide) (by decide)).2, (h 2 0 (by decide) (by decide)).2,
    (h 1 0 (by decide) (by decide)).1, by
    intro p hp
    have hne : (0 : ℚ) ≠ -1e10 := by norm_num
    have key : ∀ b off cnt : Nat, b < 6 →
        ((exSixBlocks.take b).map (Block.n_constraints ⟨6, 4, 11, 6⟩)).sum = off →
        (element exSixBlocks b).n_constraints ⟨6, 4, 11, 6⟩ = cnt →
        off ≤ p → p < off + cnt →
        createLowerBound ⟨6, 4, 11, 6⟩ exSixBlocks (fun _ => (7 : ℚ)) p
          = if (element exSixBlocks b).isInequality then -1e10 else 0 := by
      intro b off cnt hb hoff hcnt h1 h2
      have := (h b (p - off) hb (by rw [hcnt]; omega)).2
      rw [hoff, show off + (p - off) = p by omega] at this
      exact this
    by_cases c0 : p < 50
    · rw [key 0 0 50 (by decide) rfl rfl (by omega) (by omega)]
      simp only [element, exSixBlocks, List.getD_cons_zero, Block.isInequality]
      constructor
      · intro e; exact absurd e (by norm_num)
      · intro e; omega
    by_cases c1 : p < 578
    · rw [key 1 50 528 (by decide) rfl rfl (by omega) (by omega)]
      simp only [element, exSixBlocks, List.getD_cons_succ, List.getD_cons_zero,
        Block.isInequality]
      constructor
      · intro _; omega
      · intro _; rfl
    by_cases c2 : p < 974
    · rw [key 2 578 396 (by decide) rfl rfl (by omega) (by omega)]
      simp only [element, exSixBlocks, List.getD_cons_succ, List.getD_cons_zero,
        Block.isInequality]
      constructor
      · intro e; exact absurd e (by norm_num)
      · intro e; omega
    by_cases c3 : p < 980
    · rw [key 3 974 6 (by decide) rfl rfl (by omega) (by omega)]
      simp only [element, exSixBlocks, List.getD_cons_succ, List.getD_cons_zero,
        Block.isInequality]
      constructor
      · intro e; exact absurd e (by norm_num)
      · intro e; omega
    by_cases c4 : p < 1000
    · rw [key 4 980 20 (by decide) rfl rfl (by omega) (by omega)]
      simp only [element, exSixBlocks, List.getD_cons_succ, List.getD_cons_zero,
        Block.isInequality]
      constructor
      · intro e; exact absurd e (by norm_num)
      · intro e; omega
    · rw [key 5 1000 36 (by decide) rfl rfl (by omega) (by omega)]
      simp only [element, exSixBlocks, List.getD_cons_succ, List.getD_cons_zero,
        Block.isInequality]
      constructor
      · intro e; exact absurd e (by norm_num)
      · intro e; omega
⟩

end FusedConstraint

/-! ## Constraint fusion: evaluation -/

namespace FusedConstraint

theorem element_wellFormed {α : Type} (d : Dims) (t : List (Block α))
    (hwf : ∀ b, b ∈ t → b.wellFormed d) (l : Nat) : (element t l).wellFormed d := by
  by_cases hl : l < t.length
  · exact hwf _ (element_mem t l hl)
  · have : element t l = Block.collocation := by
      unfold element
      exact List.getD_eq_default _ _ (Nat.le_of_not_lt hl)
    rw [this]
    trivial

/-- The residuals, block by block: after `evaluateConstraintsTuple` from element `0` at
cursor `g`, the cursor is `g` plus the counts of the elements `0 .. k`, the range of
element `j` holds what that block writes when called alone at cursor `0`, and the memory
outside `[g, cursor)` is unchanged. -/
theorem evaluateConstraintsTuple_spec {α : Type} [Field α] (sin cos : α → α) (d : Dims)
    (t : List (Block α)) (hwf : ∀ b, b ∈ t → b.wellFormed d) (ld : LagrangeDerivatives α)
    (x : Nat → α) (k : Nat) (out out1 : Nat → α) (g : Nat) :
    (evaluateConstraintsTuple sin cos d t ld x k 0 (out, g)).2
        = g + ∑ l ∈ Finset.range (k + 1), (element t l).n_constraints d ∧
    (∀ j p, j ≤ k → p < (element t j).n_constraints d →
      (evaluateConstraintsTuple sin cos d t ld x k 0 (out, g)).1
          (g + ∑ l ∈ Finset.range j, (element t l).n_constraints d + p)
        = ((element t j).call sin cos d out1 0 x ld).1 (0 + p)) ∧
    (∀ p, p < g ∨ g + ∑ l ∈ Finset.range (k + 1), (element t l).n_constraints d ≤ p →
      (evaluateConstraintsTuple sin cos d t ld x k 0 (out, g)).1 p = out p) := by
  have h := chain_spec (fun i s => (element t i).call sin cos d s.1 s.2 x ld)
    (evaluateConstraintsTuple sin cos d t ld x) (fun _ _ => rfl) (fun _ _ _ => rfl)
    (fun l => (element t l).n_constraints d)
    (fun j p => ((element t j).call sin cos d out1 0 x ld).1 (0 + p))
    (fun i mem g => Block.call_cursor sin cos d (element t i) mem g x ld)
    (fun i mem g p hp => Block.call_written sin cos d (element t i)
      (element_wellFormed d t hwf i) mem out1 g 0 x ld p hp)
    (fun i mem g p hp => Block.call_frame sin cos d (element t i)
      (element_wellFormed d t hwf i) mem g x ld p hp)
    g k 0 out
  simp only [Finset.range_zero, Finset.sum_empty, Nat.zero_add, Nat.add_zero] at h
  obtain ⟨h1, h2, h3⟩ := h
  refine ⟨h1, fun j p hj hp => ?_, h3⟩
  rw [Nat.zero_add]
  exact h2 j p (Nat.zero_le _) hj hp

/-- C16. For a non-empty tuple of blocks whose static assertions hold,
`FusedConstraint::operator()(g, x)` leaves in the object the cache of
`generate<max_derivative>(x)`, returns `g + n_constraints`, and stores in the positions
`g + offset_b + p`, `p < c_b`, what block `b` writes at `p` when it is called alone at
cursor `0` on the same `x` and that cache (whatever the memory held); `offset_b` is the sum
of the counts of the blocks before `b`, and the same positions `offset_b + p` of the two
bound arrays hold the bounds block `b` writes at `p` when called alone. -/
theorem fused_call_by_block {α : Type} [Field α] (sin cos : α → α) (d : Dims)
    (self : FusedConstraint α) (out : Nat → α) (g : Nat) (x : Nat → α)
    (ht : self.constraints ≠ []) (hwf : ∀ b, b ∈ self.constraints → b.wellFormed d) :
    (call sin cos d self out g x).1.lagrange_derivatives
        = self.lagrange_derivatives.generate d (max_derivative self.constraints) x ∧
    (call sin cos d self out g x).2.2 = g + n_constraints d self.constraints ∧
    (∀ b p (out1 : Nat → α), b < self.constraints.length →
      p < (element self.constraints b).n_constraints d →
      (call sin cos d self out g x).2.1
          (g + (((self.constraints.take b).map (Block.n_constraints d)).sum + p))
        = ((element self.constraints b).call sin cos d out1 0 x
            (self.lagrange_derivatives.generate d (max_derivative self.constraints) x)).1
            (0 + p)) ∧
    (∀ b p (bound bound1 : Nat → α), b < self.constraints.length →
      p < (element self.constraints b).n_constraints d →
      createLowerBound d self.constraints bound
          (((self.constraints.take b).map (Block.n_constraints d)).sum + p)
        = ((element self.constraints b).writeLowerBound d bound1 0).1 (0 + p) ∧
      createUpperBound d self.constraints bound
          (((self.constraints.take b).map (Block.n_constraints d)).sum + p)
        = ((element self.constraints b).writeUpperBound d bound1 0).1 (0 + p)) := by
  have hlen : 0 < self.constraints.length := List.length_pos.mpr ht
  have hcount := n_constraints_eq_sum_range d self.constraints ht
  have hk : self.constraints.length - 1 + 1 = self.constraints.length :=
    Nat.sub_add_cancel hlen
  refine ⟨rfl, ?_, ?_, ?_⟩
  · obtain ⟨h1, _, _⟩ := evaluateConstraintsTuple_spec sin cos d self.constraints hwf
      (self.lagrange_derivatives.generate d (max_derivative self.constraints) x) x
      (self.constraints.length - 1) out out g
    rw [hk] at h1
    rw [hcount]
    exact h1
  · intro b p out1 hb hp
    obtain ⟨_, h2, _⟩ := evaluateConstraintsTuple_spec sin cos d self.constraints hwf
      (self.lagrange_derivatives.generate d (max_derivative self.constraints) x) x
      (self.constraints.length - 1) out out1 g
    rw [← sum_range_element_take (Block.n_constraints d) self.constraints b (by omega),
      ← Nat.add_assoc]
    exact h2 b p (by omega) hp
  · intro b p bound bound1 hb hp
    obtain ⟨_, l2, _⟩ := fillLowerBound_spec d self.constraints
      (self.constraints.length - 1) bound
    obtain ⟨_, u2, _⟩ := fillUpperBound_spec d self.constraints
      (self.constraints.length - 1) bound
    rw [← sum_range_element_take (Block.n_constraints d) self.constraints b (by omega)]
    unfold createLowerBound createUpperBound n_constraint_classes
    rw [l2 b p (by omega) hp, u2 b p (by omega) hp,
      Block.writeLowerBound_written d _ bound1 0 p hp,
      Block.writeUpperBound_written d _ bound1 0 p hp]
    exact ⟨rfl, rfl⟩


theorem exFused_wellFormed : ∀ b, b ∈ exFused.constraints → b.wellFormed exDims2 := by
  intro b hb
  simp only [exFused, List.mem_cons, List.mem_singleton, List.mem_nil_iff, or_false] at hb
  rcases hb with rfl | rfl | rfl <;> trivial

/-- C16 on the blocks Continuity, Control-rate, Initial-state over two segments of two
nodes, called at cursor `5` on the buffer `exContBuffer`: the returned cursor, and the
first residual of the Initial-state block (offset `2 + 8`). -/
theorem fused_call_by_block_witness :
    (call (fun t => t) (fun _ => 1) exDims2 exFused (fun _ => 7) 5 exContBuffer).2.2
      = 5 + n_constraints exDims2 exFused.constraints ∧
    (call (fun t => t) (fun _ => 1) exDims2 exFused (fun _ => 7) 5 exContBuffer).2.1
        (5 + (((exFused.constraints.take 2).map (Block.n_constraints exDims2)).sum + 0))
      = ((element exFused.constraints 2).call (fun t => t) (fun _ => 1) exDims2
          (fun _ => 0) 0 exContBuffer
          (exFused.lagrange_derivatives.generate exDims2
            (max_derivative exFused.constraints) exContBuffer)).1 (0 + 0) :=
  have h := fused_call_by_block (fun t => t) (fun _ => 1) exDims2 exFused (fun _ => 7) 5
    exContBuffer (by simp [exFused]) exFused_wellFormed
  ⟨h.2.1, h.2.2.1 2 0 (fun _ => 0) (by decide) (by decide)⟩

/-- What the fused evaluation stores at `g + p`, below the total count, depends neither on
the memory before the call nor on `g`. -/
theorem fused_call_written {α : Type} [Field α] (sin cos : α → α) (d : Dims)
    (self : FusedConstraint α) (out out1 : Nat → α) (g g1 : Nat) (x : Nat → α)
    (ht : self.constraints ≠ []) (hwf : ∀ b, b ∈ self.constraints → b.wellFormed d)
    (p : Nat) (hp : p < n_constraints d self.constraints) :
    (call sin cos d self out g x).2.1 (g + p) = (call sin cos d self out1 g1 x).2.1 (g1 + p) := by
  have hlen : 0 < self.constraints.length := List.length_pos.mpr ht
  rw [n_constraints_eq_sum_range d self.constraints ht] at hp
  obtain ⟨j, q, hj, hq, rfl⟩ := exists_block_of_lt _ _ _ hp
  obtain ⟨_, a2, _⟩ := evaluateConstraintsTuple_spec sin cos d self.constraints hwf
    (self.lagrange_derivatives.generate d (max_derivative self.constraints) x) x
    (self.constraints.length - 1) out out g
  obtain ⟨_, b2, _⟩ := evaluateConstraintsTuple_spec sin cos d self.constraints hwf
    (self.lagrange_derivatives.generate d (max_derivative self.constraints) x) x
    (self.constraints.length - 1) out1 out g1
  unfold call n_constraint_classes
  simp only []
  rw [← Nat.add_assoc, ← Nat.add_assoc, a2 j q (by omega) hq, b2 j q (by omega) hq]

/-- The fused evaluation leaves the memory outside `[g, g + n_constraints)` alone. -/
theorem fused_call_frame {α : Type} [Field α] (sin cos : α → α) (d : Dims)
    (self : FusedConstraint α) (out : Nat → α) (g : Nat) (x : Nat → α)
    (ht : self.constraints ≠ []) (hwf : ∀ b, b ∈ self.constraints → b.wellFormed d)
    (p : Nat) (hp : p < g ∨ g + n_constraints d self.constraints ≤ p) :
    (call sin cos d self out g x).2.1 p = out p := by
  have hlen : 0 < self.constraints.length := List.length_pos.mpr ht
  rw [n_constraints_eq_sum_range d self.constraints ht] at hp
  obtain ⟨_, _, a3⟩ := evaluateConstraintsTuple_spec sin cos d self.constraints hwf
    (self.lagrange_derivatives.generate d (max_derivative self.constraints) x) x
    (self.constraints.length - 1) out out g
  rw [Nat.sub_add_cancel hlen] at a3
  exact a3 p hp

end FusedConstraint

/-! ## The objective and constraint evaluator -/

namespace FG_eval
open VariableGetter

theorem sumTimes_zero {α : Type} [Field α] (d : Dims) (x fg : Nat → α) (n : Nat) :
    sumTimes d x n fg 0 = fg 0 + ∑ i ∈ Finset.range n, (times d).read x 0 i := by
  induction n with
  | zero => simp [sumTimes]
  | succ n ih =>
    simp only [sumTimes, Function.update_same]
    rw [ih, Finset.sum_range_succ, add_assoc]

/-- C17. For an input of length `n_vars` and an output of length `1 + n_constraints`,
`FG_eval::operator()` returns, sets `fg[0]` to the sum of the `n_w` durations stored in
`x` and `fg[1 + p]`, `p < n_constraints`, to entry `p` of the residual vector the fused
constraint computes on `x`; and `fg[0]` is the same for every other input with the same
durations. -/
theorem fg_eval_objective_and_residuals {α : Type} [Field α] (sin cos : α → α) (d : Dims)
    (self : FG_eval α) (fg x : Vec α)
    (ht : self.fused_constraints.constraints ≠ [])
    (hwf : ∀ b, b ∈ self.fused_constraints.constraints → b.wellFormed d)
    (hfg : fg.size = 1 + FusedConstraint.n_constraints d self.fused_constraints.constraints)
    (hx : x.size = n_vars d) :
    ∃ r, call sin cos d self fg x = some r ∧
      r.2.size = fg.size ∧
      r.2.data 0 = ∑ i ∈ Finset.range d.n_w, (times d).read x.data 0 i ∧
      (∀ p (out1 : Nat → α),
        p < FusedConstraint.n_constraints d self.fused_constraints.constraints →
        r.2.data (1 + p)
          = (self.fused_constraints.call sin cos d out1 0 x.data).2.1 (0 + p)) ∧
      (∀ (y : Vec α) r1, y.size = x.size →
        (∀ i, i < d.n_w → (times d).read y.data 0 i = (times d).read x.data 0 i) →
        call sin cos d self fg y = some r1 → r1.2.data 0 = r.2.data 0) := by
  have hzero : ∀ z : Nat → α,
      (self.fused_constraints.call sin cos d
          (sumTimes d z (times d).cols (Function.update fg.data 0 0)) 1 z).2.1 0
        = ∑ i ∈ Finset.range d.n_w, (times d).read z 0 i := by
    intro z
    rw [FusedConstraint.fused_call_frame sin cos d _ _ 1 z ht hwf 0 (Or.inl (by decide)),
      sumTimes_zero, Function.update_same, zero_add]
    rfl
  refine ⟨_, by unfold call; rw [if_pos hfg, if_pos hx], rfl, hzero x.data, ?_, ?_⟩
  · intro p out1 hp
    exact FusedConstraint.fused_call_written sin cos d _ _ out1 1 0 x.data ht hwf p hp
  · intro y r1 hy htimes hcall
    unfold call at hcall
    rw [if_pos hfg, if_pos (hy.trans hx)] at hcall
    have hr1 := (Option.some.inj hcall).symm
    subst hr1
    show (self.fused_constraints.call sin cos d _ 1 y.data).2.1 0
      = (self.fused_constraints.call sin cos d _ 1 x.data).2.1 0
    rw [hzero y.data, hzero x.data]
    exact Finset.sum_congr rfl (fun i hi => htimes i (Finset.mem_range.mp hi))

/-- C17 on `exFused` (eleven residuals) and the buffer `exContBuffer` of ten variables,
whose durations are `8` and `9`: the evaluation returns and `fg[0]` is `17`. -/
theorem fg_eval_objective_and_residuals_witness :
    ∃ r, call (fun t => t) (fun _ => 1) exDims2 ⟨exFused⟩ ⟨12, fun _ => 7⟩
        ⟨10, exContBuffer⟩ = some r ∧ r.2.data 0 = 17 :=
  have h := fg_eval_objective_and_residuals (fun t => t) (fun _ => 1) exDims2 ⟨exFused⟩
    ⟨12, fun _ => 7⟩ ⟨10, exContBuffer⟩ (by simp [exFused])
    FusedConstraint.exFused_wellFormed (by decide) (by decide)
  h.elim (fun r hr => ⟨r, hr.1, hr.2.2.1.trans (by
    simp only [exDims2, Finset.sum_range_succ, Finset.sum_range_zero, MatView.read,
      times_idx, exContBuffer]
    norm_num)⟩)


/-- C18, as stated, fails: the constructor of `FG_eval` takes only the fused constraint,
so an evaluator is constructed whatever vectors it will be paired with. The evaluator
constructed from `exFused` (eleven residuals, ten variables) aborts when it is evaluated on
an output vector of length `5`, and the same evaluator evaluates an output vector of length
`12`. -/
theorem fg_eval_mismatch_not_rejected_at_construction :
    call (fun t => t) (fun _ => 1) exDims2 (create exFused) ⟨5, fun _ => 7⟩
        ⟨10, exContBuffer⟩ = none ∧
    (call (fun t => t) (fun _ => 1) exDims2 (create exFused) ⟨12, fun _ => 7⟩
        ⟨10, exContBuffer⟩).isSome = true := by
  constructor
  · unfold call
    rw [if_neg (by decide)]
  · unfold call
    rw [if_pos (by decide), if_pos (by decide)]
    rfl

/-- C18, amended. The constructor stores the fused constraint and checks nothing; with
the assertions enabled, `operator()` returns exactly when the output has length
`1 + n_constraints` and the input has length `n_vars`, and otherwise aborts before it has
written anything. -/
theorem fg_eval_sizes_checked_at_evaluation {α : Type} [Field α] (sin cos : α → α)
    (d : Dims) (fused : FusedConstraint α) (fg x : Vec α) :
    (create fused).fused_constraints = fused ∧
    ((call sin cos d (create fused) fg x).isSome = true ↔
      (fg.size = 1 + FusedConstraint.n_constraints d fused.constraints ∧
        x.size = n_vars d)) ∧
    ((call sin cos d (create fused) fg x) = none ↔
      ¬ (fg.size = 1 + FusedConstraint.n_constraints d fused.constraints ∧
        x.size = n_vars d)) := by
  refine ⟨rfl, ?_, ?_⟩
  · unfold call create
    simp only []
    by_cases h1 : fg.size = 1 + FusedConstraint.n_constraints d fused.constraints
    · by_cases h2 : x.size = n_vars d
      · rw [if_pos h1, if_pos h2]
        simp [h1, h2]
      · rw [if_pos h1, if_neg h2]
        simp [h2]
    · rw [if_neg h1]
      simp [h1]
  · unfold call create
    simp only []
    by_cases h1 : fg.size = 1 + FusedConstraint.n_constraints d fused.constraints
    · by_cases h2 : x.size = n_vars d
      · rw [if_pos h1, if_pos h2]
        simp [h1, h2]
      · rw [if_pos h1, if_neg h2]
        simp [h2]
    · rw [if_neg h1]
      simp [h1]

end FG_eval

/-! ## No state is carried between evaluations -/

namespace Block
open VariableGetter

theorem controlRate_callLoop_congr {α : Type} [Field α] (d : Dims)
    (self : ControlRateConstraints α) (dx dx1 : Nat → α)
    (h : ∀ i r c, i < d.n_w → r < d.n_x + d.n_u → c < d.n_c →
      dx ((varsAtWaypoint d i).idx r c) = dx1 ((varsAtWaypoint d i).idx r c))
    (n : Nat) (hn : n ≤ d.n_w) (s : (Nat → α) × Nat) :
    ControlRateConstraints.callLoop d self dx n s
      = ControlRateConstraints.callLoop d self dx1 n s := by
  induction n with
  | zero => rfl
  | succ n ih =>
    rw [ControlRateConstraints.controlRate_callLoop_succ,
      ControlRateConstraints.controlRate_callLoop_succ, ih (by omega)]
    have he : ∀ r c, r < d.n_u → c < d.n_c →
        (controlsAtWaypoint d n).read dx r c = (controlsAtWaypoint d n).read dx1 r c := by
      intro r c hr hc
      unfold MatView.read
      rw [controlsAtWaypoint_idx]
      exact h n (d.n_x + r) c (by omega) (by omega) hc
    congr 1
    have e1 := MatView.assign_congr
      (MatView.map (ControlRateConstraints.callLoop d self dx1 n s).2 d.n_u d.n_c)
      (ControlRateConstraints.callLoop d self dx1 n s).1
      (fun r c => (controlsAtWaypoint d n).read dx r c - self.upper_bound r)
      (fun r c => (controlsAtWaypoint d n).read dx1 r c - self.upper_bound r)
      (fun r c hr hc => congrArg (fun v => v - self.upper_bound r) (he r c hr hc))
    rw [e1]
    exact MatView.assign_congr _ _ _ _
      (fun r c hr hc => congrArg (fun v => -v + self.lower_bound r) (he r c hr hc))

theorem dynamics_callLoop_congr {α : Type} [Field α] (sin cos : α → α) (d : Dims)
    (x dx dx1 : Nat → α)
    (h : ∀ i r c, i < d.n_w → r < d.n_x + d.n_u → c < d.n_c →
      dx ((varsAtWaypoint d i).idx r c) = dx1 ((varsAtWaypoint d i).idx r c))
    (n : Nat) (hn : n ≤ d.n_w) (s : (Nat → α) × Nat) :
    DynamicsConstraints.callLoop sin cos d x dx n s
      = DynamicsConstraints.callLoop sin cos d x dx1 n s := by
  induction n with
  | zero => rfl
  | succ n ih =>
    rw [DynamicsConstraints.dynamics_callLoop_succ,
      DynamicsConstraints.dynamics_callLoop_succ, ih (by omega)]
    congr 1
    apply MatView.assign_congr
    intro r c hr hc
    have hr1 : r < d.n_x := hr
    have hc1 : c < d.n_c := hc
    simp only [MatView.read]
    rw [statesAtWaypoint_idx, h n r c (by omega) (by omega) hc1]

/-- The Smooth-control block looks at the derivative cache only through the control
components of the order-1 slot. -/
theorem smooth_call_congr {α : Type} [Field α] (d : Dims) (hc : 0 < d.n_c) (out : Nat → α)
    (g : Nat) (x : Nat → α) (ld ld1 : LagrangeDerivatives α)
    (h : ∀ c w k, c < d.n_c → w < d.n_w → k < d.n_u →
      ld.get 1 ((control d c w).idx k 0) = ld1.get 1 ((control d c w).idx k 0)) :
    SmoothControlConstraints.call d out g x ld = SmoothControlConstraints.call d out g x ld1 := by
  unfold SmoothControlConstraints.call
  simp only []
  congr 1
  apply MatView.assign_congr
  intro r c hr hcol
  have hr1 : r < d.n_u := hr
  have hc1 : c < d.n_w - 1 := hcol
  have hcols : d.n_w - (d.n_w - 1) = 1 := by omega
  have hright : ((controlsAtCollocationPoint d 0).rightCols (d.n_w - 1)).idx r c
      = (control d 0 (c + 1)).idx r 0 := by
    rw [control_idx]
    simp only [MatView.rightCols, MatView.idx, controlsAtCollocationPoint,
      varsAtCollocationPoint, MatView.bottomRows, MatView.middleRows, asMatrix,
      MatView.map, hcols, Nat.add_sub_cancel]
    ring
  have hleft : ((controlsAtCollocationPoint d (d.n_c - 1)).leftCols (d.n_w - 1)).idx r c
      = (control d (d.n_c - 1) c).idx r 0 := by
    rw [control_idx]
    simp only [MatView.leftCols, MatView.idx, controlsAtCollocationPoint,
      varsAtCollocationPoint, MatView.bottomRows, MatView.middleRows, asMatrix,
      MatView.map, Nat.add_sub_cancel]
    ring
  have h1 := h 0 (c + 1) r hc (by omega) hr1
  have h2 := h (d.n_c - 1) c r (by omega) (by omega) hr1
  simp only [MatView.read]
  rw [hright, hleft, h1, h2]

/-- A block of declared order `0` does not look at the derivative cache. -/
theorem call_of_order_zero {α : Type} [Field α] (sin cos : α → α) (d : Dims) (b : Block α)
    (hb : b.derivatives = 0) (out : Nat → α) (g : Nat) (x : Nat → α)
    (ld ld1 : LagrangeDerivatives α) :
    b.call sin cos d out g x ld = b.call sin cos d out g x ld1 := by
  cases b with
  | collocation => rfl
  | controlRate self => exact absurd hb Nat.one_ne_zero
  | dynamics => exact absurd hb Nat.one_ne_zero
  | initialState self => rfl
  | smoothControl => exact absurd hb Nat.one_ne_zero
  | waypoints self => rfl
  | waypoint self => rfl

/-- A block looks at the derivative cache only through the state/control positions of
the order-1 slot. -/
theorem call_congr_cache {α : Type} [Field α] (sin cos : α → α) (d : Dims) (b : Block α)
    (hc : 0 < d.n_c) (out : Nat → α) (g : Nat) (x : Nat → α)
    (ld ld1 : LagrangeDerivatives α)
    (h : ∀ i r c, i < d.n_w → r < d.n_x + d.n_u → c < d.n_c →
      ld.get 1 ((varsAtWaypoint d i).idx r c) = ld1.get 1 ((varsAtWaypoint d i).idx r c)) :
    b.call sin cos d out g x ld = b.call sin cos d out g x ld1 := by
  cases b with
  | collocation => rfl
  | controlRate self =>
    exact controlRate_callLoop_congr d self _ _ h d.n_w (le_refl _) (out, g)
  | dynamics => exact dynamics_callLoop_congr sin cos d x _ _ h d.n_w (le_refl _) (out, g)
  | initialState self => rfl
  | smoothControl =>
    refine smooth_call_congr d hc out g x ld ld1 ?_
    intro c w k hc1 hw hk
    rw [control_idx_eq]
    exact h w (d.n_x + k) c hw (by omega) hc1
  | waypoints self => rfl
  | waypoint self => rfl

end Block

namespace FusedConstraint
open VariableGetter

/-- After `generate<up_to>` with `up_to ≥ 1`, the state/control positions of the order-1
slot do not depend on what the cache held before. -/
theorem generate_get_one_independent {α : Type} [Field α] (d : Dims) (D : Nat → Nat → α)
    (der der1 : Nat → Nat → α) (x : Nat → α) (up_to : Nat) (hk : 1 ≤ up_to)
    (i r c : Nat) (hi : i < d.n_w) (hr : r < d.n_x + d.n_u) (hc : c < d.n_c) :
    (LagrangeDerivatives.generate d up_to ⟨D, der⟩ x).get 1 ((varsAtWaypoint d i).idx r c)
      = (LagrangeDerivatives.generate d up_to ⟨D, der1⟩ x).get 1
          ((varsAtWaypoint d i).idx r c) := by
  have h1 := LagrangeDerivatives.generate_get_one d ⟨D, der⟩ x up_to i r c hk hi hr hc
  have h2 := LagrangeDerivatives.generate_get_one d ⟨D, der1⟩ x up_to i r c hk hi hr hc
  simp only [MatView.read] at h1 h2
  rw [h1, h2]

/-- A block whose declared order is at most `up_to` gives the same result on the caches
`generate<up_to>` produces from any two earlier contents. -/
theorem block_call_after_generate {α : Type} [Field α] (sin cos : α → α) (d : Dims)
    (b : Block α) (hc : 0 < d.n_c) (D : Nat → Nat → α) (der der1 : Nat → Nat → α)
    (x : Nat → α) (up_to : Nat) (hb : b.derivatives ≤ up_to) (out : Nat → α) (g : Nat) :
    b.call sin cos d out g x (LagrangeDerivatives.generate d up_to ⟨D, der⟩ x)
      = b.call sin cos d out g x (LagrangeDerivatives.generate d up_to ⟨D, der1⟩ x) := by
  by_cases h0 : b.derivatives = 0
  · exact Block.call_of_order_zero sin cos d b h0 out g x _ _
  · apply Block.call_congr_cache sin cos d b hc
    intro i r c hi hr hc1
    exact generate_get_one_independent d D der der1 x up_to (by omega) i r c hi hr hc1

theorem evaluateConstraintsTuple_congr {α : Type} [Field α] (sin cos : α → α) (d : Dims)
    (t : List (Block α)) (ld ld1 : LagrangeDerivatives α) (x : Nat → α) (k : Nat) :
    ∀ i s, (∀ l, l ≤ k → ∀ out g,
        (element t (i + l)).call sin cos d out g x ld
          = (element t (i + l)).call sin cos d out g x ld1) →
      evaluateConstraintsTuple sin cos d t ld x k i s
        = evaluateConstraintsTuple sin cos d t ld1 x k i s := by
  induction k with
  | zero =>
    intro i s h
    exact h 0 (le_refl _) s.1 s.2
  | succ k ih =>
    intro i s h
    simp only [evaluateConstraintsTuple]
    have h0 : (element t i).call sin cos d s.1 s.2 x ld
        = (element t i).call sin cos d s.1 s.2 x ld1 := h 0 (Nat.zero_le _) s.1 s.2
    rw [h0]
    apply ih
    intro l hl out g
    have := h (l + 1) (by omega) out g
    rw [show i + (l + 1) = i + 1 + l by omega] at this
    exact this

/-- The output of the fused evaluation does not depend on the content of the cache. -/
theorem fused_call_cache_irrelevant {α : Type} [Field α] (sin cos : α → α) (d : Dims)
    (t : List (Block α)) (D : Nat → Nat → α) (der der1 : Nat → Nat → α) (out : Nat → α)
    (g : Nat) (x : Nat → α) (hc : 0 < d.n_c) :
    (call sin cos d ⟨t, ⟨D, der⟩⟩ out g x).2 = (call sin cos d ⟨t, ⟨D, der1⟩⟩ out g x).2 := by
  unfold call
  simp only []
  apply evaluateConstraintsTuple_congr
  intro l hl out1 g1
  rw [Nat.zero_add]
  exact block_call_after_generate sin cos d (element t l) hc D der der1 x _
    ((maxDerivative_spec t (n_constraint_classes t - 1)).1 l hl) out1 g1

/-- C19. The fused evaluation is a function of its input buffer only. The evaluation keeps
the tuple and the differentiation matrix of the object, so every cache state reached from
construction differs from another only in the matrix `derivatives`; on any two contents
of that matrix `FusedConstraint::operator()` produces the same output memory and cursor,
`FG_eval::operator()` the same vector, and evaluating a second time on the same input
reproduces the output of the first. -/
theorem fused_evaluation_is_stateless {α : Type} [Field α] (sin cos : α → α) (d : Dims)
    (t : List (Block α)) (D : Nat → Nat → α) (der der1 : Nat → Nat → α) (out : Nat → α)
    (g : Nat) (x : Nat → α) (hc : 0 < d.n_c) :
    ((call sin cos d ⟨t, ⟨D, der⟩⟩ out g x).1.constraints = t ∧
      (call sin cos d ⟨t, ⟨D, der⟩⟩ out g x).1.lagrange_derivatives.derivative_coefficients
        = D) ∧
    (call sin cos d ⟨t, ⟨D, der⟩⟩ out g x).2 = (call sin cos d ⟨t, ⟨D, der1⟩⟩ out g x).2 ∧
    (∀ fg xv : Vec α,
      (FG_eval.call sin cos d ⟨⟨t, ⟨D, der⟩⟩⟩ fg xv).map (fun r => r.2)
        = (FG_eval.call sin cos d ⟨⟨t, ⟨D, der1⟩⟩⟩ fg xv).map (fun r => r.2)) ∧
    (call sin cos d (call sin cos d ⟨t, ⟨D, der⟩⟩ out g x).1 out g x).2
      = (call sin cos d ⟨t, ⟨D, der⟩⟩ out g x).2 := by
  refine ⟨⟨rfl, rfl⟩, fused_call_cache_irrelevant sin cos d t D der der1 out g x hc, ?_, ?_⟩
  · intro fg xv
    unfold FG_eval.call
    simp only []
    by_cases h1 : fg.size = 1 + n_constraints d t
    · by_cases h2 : xv.size = n_vars d
      · rw [if_pos h1, if_pos h2, if_pos h1, if_pos h2]
        simp only [Option.map_some']
        rw [fused_call_cache_irrelevant sin cos d t D der der1 _ 1 xv.data hc]
      · rw [if_pos h1, if_neg h2, if_pos h1, if_neg h2]
    · rw [if_neg h1, if_neg h1]
  · exact fused_call_cache_irrelevant sin cos d t D _ der out g x hc

/-- C19 on `exFused`: a cache that held `0` everywhere and one that held `4` everywhere
give the same output on `exContBuffer`. -/
theorem fused_evaluation_is_stateless_witness :
    (call (fun t => t) (fun _ => 1) exDims2
        ⟨exFused.constraints, ⟨exFused.lagrange_derivatives.derivative_coefficients,
          fun _ _ => 0⟩⟩ (fun _ => 7) 0 exContBuffer).2
      = (call (fun t => t) (fun _ => 1) exDims2
        ⟨exFused.constraints, ⟨exFused.lagrange_derivatives.derivative_coefficients,
          fun _ _ => 4⟩⟩ (fun _ => 7) 0 exContBuffer).2 :=
  (fused_evaluation_is_stateless (fun t => t) (fun _ => 1) exDims2 exFused.constraints
    exFused.lagrange_derivatives.derivative_coefficients (fun _ _ => 0) (fun _ _ => 4)
    (fun _ => 7) 0 exContBuffer (by decide)).2.1

end FusedConstraint

/-! ## Durations are not checked -/

namespace LagrangeDerivatives
open VariableGetter

/-- C20, as stated, fails: nothing in `generate` looks at the sign of a duration. On the
buffer `exNegBuffer`, whose only duration is `-2`, `generate<1>` returns and the
first-derivative estimate of the state at node 2 is `-1`, the product `2` of the samples
with the coefficients divided by that duration. -/
theorem generate_accepts_negative_duration :
    (times exDims).read exNegBuffer 0 0 = -2 ∧
    (varsAtWaypoint exDims 0).read
        ((generate exDims 1 (create exDims exNodes) exNegBuffer).get 1) 0 2 = -1 ∧
    (∑ j ∈ Finset.range exDims.n_c,
        (varsAtWaypoint exDims 0).read exNegBuffer 0 j
          * (create exDims exNodes).derivative_coefficients j 2) = 2 := by
  have b0 : ∀ t, lagrangeBasisDerivative 3 exNodes 0 t = 4 * t - 3 :=
    fun t => (exNodes_basis_derivative t).1
  have b1 : ∀ t, lagrangeBasisDerivative 3 exNodes 1 t = 4 - 8 * t :=
    fun t => (exNodes_basis_derivative t).2.1
  have b2 : ∀ t, lagrangeBasisDerivative 3 exNodes 2 t = 4 * t - 1 :=
    fun t => (exNodes_basis_derivative t).2.2
  have htime : (times exDims).read exNegBuffer 0 0 = -2 := by
    simp [MatView.read, times_idx, exDims, exNegBuffer]
  have hsum : (∑ j ∈ Finset.range exDims.n_c,
      (varsAtWaypoint exDims 0).read exNegBuffer 0 j
        * (create exDims exNodes).derivative_coefficients j 2) = 2 := by
    simp only [create, lagrangeDerivativeCoefficients, exDims, Finset.sum_range_succ,
      Finset.sum_range_zero, b0, b1, b2, MatView.read, varsAtWaypoint_idx]
    simp only [exNegBuffer, exNodes]
    norm_num
  refine ⟨htime, ?_, hsum⟩
  rw [generate_get_one exDims _ exNegBuffer 1 0 0 2 (by decide) (by decide) (by decide)
    (by decide), hsum, htime]
  norm_num

/-- The cursor the fused evaluation returns. -/
theorem fused_call_cursor {α : Type} [Field α] (sin cos : α → α) (d : Dims)
    (self : FusedConstraint α) (out : Nat → α) (g : Nat) (x : Nat → α)
    (ht : self.constraints ≠ []) (hwf : ∀ b, b ∈ self.constraints → b.wellFormed d) :
    (FusedConstraint.call sin cos d self out g x).2.2
      = g + FusedConstraint.n_constraints d self.constraints := by
  have hlen : 0 < self.constraints.length := List.length_pos.mpr ht
  obtain ⟨h1, _, _⟩ := FusedConstraint.evaluateConstraintsTuple_spec sin cos d
    self.constraints hwf
    (self.lagrange_derivatives.generate d (FusedConstraint.max_derivative self.constraints) x)
    x (self.constraints.length - 1) out out g
  rw [Nat.sub_add_cancel hlen] at h1
  rw [FusedConstraint.n_constraints_eq_sum_range d self.constraints ht]
  exact h1

/-- C20, amended. Neither `generate` nor `FusedConstraint::operator()` checks a duration.
For every buffer and every segment whose duration is negative, `generate<up_to>` with
`up_to ≥ 1` returns a cache whose order-1 estimate for that segment is the product of the
node values with the differentiation matrix divided by that negative duration, so that its
sign is opposite to the sign of the product; and the fused evaluation of a tuple that needs
the first derivative returns its usual cursor and leaves that same estimate in its cache.
For a segment whose duration is zero, `generate` in binary64 divides by it as well: the
estimate is an infinity or a NaN. -/
theorem evaluation_divides_by_negative_duration {α : Type} [LinearOrderedField α]
    (sin cos : α → α) (d : Dims) (fused : FusedConstraint α) (out : Nat → α) (g : Nat)
    (x0 : Nat → α) (i r c : Nat) (ht : (times d).read x0 0 i < 0)
    (hne : fused.constraints ≠ []) (hwf : ∀ b, b ∈ fused.constraints → b.wellFormed d)
    (hmax : 1 ≤ FusedConstraint.max_derivative fused.constraints) (hi : i < d.n_w)
    (hr : r < d.n_x + d.n_u) (hc : c < d.n_c) :
    (∀ up_to, 1 ≤ up_to →
      (varsAtWaypoint d i).read ((generate d up_to fused.lagrange_derivatives x0).get 1) r c
        = (∑ j ∈ Finset.range d.n_c,
            (varsAtWaypoint d i).read x0 r j
              * fused.lagrange_derivatives.derivative_coefficients j c)
            / (times d).read x0 0 i) ∧
    (FusedConstraint.call sin cos d fused out g x0).2.2
      = g + FusedConstraint.n_constraints d fused.constraints ∧
    (varsAtWaypoint d i).read
        ((FusedConstraint.call sin cos d fused out g x0).1.lagrange_derivatives.get 1) r c
      = (∑ j ∈ Finset.range d.n_c,
          (varsAtWaypoint d i).read x0 r j
            * fused.lagrange_derivatives.derivative_coefficients j c)
          / (times d).read x0 0 i ∧
    (0 ≤ (∑ j ∈ Finset.range d.n_c,
          (varsAtWaypoint d i).read x0 r j
            * fused.lagrange_derivatives.derivative_coefficients j c) →
      (varsAtWaypoint d i).read
        ((FusedConstraint.call sin cos d fused out g x0).1.lagrange_derivatives.get 1) r c
        ≤ 0) ∧
    ((∑ j ∈ Finset.range d.n_c,
          (varsAtWaypoint d i).read x0 r j
            * fused.lagrange_derivatives.derivative_coefficients j c) ≤ 0 →
      0 ≤ (varsAtWaypoint d i).read
        ((FusedConstraint.call sin cos d fused out g x0).1.lagrange_derivatives.get 1) r c) ∧
    (∀ (self : LagrangeDerivatives Double) (x : Nat → Double) (up_to : Nat), 1 ≤ up_to →
      (times d).read x 0 i = 0 →
      (varsAtWaypoint d i).read ((generate d up_to self x).get 1) r c = ⟨none⟩) := by
  have hest : (varsAtWaypoint d i).read
        ((FusedConstraint.call sin cos d fused out g x0).1.lagrange_derivatives.get 1) r c
      = (∑ j ∈ Finset.range d.n_c,
          (varsAtWaypoint d i).read x0 r j
            * fused.lagrange_derivatives.derivative_coefficients j c)
          / (times d).read x0 0 i :=
    generate_get_one d fused.lagrange_derivatives x0 _ i r c hmax hi hr hc
  refine ⟨fun up_to hk => generate_get_one d _ x0 up_to i r c hk hi hr hc,
    fused_call_cursor sin cos d fused out g x0 hne hwf, hest, ?_, ?_, ?_⟩
  · intro h
    rw [hest]
    exact div_nonpos_iff.mpr (Or.inl ⟨h, le_of_lt ht⟩)
  · intro h
    rw [hest]
    exact div_nonneg_iff.mpr (Or.inr ⟨h, le_of_lt ht⟩)
  · intro self x up_to hk hzero
    rw [generate_get_one_loop d self x up_to i r c hk hi hr hc, hzero]
    generalize MatView.sumLoop
      (fun j => (varsAtWaypoint d i).read x r j * self.derivative_coefficients j c) d.n_c = a
    show Double.div a ⟨some 0⟩ = ⟨none⟩
    unfold Double.div
    cases a with
    | mk v =>
      cases v with
      | none => rfl
      | some q => simp

/-- C20, amended, on `exNegBuffer` (duration `-2`) and the Control-rate block alone: the
fused evaluation returns the cursor `3 + 6`, and the estimate of the state at node 1 is the
quotient by the duration. -/
theorem evaluation_divides_by_negative_duration_witness :
    (FusedConstraint.call (fun t => t) (fun _ => 1) exDims exFusedRate (fun _ => 7) 3
        exNegBuffer).2.2 = 3 + FusedConstraint.n_constraints exDims exFusedRate.constraints ∧
    (varsAtWaypoint exDims 0).read
        ((FusedConstraint.call (fun t => t) (fun _ => 1) exDims exFusedRate (fun _ => 7) 3
          exNegBuffer).1.lagrange_derivatives.get 1) 0 1
      = (∑ j ∈ Finset.range exDims.n_c,
          (varsAtWaypoint exDims 0).read exNegBuffer 0 j
            * exFusedRate.lagrange_derivatives.derivative_coefficients j 1)
          / (times exDims).read exNegBuffer 0 0 :=
  have h := evaluation_divides_by_negative_duration (fun t => t) (fun _ => 1) exDims
    exFusedRate (fun _ => 7) 3 exNegBuffer 0 0 1
    (by simp [MatView.read, times_idx, exDims, exNegBuffer])
    (by simp [exFusedRate])
    (by
      intro b hb
      simp only [exFusedRate, List.mem_singleton] at hb
      subst hb
      trivial)
    (by decide) (by decide) (by decide) (by decide)
  ⟨h.2.1, h.2.2.1⟩

end LagrangeDerivatives

/-! ## The single-component Waypoint block -/

namespace WaypointConstraint
open VariableGetter

/-- What the single-component Waypoint block stores for segment `i`. -/
theorem waypoint_call_idx {α : Type} [Field α] (d : Dims) (self : WaypointConstraint α)
    (out : Nat → α) (g : Nat) (x : Nat → α) (ld : LagrangeDerivatives α) (i : Nat)
    (hi : i < d.n_w) :
    (call d self out g x ld).1 (g + i)
      = (state d (d.n_c - 1) i).read x self.state_index 0 - self.waypoints i := by
  have h := MatView.assign_map_idx g 1 d.n_w out
    (fun r c =>
      ((statesAtCollocationPoint d (d.n_c - 1)).row self.state_index).read x r c
        - self.waypoints c) (show 0 < 1 by decide) hi
  have e : g + 0 + 1 * i = g + i := by omega
  rw [e] at h
  unfold call
  simp only []
  rw [h]
  simp only [MatView.read]
  congr 2
  rw [state_idx_colloc]
  simp [MatView.row, MatView.idx, statesAtCollocationPoint, MatView.topRows]

/-- C21. Constructing a single-component `WaypointConstraint` succeeds exactly when
`0 ≤ state_index < n_x`; the constructed block has that `state_index`, and for every
buffer and segment `i < n_w` it stores at output offset `i` the state `state_index` at the
last node of segment `i` minus `waypoints[i]`. -/
theorem waypoint_constraint_construction {α : Type} [Field α] (d : Dims)
    (state_index : Int) (waypoints : Nat → α) :
    ((create d state_index waypoints).isSome = true ↔
      (0 ≤ state_index ∧ state_index < (d.n_x : Int))) ∧
    (∀ self, create d state_index waypoints = some self →
      (self.state_index : Int) = state_index ∧ self.state_index < d.n_x ∧
      ∀ (out : Nat → α) (g : Nat) (x : Nat → α) (ld : LagrangeDerivatives α) (i : Nat),
        i < d.n_w →
        (call d self out g x ld).1 (g + i)
          = (state d (d.n_c - 1) i).read x self.state_index 0 - waypoints i) := by
  constructor
  · unfold create
    by_cases h1 : state_index ≥ 0
    · by_cases h2 : state_index < (d.n_x : Int)
      · rw [if_pos h1, if_pos h2]
        simp [h1, h2]
      · rw [if_pos h1, if_neg h2]
        simp [h2]
    · rw [if_neg h1]
      simp
      intro h
      omega
  · intro self hself
    unfold create at hself
    by_cases h1 : state_index ≥ 0
    · by_cases h2 : state_index < (d.n_x : Int)
      · rw [if_pos h1, if_pos h2] at hself
        have hs := (Option.some.inj hself).symm
        subst hs
        refine ⟨Int.toNat_of_nonneg h1, by simp only []; omega, ?_⟩
        intro out g x ld i hi
        exact waypoint_call_idx d _ out g x ld i hi
      · rw [if_pos h1, if_neg h2] at hself
        exact absurd hself (by simp)
    · rw [if_neg h1] at hself
      exact absurd hself (by simp)

/-- C28. The single-component Waypoint block refines the full Waypoints block: for a
`state_index < n_x` and targets equal to row `state_index` of the full target matrix, the
single-component residual at offset `i` is the full residual at offset
`i*n_x + state_index`, for every buffer and every segment `i < n_w`. -/
theorem waypoint_refines_waypoints {α : Type} [Field α] (d : Dims)
    (single : WaypointConstraint α) (full : WaypointConstraints α) (out out1 : Nat → α)
    (g g1 : Nat) (x : Nat → α) (ld ld1 : LagrangeDerivatives α) (i : Nat)
    (hs : single.state_index < d.n_x) (hi : i < d.n_w)
    (htarget : ∀ j, j < d.n_w → single.waypoints j = full.waypoints single.state_index j) :
    (call d single out g x ld).1 (g + i)
      = (WaypointConstraints.call d full out1 g1 x ld1).1
          (g1 + (i * d.n_x + single.state_index)) := by
  rw [waypoint_call_idx d single out g x ld i hi,
    WaypointConstraints.waypoints_call_idx d full out1 g1 x ld1 i single.state_index hi hs,
    htarget i hi]

/-- C28 on the targets `[2, 2, -1, 0, 0, 0]`, `[0, 0, 0, 0, 0, 0]` and their row 2
(`-1, 0`): residual `0` of the single-component block is residual `0*6 + 2` of the full
block. -/
theorem waypoint_refines_waypoints_witness :
    (call ⟨6, 4, 2, 2⟩ ⟨2, fun j => exWaypoints 2 j⟩ (fun _ => 5) 3 exWaypointBuffer
        ⟨fun _ _ => 0, fun _ _ => 0⟩).1 (3 + 0)
      = (WaypointConstraints.call ⟨6, 4, 2, 2⟩ ⟨exWaypoints⟩ (fun _ => 9) 0
          exWaypointBuffer ⟨fun _ _ => 0, fun _ _ => 1⟩).1 (0 + (0 * 6 + 2)) :=
  waypoint_refines_waypoints ⟨6, 4, 2, 2⟩ ⟨2, fun j => exWaypoints 2 j⟩ ⟨exWaypoints⟩
    (fun _ => 5) (fun _ => 9) 3 0 exWaypointBuffer ⟨fun _ _ => 0, fun _ _ => 0⟩
    ⟨fun _ _ => 0, fun _ _ => 1⟩ 0 (by decide) (by decide) (fun _ _ => rfl)

end WaypointConstraint

/-! ## Residual positions of the Continuity and Control-rate blocks -/

namespace CollocationConstraints
open VariableGetter

/-- The Continuity block looks at the buffer only at the state/control positions. -/
theorem continuity_call_congr {α : Type} [Field α] (d : Dims) (hc : 0 < d.n_c)
    (out : Nat → α) (g : Nat) (x y : Nat → α) (ld ld1 : LagrangeDerivatives α)
    (h : ∀ p, p < (d.n_x + d.n_u) * d.n_c * d.n_w → y p = x p) :
    call d out g y ld1 = call d out g x ld := by
  unfold call
  simp only []
  congr 1
  apply MatView.assign_congr
  intro r c hr hcol
  have hr1 : r < d.n_x + d.n_u := hr
  have hc1 : c < d.n_w - 1 := hcol
  have hcols : d.n_w - (d.n_w - 1) = 1 := by omega
  have hright : ((varsAtCollocationPoint d 0).rightCols (d.n_w - 1)).idx r c
      = (d.n_x + d.n_u) * 0 + r + (d.n_x + d.n_u) * d.n_c * (c + 1) := by
    simp only [MatView.rightCols, MatView.idx, varsAtCollocationPoint, MatView.middleRows,
      asMatrix, MatView.map, hcols]
    ring
  have hleft : ((varsAtCollocationPoint d (d.n_c - 1)).leftCols (d.n_w - 1)).idx r c
      = (d.n_x + d.n_u) * (d.n_c - 1) + r + (d.n_x + d.n_u) * d.n_c * c := by
    simp only [MatView.leftCols, MatView.idx, varsAtCollocationPoint, MatView.middleRows,
      asMatrix, MatView.map]
    ring
  have b1 := @node_lt d 0 (c + 1) r hc (by omega) hr1
  have b2 := @node_lt d (d.n_c - 1) c r (by omega) (by omega) hr1
  simp only [MatView.read]
  rw [hright, hleft, h _ b1, h _ b2]

/-- C24. The Continuity block stores at output offset `j*(n_x+n_u) + r`, for an interior
boundary `j = 0 .. n_w-2` and a row `r < n_x+n_u` (state rows first, then control rows),
the value of row `r` at node 0 of segment `j+1` minus its value at node `n_c-1` of segment
`j`; and its output is the same for every buffer with the same state/control values and
every derivative cache, so it reads no duration and no derivative estimate. -/
theorem continuity_residual_positions {α : Type} [Field α] (d : Dims) (out : Nat → α)
    (g : Nat) (x : Nat → α) (ld : LagrangeDerivatives α) :
    (∀ j r, j + 1 < d.n_w → r < d.n_x + d.n_u →
      (call d out g x ld).1 (g + (j * (d.n_x + d.n_u) + r))
        = (varsAtCollocationPoint d 0).read x r (j + 1)
          - (varsAtCollocationPoint d (d.n_c - 1)).read x r j) ∧
    (∀ j k, j + 1 < d.n_w → k < d.n_x →
      (call d out g x ld).1 (g + (j * (d.n_x + d.n_u) + k))
        = (state d 0 (j + 1)).read x k 0 - (state d (d.n_c - 1) j).read x k 0) ∧
    (∀ j k, j + 1 < d.n_w → k < d.n_u →
      (call d out g x ld).1 (g + (j * (d.n_x + d.n_u) + (d.n_x + k)))
        = (control d 0 (j + 1)).read x k 0 - (control d (d.n_c - 1) j).read x k 0) ∧
    (0 < d.n_c → ∀ (y : Nat → α) (ld1 : LagrangeDerivatives α),
      (∀ p, p < (d.n_x + d.n_u) * d.n_c * d.n_w → y p = x p) →
      call d out g y ld1 = call d out g x ld) := by
  have hidx : ∀ j r, j + 1 < d.n_w → r < d.n_x + d.n_u →
      (call d out g x ld).1 (g + (j * (d.n_x + d.n_u) + r))
        = (varsAtCollocationPoint d 0).read x r (j + 1)
          - (varsAtCollocationPoint d (d.n_c - 1)).read x r j := by
    intro j r hj hr
    have e : g + (j * (d.n_x + d.n_u) + r) = g + r + (d.n_x + d.n_u) * j := by ring
    rw [e]
    exact continuity_call_idx d out g x ld r j hr hj
  refine ⟨hidx, ?_, ?_, ?_⟩
  · intro j k hj hk
    rw [hidx j k hj (by omega)]
    simp only [MatView.read, state_idx_colloc]
  · intro j k hj hk
    rw [hidx j (d.n_x + k) hj (by omega)]
    simp only [MatView.read, control_idx_colloc]
  · intro hc y ld1 h
    exact continuity_call_congr d hc out g x y ld ld1 h

end CollocationConstraints

namespace ControlRateConstraints
open VariableGetter

/-- C25. The Control-rate block stores `u_dot[k](c, i_w) - upper_bound[k]` at output
offset `i_w*2*n_u*n_c + c*n_u + k` and `lower_bound[k] - u_dot[k](c, i_w)` at output offset
`i_w*2*n_u*n_c + n_u*n_c + c*n_u + k`, where `u_dot` is the control part of the order-1
derivative estimate: per segment, `n_u*n_c` upper-side residuals followed by `n_u*n_c`
lower-side residuals. -/
theorem control_rate_residual_positions {α : Type} [Field α] (d : Dims)
    (self : ControlRateConstraints α) (out : Nat → α) (g : Nat) (x : Nat → α)
    (ld : LagrangeDerivatives α) (i_w c k : Nat) (hw : i_w < d.n_w) (hc : c < d.n_c)
    (hk : k < d.n_u) :
    (call d self out g x ld).1 (g + (i_w * 2 * d.n_u * d.n_c + c * d.n_u + k))
        = (control d c i_w).read (ld.get 1) k 0 - self.upper_bound k ∧
    (call d self out g x ld).1
        (g + (i_w * 2 * d.n_u * d.n_c + d.n_u * d.n_c + c * d.n_u + k))
        = self.lower_bound k - (control d c i_w).read (ld.get 1) k 0 := by
  obtain ⟨h1, h2⟩ := controlRate_callLoop_idx d self (ld.get 1) d.n_w out g i_w k c hw hk hc
  have e1 : g + (i_w * 2 * d.n_u * d.n_c + c * d.n_u + k)
      = g + i_w * (2 * (d.n_u * d.n_c)) + k + d.n_u * c := by ring
  have e2 : g + (i_w * 2 * d.n_u * d.n_c + d.n_u * d.n_c + c * d.n_u + k)
      = g + i_w * (2 * (d.n_u * d.n_c)) + d.n_u * d.n_c + k + d.n_u * c := by ring
  have hread : (controlsAtWaypoint d i_w).read (ld.get 1) k c
      = (control d c i_w).read (ld.get 1) k 0 := by
    unfold MatView.read
    rw [controlsAtWaypoint_idx, control_idx_eq]
  unfold call
  simp only []
  rw [e1, e2, h1, h2, hread]
  exact ⟨rfl, by ring⟩

/-- C25 in the configuration of `test_constraints.cpp` with a cache whose order-1 slot
holds `p` at position `p`: segment 2, node 3, channel 1 is at the offsets
`2*88 + 3*4 + 1 = 189` (upper side) and `189 + 44 = 233` (lower side). -/
theorem control_rate_residual_positions_witness :
    (call ⟨6, 4, 11, 6⟩ ⟨fun _ => -1, fun _ => 1⟩ (fun _ => 7) 50 (fun _ => (0 : ℚ))
        ⟨fun _ _ => 0, fun _ p => (p : ℚ)⟩).1 (50 + (2 * 2 * 4 * 11 + 3 * 4 + 1))
      = (control ⟨6, 4, 11, 6⟩ 3 2).read
          (LagrangeDerivatives.get
            (⟨fun _ _ => 0, fun _ p => (p : ℚ)⟩ : LagrangeDerivatives ℚ) 1) 1 0 - 1 ∧
    2 * 2 * 4 * 11 + 3 * 4 + 1 = 189 :=
  ⟨(control_rate_residual_positions ⟨6, 4, 11, 6⟩ ⟨fun _ => -1, fun _ => 1⟩ (fun _ => 7) 50
    (fun _ => (0 : ℚ)) ⟨fun _ _ => 0, fun _ p => (p : ℚ)⟩ 2 3 1 (by decide) (by decide)
    (by decide)).1, by decide⟩

end ControlRateConstraints

/-! ## `get`, and what `generate` leaves alone -/

namespace LagrangeDerivatives
open VariableGetter

/-- C22, at degree 0. The static assertions of `get<degree>()` accept exactly the degrees
`0 ≤ degree ≤ max_derivatives`: the first one tests `degree >= 0` although its message
asks for a positive number. So `get<0>()` is accepted, and the column index `degree - 1`
it uses is `-1`, outside `[0, max_derivatives)`; for an accepted degree `≥ 1` the column
index is in range. -/
theorem get_accepts_degree_zero :
    getAccepts 1 0 = true ∧ getColumn 0 = -1 ∧
    ¬ (0 ≤ getColumn 0 ∧ getColumn 0 < 1) ∧
    (∀ max_derivatives degree : Int,
      getAccepts max_derivatives degree = true ↔ (0 ≤ degree ∧ degree ≤ max_derivatives)) ∧
    (∀ max_derivatives degree : Int, getAccepts max_derivatives degree = true →
      1 ≤ degree → (0 ≤ getColumn degree ∧ getColumn degree < max_derivatives)) := by
  refine ⟨by decide, by decide, by decide, ?_, ?_⟩
  · intro m k
    unfold getAccepts
    simp
  · intro m k h hk
    unfold getAccepts at h
    simp at h
    unfold getColumn
    omega

/-- The inner loop of `generate` writes nothing from the first duration position on. -/
theorem generateWaypoints_ge {α : Type} [Field α] (d : Dims) (D : Nat → Nat → α)
    (x dx : Nat → α) (p : Nat) (hp : (d.n_x + d.n_u) * d.n_c * d.n_w ≤ p) :
    generateWaypoints d D x d.n_w dx p = dx p := by
  apply generateWaypoints_frame
  intro i r c hi hr hc heq
  rw [varsAtWaypoint_idx] at heq
  have := node_lt hc hi hr
  omega

/-- Every column of the cache keeps, from the first duration position on, what it held
before `generate`. -/
theorem generateLoop_ge {α : Type} [Field α] (d : Dims) (D : Nat → Nat → α)
    (x0 : Nat → α) (der : Nat → Nat → α) (up_to k p : Nat)
    (hp : (d.n_x + d.n_u) * d.n_c * d.n_w ≤ p) :
    (generateLoop d D x0 up_to (Src.input, der)).2 k p = der k p := by
  by_cases h : up_to ≤ k
  · rw [generateLoop_column_ge d D x0 der up_to k h]
  · rcases Nat.eq_zero_or_pos k with h0 | h0
    · subst h0
      rw [generateLoop_column_zero d D x0 der up_to (by omega), generateWaypoints_ge d D _ _ p hp]
    · obtain ⟨m, rfl⟩ : ∃ m, k = m + 1 := ⟨k - 1, by omega⟩
      rw [generateLoop_column_succ d D x0 der up_to m (by omega),
        generateWaypoints_ge d D _ _ p hp]

/-- C23. `generate<up_to>(x)` leaves the differentiation matrix alone and, in the cache,
changes nothing from the first duration position on in any slot (so the `n_w` duration
positions of every slot keep their value, which is the `0` of the constructor on a fresh
object) and nothing at all in the slots of the orders above `up_to`. -/
theorem generate_frame {α : Type} [Field α] (d : Dims) (self : LagrangeDerivatives α)
    (x0 : Nat → α) (up_to : Nat) :
    (generate d up_to self x0).derivative_coefficients = self.derivative_coefficients ∧
    (∀ k p, (d.n_x + d.n_u) * d.n_c * d.n_w ≤ p →
      (generate d up_to self x0).derivatives k p = self.derivatives k p) ∧
    (∀ k i, (times d).read ((generate d up_to self x0).derivatives k) 0 i
      = (times d).read (self.derivatives k) 0 i) ∧
    (∀ k, up_to ≤ k → (generate d up_to self x0).derivatives k = self.derivatives k) ∧
    (∀ (τ : Nat → α) k i,
      (times d).read ((generate d up_to (create d τ) x0).derivatives k) 0 i = 0) := by
  refine ⟨rfl, ?_, ?_, ?_, ?_⟩
  · intro k p hp
    exact generateLoop_ge d _ x0 _ up_to k p hp
  · intro k i
    unfold MatView.read
    rw [times_idx]
    exact generateLoop_ge d _ x0 _ up_to k _ (by omega)
  · intro k hk
    exact generateLoop_column_ge d _ x0 _ up_to k hk
  · intro τ k i
    unfold MatView.read
    rw [times_idx]
    exact generateLoop_ge d _ x0 _ up_to k _ (by omega)

end LagrangeDerivatives

/-! ## Fusing no block, or one -/

namespace FusedConstraint

/-- C26. The constructor of `FusedConstraint` rejects the empty tuple and accepts a tuple
of one block; for that tuple `n_constraints` and `max_derivative` are the declared count
and order of the block, the two bound arrays are what the block's `writeLowerBound` and
`writeUpperBound` make of the array, and the evaluation is the block called on the cache
generated up to its declared order. -/
theorem fused_single_block {α β : Type} [Field α] [Field β] (sin cos : α → α) (d : Dims)
    (b : Block α) (collocation_points : Nat → α) (ld : LagrangeDerivatives α)
    (out : Nat → α) (g : Nat) (x : Nat → α) (bound : Nat → β) :
    create d ([] : List (Block α)) collocation_points = none ∧
    (create d [b] collocation_points).isSome = true ∧
    n_constraints d [b] = b.n_constraints d ∧
    max_derivative [b] = b.derivatives ∧
    createLowerBound d [b] bound = (b.writeLowerBound d bound 0).1 ∧
    createUpperBound d [b] bound = (b.writeUpperBound d bound 0).1 ∧
    (call sin cos d ⟨[b], ld⟩ out g x).2
      = b.call sin cos d out g x (ld.generate d b.derivatives x) :=
  ⟨rfl, rfl, rfl, rfl, rfl, rfl, rfl⟩

end FusedConstraint

/-! ## The first-derivative estimate: locality and linearity -/

namespace LagrangeDerivatives
open VariableGetter

/-- C29. The first-derivative estimate is segment-local: two input buffers that agree on
the node values and on the duration of segment `i` get the same order-1 block for segment
`i` from `generate`, whatever the other segments hold and whatever the caches held (for
the same differentiation matrix). -/
theorem first_derivative_segment_local {α : Type} [Field α] (d : Dims)
    (self self1 : LagrangeDerivatives α) (x y : Nat → α) (up_to i : Nat) (hk : 1 ≤ up_to)
    (hi : i < d.n_w)
    (hD : self1.derivative_coefficients = self.derivative_coefficients)
    (hvals : ∀ r c, r < d.n_x + d.n_u → c < d.n_c →
      (varsAtWaypoint d i).read y r c = (varsAtWaypoint d i).read x r c)
    (htime : (times d).read y 0 i = (times d).read x 0 i) :
    ∀ r c, r < d.n_x + d.n_u → c < d.n_c →
      (varsAtWaypoint d i).read ((generate d up_to self1 y).get 1) r c
        = (varsAtWaypoint d i).read ((generate d up_to self x).get 1) r c := by
  intro r c hr hc
  rw [generate_get_one d self1 y up_to i r c hk hi hr hc,
    generate_get_one d self x up_to i r c hk hi hr hc, hD, htime]
  congr 1
  refine Finset.sum_congr rfl (fun j hj => ?_)
  rw [hvals r j hr (Finset.mem_range.mp hj)]

/-- The buffers `exBuffer` and `exNegBuffer` hold the same node values. -/
theorem exNegBuffer_nodes (r c : Nat) (hr : r < 2) (hc : c < 3) :
    (varsAtWaypoint exDims 0).read exNegBuffer r c
      = (varsAtWaypoint exDims 0).read exBuffer r c := by
  have hne : (1 + 1) * 3 * 0 + (1 + 1) * c + r ≠ 6 := by omega
  simp only [MatView.read, varsAtWaypoint_idx, exDims, exBuffer, exNegBuffer, if_neg hne]

/-- C29 on one segment: a buffer that repeats `exBuffer` on the nodes and on the duration
and holds `1` elsewhere gets the same estimate. -/
theorem first_derivative_segment_local_witness :
    (varsAtWaypoint exDims 0).read
        ((generate exDims 1 (create exDims exNodes)
          (fun p => if p < 7 then exBuffer p else 1)).get 1) 0 1
      = (varsAtWaypoint exDims 0).read
          ((generate exDims 1 (create exDims exNodes) exBuffer).get 1) 0 1 :=
  first_derivative_segment_local exDims (create exDims exNodes) (create exDims exNodes)
    exBuffer (fun p => if p < 7 then exBuffer p else 1) 1 0 (by decide) (by decide) rfl
    (by
      intro r c hr hc
      have hr2 : r < 2 := hr
      have hc3 : c < 3 := hc
      have hlt : (1 + 1) * 3 * 0 + (1 + 1) * c + r < 7 := by omega
      simp only [MatView.read, varsAtWaypoint_idx, exDims, if_pos hlt])
    (by simp [MatView.read, times_idx, exDims])
    0 1 (by decide) (by decide)

/-- In exact arithmetic (a field as scalar type), `generate<1>` is linear in the node values
and inversely proportional to each duration. If, on segment `i`, the buffers `x`, `y`, `z` have the same non-zero duration and
the node values of `z` are `a*x + b*y`, the order-1 estimate of `z` on segment `i` is `a`
times that of `x` plus `b` times that of `y`. If `w` has the node values of `x` on segment
`i` and `c0` times its duration, `c0 ≠ 0`, its estimate on segment `i` is `1/c0` times that
of `x`; and on every other segment where `w` repeats `x` the estimate is unchanged. -/
theorem first_derivative_linear_exact {α : Type} [Field α] (d : Dims)
    (self : LagrangeDerivatives α) (x : Nat → α) (up_to i : Nat) (hk : 1 ≤ up_to)
    (hi : i < d.n_w) (_hne : (times d).read x 0 i ≠ 0) :
    (∀ (y z : Nat → α) (a b : α),
      (∀ r c, r < d.n_x + d.n_u → c < d.n_c →
        (varsAtWaypoint d i).read z r c
          = a * (varsAtWaypoint d i).read x r c + b * (varsAtWaypoint d i).read y r c) →
      (times d).read y 0 i = (times d).read x 0 i →
      (times d).read z 0 i = (times d).read x 0 i →
      ∀ r c, r < d.n_x + d.n_u → c < d.n_c →
        (varsAtWaypoint d i).read ((generate d up_to self z).get 1) r c
          = a * (varsAtWaypoint d i).read ((generate d up_to self x).get 1) r c
            + b * (varsAtWaypoint d i).read ((generate d up_to self y).get 1) r c) ∧
    (∀ (w : Nat → α) (c0 : α), c0 ≠ 0 →
      (∀ r c, r < d.n_x + d.n_u → c < d.n_c →
        (varsAtWaypoint d i).read w r c = (varsAtWaypoint d i).read x r c) →
      (times d).read w 0 i = c0 * (times d).read x 0 i →
      (∀ r c, r < d.n_x + d.n_u → c < d.n_c →
        (varsAtWaypoint d i).read ((generate d up_to self w).get 1) r c
          = (1 / c0) * (varsAtWaypoint d i).read ((generate d up_to self x).get 1) r c) ∧
      (∀ j, j < d.n_w → j ≠ i →
        (∀ r c, r < d.n_x + d.n_u → c < d.n_c →
          (varsAtWaypoint d j).read w r c = (varsAtWaypoint d j).read x r c) →
        (times d).read w 0 j = (times d).read x 0 j →
        ∀ r c, r < d.n_x + d.n_u → c < d.n_c →
          (varsAtWaypoint d j).read ((generate d up_to self w).get 1) r c
            = (varsAtWaypoint d j).read ((generate d up_to self x).get 1) r c)) := by
  constructor
  · intro y z a b hz hty htz r c hr hc
    rw [generate_get_one d self z up_to i r c hk hi hr hc,
      generate_get_one d self x up_to i r c hk hi hr hc,
      generate_get_one d self y up_to i r c hk hi hr hc, hty, htz]
    have hsum : ∑ j ∈ Finset.range d.n_c,
        (varsAtWaypoint d i).read z r j * self.derivative_coefficients j c
        = a * ∑ j ∈ Finset.range d.n_c,
            (varsAtWaypoint d i).read x r j * self.derivative_coefficients j c
          + b * ∑ j ∈ Finset.range d.n_c,
            (varsAtWaypoint d i).read y r j * self.derivative_coefficients j c := by
      rw [Finset.mul_sum, Finset.mul_sum, ← Finset.sum_add_distrib]
      refine Finset.sum_congr rfl (fun j hj => ?_)
      rw [hz r j hr (Finset.mem_range.mp hj)]
      ring
    rw [hsum]
    ring
  · intro w c0 _ hvals htime
    constructor
    · intro r c hr hc
      rw [generate_get_one d self w up_to i r c hk hi hr hc,
        generate_get_one d self x up_to i r c hk hi hr hc, htime]
      have hsum : ∑ j ∈ Finset.range d.n_c,
          (varsAtWaypoint d i).read w r j * self.derivative_coefficients j c
          = ∑ j ∈ Finset.range d.n_c,
              (varsAtWaypoint d i).read x r j * self.derivative_coefficients j c :=
        Finset.sum_congr rfl (fun j hj => by rw [hvals r j hr (Finset.mem_range.mp hj)])
      rw [hsum, div_eq_mul_inv, div_eq_mul_inv, div_eq_mul_inv, mul_inv]
      ring
    · intro j hj _ hvj htj r c hr hc
      rw [generate_get_one d self w up_to j r c hk hj hr hc,
        generate_get_one d self x up_to j r c hk hj hr hc, htj]
      congr 1
      exact Finset.sum_congr rfl (fun l hl => by rw [hvj r l hr (Finset.mem_range.mp hl)])

/-- The same on `exBuffer` (duration `2`) and `exNegBuffer` (same node values, duration
`(-1) * 2`): the estimate at node 1 is `1/(-1)` times the one of `exBuffer`. -/
theorem first_derivative_linear_exact_small :
    (varsAtWaypoint exDims 0).read
        ((generate exDims 1 (create exDims exNodes) exNegBuffer).get 1) 0 1
      = (1 / (-1)) * (varsAtWaypoint exDims 0).read
          ((generate exDims 1 (create exDims exNodes) exBuffer).get 1) 0 1 :=
  ((first_derivative_linear_exact exDims (create exDims exNodes) exBuffer 1 0 (by decide)
      (by decide) (by simp [MatView.read, times_idx, exDims, exBuffer])).2
    exNegBuffer (-1) (by norm_num)
    (fun r c hr hc => exNegBuffer_nodes r c hr hc)
    (by simp [MatView.read, times_idx, exDims, exBuffer, exNegBuffer])).1
    0 1 (by decide) (by decide)

end LagrangeDerivatives

/-! ## No block reads above its declared order -/

namespace VariableGetter

/-- Two buffers with the same node values in every segment agree below the durations. -/
theorem agree_below_times {α : Type} (d : Dims) (x y : Nat → α)
    (h : ∀ i r c, i < d.n_w → r < d.n_x + d.n_u → c < d.n_c →
      (varsAtWaypoint d i).read y r c = (varsAtWaypoint d i).read x r c) :
    ∀ p, p < (d.n_x + d.n_u) * d.n_c * d.n_w → y p = x p := by
  intro p hp
  obtain ⟨c, i, r, hc, hi, hr, e⟩ := node_surj hp
  have hx := h i r c hi hr hc
  simp only [MatView.read, varsAtWaypoint_idx] at hx
  have e1 : (d.n_x + d.n_u) * d.n_c * i + (d.n_x + d.n_u) * c + r = p := by omega
  rw [e1] at hx
  exact hx

end VariableGetter

namespace InitialStateConstraints
open VariableGetter

theorem initial_call_congr {α : Type} [Field α] (d : Dims) (hc : 0 < d.n_c) (hw : 0 < d.n_w)
    (self : InitialStateConstraints α) (out : Nat → α) (g : Nat) (x y : Nat → α)
    (ld ld1 : LagrangeDerivatives α)
    (h : ∀ p, p < (d.n_x + d.n_u) * d.n_c * d.n_w → y p = x p) :
    call d self out g y ld1 = call d self out g x ld := by
  unfold call
  simp only []
  congr 1
  apply MatView.assign_congr
  intro r c hr hcol
  have hr1 : r < d.n_x := hr
  have hc1 : c < 1 := hcol
  have hc0 : c = 0 := by omega
  subst hc0
  have b1 := @node_lt d 0 0 r hc hw (by omega)
  simp only [MatView.read]
  rw [state_idx, h _ b1]

end InitialStateConstraints

namespace WaypointConstraints
open VariableGetter

theorem waypoints_call_congr {α : Type} [Field α] (d : Dims) (hc : 0 < d.n_c)
    (self : WaypointConstraints α) (out : Nat → α) (g : Nat) (x y : Nat → α)
    (ld ld1 : LagrangeDerivatives α)
    (h : ∀ p, p < (d.n_x + d.n_u) * d.n_c * d.n_w → y p = x p) :
    call d self out g y ld1 = call d self out g x ld := by
  unfold call
  simp only []
  congr 1
  apply MatView.assign_congr
  intro r c hr hcol
  have hr1 : r < d.n_x := hr
  have hc1 : c < d.n_w := hcol
  have b1 := @node_lt d (d.n_c - 1) c r (by omega) hc1 (by omega)
  have e : (statesAtCollocationPoint d (d.n_c - 1)).idx r c
      = (d.n_x + d.n_u) * (d.n_c - 1) + r + (d.n_x + d.n_u) * d.n_c * c := by
    rw [statesAtCollocationPoint_idx, varsAtCollocationPoint_idx]; ring
  simp only [MatView.read]
  rw [e, h _ b1]

end WaypointConstraints

namespace WaypointConstraint
open VariableGetter

theorem waypoint_call_congr {α : Type} [Field α] (d : Dims) (hc : 0 < d.n_c)
    (self : WaypointConstraint α) (hs : self.state_index < d.n_x) (out : Nat → α) (g : Nat)
    (x y : Nat → α) (ld ld1 : LagrangeDerivatives α)
    (h : ∀ p, p < (d.n_x + d.n_u) * d.n_c * d.n_w → y p = x p) :
    call d self out g y ld1 = call d self out g x ld := by
  unfold call
  simp only []
  congr 1
  apply MatView.assign_congr
  intro r c hr hcol
  have hr1 : r < 1 := hr
  have hc1 : c < d.n_w := hcol
  have hr0 : r = 0 := by omega
  subst hr0
  have b1 := @node_lt d (d.n_c - 1) c self.state_index (by omega) hc1 (by omega)
  have e : ((statesAtCollocationPoint d (d.n_c - 1)).row self.state_index).idx 0 c
      = (d.n_x + d.n_u) * (d.n_c - 1) + self.state_index + (d.n_x + d.n_u) * d.n_c * c := by
    simp only [MatView.row, MatView.idx, statesAtCollocationPoint, varsAtCollocationPoint,
      MatView.topRows, MatView.middleRows, asMatrix, MatView.map]
    ring
  simp only [MatView.read]
  rw [e, h _ b1]

end WaypointConstraint

namespace Block
open VariableGetter

/-- A block of declared order 0 reads its input only below the durations, and reads no
cache. -/
theorem call_congr_input {α : Type} [Field α] (sin cos : α → α) (d : Dims) (b : Block α)
    (hc : 0 < d.n_c) (hw : 0 < d.n_w) (hb : b.derivatives = 0) (hwf : b.wellFormed d)
    (out : Nat → α) (g : Nat) (x y : Nat → α) (ld ld1 : LagrangeDerivatives α)
    (h : ∀ p, p < (d.n_x + d.n_u) * d.n_c * d.n_w → y p = x p) :
    b.call sin cos d out g y ld1 = b.call sin cos d out g x ld := by
  cases b with
  | collocation => exact CollocationConstraints.continuity_call_congr d hc out g x y ld ld1 h
  | controlRate self => exact absurd hb Nat.one_ne_zero
  | dynamics => exact absurd hb Nat.one_ne_zero
  | initialState self =>
    exact InitialStateConstraints.initial_call_congr d hc hw self out g x y ld ld1 h
  | smoothControl => exact absurd hb Nat.one_ne_zero
  | waypoints self =>
    exact WaypointConstraints.waypoints_call_congr d hc self out g x y ld ld1 h
  | waypoint self =>
    exact WaypointConstraint.waypoint_call_congr d hc self hwf out g x y ld ld1 h

/-- C27. No block reads a derivative order above the one it declares. Every block declares
order 0 (Continuity, Initial-state, Waypoints, Waypoint) or order 1 (Control-rate, Dynamics,
Smooth-control). A block of declared order 0 gives the same output memory and cursor for
any two caches and any two buffers with the same node values in every segment, whatever
their durations. A block of declared order 1 gives the same result on two caches with the
same order-1 slot. Hence every block of a fused tuple declares at most `max_derivative`,
and on the cache left by `generate<max_derivative>` its result does not depend on what
any slot held before that call. -/
theorem blocks_read_declared_order {α : Type} [Field α] (sin cos : α → α) (d : Dims)
    (hc : 0 < d.n_c) (hw : 0 < d.n_w) :
    (∀ b : Block α,
      (b.derivatives = 0 ↔ (b = Block.collocation ∨ (∃ s, b = Block.initialState s) ∨
        (∃ s, b = Block.waypoints s) ∨ (∃ s, b = Block.waypoint s))) ∧
      (b.derivatives = 1 ↔ ((∃ s, b = Block.controlRate s) ∨ b = Block.dynamics ∨
        b = Block.smoothControl))) ∧
    (∀ b : Block α, b.derivatives = 0 → b.wellFormed d →
      ∀ (out : Nat → α) (g : Nat) (x y : Nat → α) (ld ld1 : LagrangeDerivatives α),
      (∀ i r c, i < d.n_w → r < d.n_x + d.n_u → c < d.n_c →
        (varsAtWaypoint d i).read y r c = (varsAtWaypoint d i).read x r c) →
      b.call sin cos d out g y ld1 = b.call sin cos d out g x ld) ∧
    (∀ b : Block α, b.derivatives = 1 →
      ∀ (out : Nat → α) (g : Nat) (x : Nat → α) (ld ld1 : LagrangeDerivatives α),
      ld1.get 1 = ld.get 1 →
      b.call sin cos d out g x ld1 = b.call sin cos d out g x ld) ∧
    (∀ (t : List (Block α)) (b : Block α), b ∈ t →
      b.derivatives ≤ FusedConstraint.max_derivative t ∧
      ∀ (D : Nat → Nat → α) (der der1 : Nat → Nat → α) (out : Nat → α) (g : Nat)
        (x : Nat → α),
        b.call sin cos d out g x
            (LagrangeDerivatives.generate d (FusedConstraint.max_derivative t) ⟨D, der⟩ x)
          = b.call sin cos d out g x
            (LagrangeDerivatives.generate d (FusedConstraint.max_derivative t)
              ⟨D, der1⟩ x)) := by
  refine ⟨?_, ?_, ?_, ?_⟩
  · intro b
    cases b with
    | collocation =>
      exact ⟨⟨fun _ => Or.inl rfl, fun _ => rfl⟩,
        ⟨fun h => absurd h Nat.zero_ne_one, fun h => by simp at h⟩⟩
    | controlRate self =>
      exact ⟨⟨fun h => absurd h Nat.one_ne_zero, fun h => by simp at h⟩,
        ⟨fun _ => Or.inl ⟨self, rfl⟩, fun _ => rfl⟩⟩
    | dynamics =>
      exact ⟨⟨fun h => absurd h Nat.one_ne_zero, fun h => by simp at h⟩,
        ⟨fun _ => Or.inr (Or.inl rfl), fun _ => rfl⟩⟩
    | initialState self =>
      exact ⟨⟨fun _ => Or.inr (Or.inl ⟨self, rfl⟩), fun _ => rfl⟩,
        ⟨fun h => absurd h Nat.zero_ne_one, fun h => by simp at h⟩⟩
    | smoothControl =>
      exact ⟨⟨fun h => absurd h Nat.one_ne_zero, fun h => by simp at h⟩,
        ⟨fun _ => Or.inr (Or.inr rfl), fun _ => rfl⟩⟩
    | waypoints self =>
      exact ⟨⟨fun _ => Or.inr (Or.inr (Or.inl ⟨self, rfl⟩)), fun _ => rfl⟩,
        ⟨fun h => absurd h Nat.zero_ne_one, fun h => by simp at h⟩⟩
    | waypoint self =>
      exact ⟨⟨fun _ => Or.inr (Or.inr (Or.inr ⟨self, rfl⟩)), fun _ => rfl⟩,
        ⟨fun h => absurd h Nat.zero_ne_one, fun h => by simp at h⟩⟩
  · intro b hb hwf out g x y ld ld1 h
    exact call_congr_input sin cos d b hc hw hb hwf out g x y ld ld1
      (agree_below_times d x y h)
  · intro b _ out g x ld ld1 h
    exact call_congr_cache sin cos d b hc out g x ld1 ld (fun i r c _ _ _ => by rw [h])
  · intro t b hb
    obtain ⟨l, hl, rfl⟩ := FusedConstraint.exists_element_of_mem t b hb
    have hle : (FusedConstraint.element t l).derivatives ≤ FusedConstraint.max_derivative t :=
      (FusedConstraint.maxDerivative_spec t (FusedConstraint.n_constraint_classes t - 1)).1 l
        (by unfold FusedConstraint.n_constraint_classes; omega)
    refine ⟨hle, ?_⟩
    intro D der der1 out g x
    exact FusedConstraint.block_call_after_generate sin cos d _ hc D der der1 x _ hle out g

/-- C27 on the Control-rate block over `exDims2`: two caches with the same order-1 slot
and different order-2 slots and matrices give the same output. -/
theorem blocks_read_declared_order_witness :
    (Block.controlRate ⟨fun _ => -1, fun _ => 1⟩ : Block ℚ).call (fun t => t) (fun _ => 1)
        exDims2 (fun _ => 0) 0 exContBuffer
        ⟨fun _ _ => 3, fun k p => if k = 0 then (p : ℚ) else 5⟩
      = (Block.controlRate ⟨fun _ => -1, fun _ => 1⟩ : Block ℚ).call (fun t => t)
        (fun _ => 1) exDims2 (fun _ => 0) 0 exContBuffer
        ⟨fun _ _ => 0, fun k p => if k = 0 then (p : ℚ) else 0⟩ :=
  (blocks_read_declared_order (fun t => t) (fun _ => 1) exDims2 (by decide)
    (by decide)).2.2.1 (Block.controlRate ⟨fun _ => -1, fun _ => 1⟩) rfl (fun _ => 0) 0
    exContBuffer ⟨fun _ _ => 0, fun k p => if k = 0 then (p : ℚ) else 0⟩
    ⟨fun _ _ => 3, fun k p => if k = 0 then (p : ℚ) else 5⟩ rfl

end Block


/-! ## The thrust direction, and hover -/

namespace DynamicsConstraints
open VariableGetter

/-- With a sine and a cosine whose squares add up to one, the thrust-induced part of rows
3, 4, 5 of `dynamics` has squared norm `thrust^2`. -/
theorem dynamics_thrust_norm {α : Type} [Field α] (sin cos : α → α)
    (hsc : ∀ t, sin t ^ 2 + cos t ^ 2 = 1) (d : Dims) (x out : Nat → α) (dx i_w c : Nat)
    (hx : d.n_x = 6) (hc : c < d.n_c) :
    (MatView.map dx d.n_x d.n_c).read (dynamics sin cos d x out dx i_w) 3 c ^ 2
      + (MatView.map dx d.n_x d.n_c).read (dynamics sin cos d x out dx i_w) 4 c ^ 2
      + ((MatView.map dx d.n_x d.n_c).read (dynamics sin cos d x out dx i_w) 5 c
          - mass_gravity) ^ 2
      = (control d c i_w).read x 0 0 ^ 2 := by
  obtain ⟨_, h3, h4, h5⟩ := dynamics_idx sin cos d hx x out dx i_w c hc
  simp only [controlsAtWaypoint_read_eq] at h3 h4 h5
  rw [MatView.read, MatView.read, MatView.read, MatView.map_idx, MatView.map_idx,
    MatView.map_idx, hx, h3, h4, h5]
  have e1 := hsc ((control d c i_w).read x 1 0)
  have e2 := hsc ((control d c i_w).read x 2 0)
  have e3 := hsc ((control d c i_w).read x 3 0)
  generalize (control d c i_w).read x 0 0 = T at *
  generalize sin ((control d c i_w).read x 1 0) = s1 at *
  generalize cos ((control d c i_w).read x 1 0) = c1 at *
  generalize sin ((control d c i_w).read x 2 0) = s2 at *
  generalize cos ((control d c i_w).read x 2 0) = c2 at *
  generalize sin ((control d c i_w).read x 3 0) = s3 at *
  generalize cos ((control d c i_w).read x 3 0) = c3 at *
  have k1 : s1 ^ 2 = 1 - c1 ^ 2 := by rw [← e1]; ring
  have k2 : s2 ^ 2 = 1 - c2 ^ 2 := by rw [← e2]; ring
  have k3 : s3 ^ 2 = 1 - c3 ^ 2 := by rw [← e3]; ring
  have : (-T * (s1 * s3 + c1 * c3 * s2)) ^ 2 + (T * (c3 * s1 - c1 * s3 * s2)) ^ 2
        + (-T * c1 * c2 + mass_gravity - mass_gravity) ^ 2
      = T ^ 2 * (s1 ^ 2 * (s3 ^ 2 + c3 ^ 2) + c1 ^ 2 * s2 ^ 2 * (s3 ^ 2 + c3 ^ 2)
          + c1 ^ 2 * c2 ^ 2) := by ring
  rw [this, e3, k1, k2]
  ring

/-- With `sin 0 = 0` and `cos 0 = 1`, rows 3, 4, 5 of `dynamics` vanish at a node with
thrust `mass * gravity` and zero roll and pitch. -/
theorem dynamics_hover {α : Type} [Field α] (sin cos : α → α) (hs : sin 0 = 0)
    (hcos : cos 0 = 1) (d : Dims) (x out : Nat → α) (dx i_w c : Nat) (hx : d.n_x = 6)
    (hc : c < d.n_c) (hT : (control d c i_w).read x 0 0 = mass * gravity)
    (hphi : (control d c i_w).read x 1 0 = 0) (htheta : (control d c i_w).read x 2 0 = 0) :
    (MatView.map dx d.n_x d.n_c).read (dynamics sin cos d x out dx i_w) 3 c = 0 ∧
    (MatView.map dx d.n_x d.n_c).read (dynamics sin cos d x out dx i_w) 4 c = 0 ∧
    (MatView.map dx d.n_x d.n_c).read (dynamics sin cos d x out dx i_w) 5 c = 0 := by
  obtain ⟨_, h3, h4, h5⟩ := dynamics_idx sin cos d hx x out dx i_w c hc
  simp only [controlsAtWaypoint_read_eq, hT, hphi, htheta, hs, hcos] at h3 h4 h5
  refine ⟨?_, ?_, ?_⟩
  · rw [MatView.read, MatView.map_idx, hx, h3]; ring
  · rw [MatView.read, MatView.map_idx, hx, h4]; ring
  · rw [MatView.read, MatView.map_idx, hx, h5]
    unfold mass_gravity
    ring

/-- C31. Over the reals, with the real sine and cosine: at every node of every buffer, the
thrust-induced part of the velocity derivatives that `dynamics` stores (rows 3 and 4, and
row 5 minus `mass_gravity`) has squared Euclidean norm `T^2`, `T` the thrust at the node;
and for all angles `(sin φ sin ψ + cos φ cos ψ sin θ, cos ψ sin φ - cos φ sin ψ sin θ,
cos φ cos θ)` is a unit vector. -/
theorem thrust_direction_is_unit (d : Dims) (x out : Nat → ℝ) (dx i_w c : Nat)
    (hx : d.n_x = 6) (_hu : d.n_u = 4) (hc : c < d.n_c) :
    ((MatView.map dx d.n_x d.n_c).read (dynamics Real.sin Real.cos d x out dx i_w) 3 c ^ 2
      + (MatView.map dx d.n_x d.n_c).read (dynamics Real.sin Real.cos d x out dx i_w) 4 c ^ 2
      + ((MatView.map dx d.n_x d.n_c).read (dynamics Real.sin Real.cos d x out dx i_w) 5 c
          - mass_gravity) ^ 2
      = (control d c i_w).read x 0 0 ^ 2) ∧
    (MatView.map dx d.n_x d.n_c).read (dynamics Real.sin Real.cos d x out dx i_w) 3 c
      = -(control d c i_w).read x 0 0
        * (Real.sin ((control d c i_w).read x 1 0) * Real.sin ((control d c i_w).read x 3 0)
          + Real.cos ((control d c i_w).read x 1 0) * Real.cos ((control d c i_w).read x 3 0)
            * Real.sin ((control d c i_w).read x 2 0)) ∧
    (MatView.map dx d.n_x d.n_c).read (dynamics Real.sin Real.cos d x out dx i_w) 4 c
      = (control d c i_w).read x 0 0
        * (Real.cos ((control d c i_w).read x 3 0) * Real.sin ((control d c i_w).read x 1 0)
          - Real.cos ((control d c i_w).read x 1 0) * Real.sin ((control d c i_w).read x 3 0)
            * Real.sin ((control d c i_w).read x 2 0)) ∧
    (MatView.map dx d.n_x d.n_c).read (dynamics Real.sin Real.cos d x out dx i_w) 5 c
        - mass_gravity
      = -(control d c i_w).read x 0 0
        * (Real.cos ((control d c i_w).read x 1 0)
          * Real.cos ((control d c i_w).read x 2 0)) ∧
    (∀ phi theta psi : ℝ,
      (Real.sin phi * Real.sin psi + Real.cos phi * Real.cos psi * Real.sin theta) ^ 2
        + (Real.cos psi * Real.sin phi - Real.cos phi * Real.sin psi * Real.sin theta) ^ 2
        + (Real.cos phi * Real.cos theta) ^ 2 = 1) := by
  obtain ⟨_, h3, h4, h5⟩ := dynamics_idx Real.sin Real.cos d hx x out dx i_w c hc
  simp only [controlsAtWaypoint_read_eq] at h3 h4 h5
  refine ⟨dynamics_thrust_norm Real.sin Real.cos Real.sin_sq_add_cos_sq d x out dx i_w c hx hc,
    ?_, ?_, ?_, ?_⟩
  · rw [MatView.read, MatView.map_idx, hx, h3]
  · rw [MatView.read, MatView.map_idx, hx, h4]
  · rw [MatView.read, MatView.map_idx, hx, h5]; ring
  · intro phi theta psi
    have e1 := Real.sin_sq_add_cos_sq phi
    have e2 := Real.sin_sq_add_cos_sq theta
    have e3 := Real.sin_sq_add_cos_sq psi
    have k1 : Real.sin phi ^ 2 = 1 - Real.cos phi ^ 2 := by rw [← e1]; ring
    have k2 : Real.sin theta ^ 2 = 1 - Real.cos theta ^ 2 := by rw [← e2]; ring
    have : (Real.sin phi * Real.sin psi + Real.cos phi * Real.cos psi * Real.sin theta) ^ 2
        + (Real.cos psi * Real.sin phi - Real.cos phi * Real.sin psi * Real.sin theta) ^ 2
        + (Real.cos phi * Real.cos theta) ^ 2
        = Real.sin phi ^ 2 * (Real.sin psi ^ 2 + Real.cos psi ^ 2)
          + Real.cos phi ^ 2 * Real.sin theta ^ 2 * (Real.sin psi ^ 2 + Real.cos psi ^ 2)
          + Real.cos phi ^ 2 * Real.cos theta ^ 2 := by ring
    rw [this, e3, k1, k2]
    ring

/-- C31 on one node with thrust `3`, roll `1`, pitch `2` and yaw `4` (offsets `6 .. 9`):
the squared norm of the thrust-induced part is `3^2`. -/
theorem thrust_direction_is_unit_witness :
    (MatView.map 0 6 1).read
        (dynamics Real.sin Real.cos ⟨6, 4, 1, 1⟩
          (fun p => if p = 6 then 3 else if p = 7 then 1 else if p = 8 then 2 else 4)
          (fun _ => 0) 0 0) 3 0 ^ 2
      + (MatView.map 0 6 1).read
        (dynamics Real.sin Real.cos ⟨6, 4, 1, 1⟩
          (fun p => if p = 6 then 3 else if p = 7 then 1 else if p = 8 then 2 else 4)
          (fun _ => 0) 0 0) 4 0 ^ 2
      + ((MatView.map 0 6 1).read
        (dynamics Real.sin Real.cos ⟨6, 4, 1, 1⟩
          (fun p => if p = 6 then 3 else if p = 7 then 1 else if p = 8 then 2 else 4)
          (fun _ => 0) 0 0) 5 0 - mass_gravity) ^ 2
      = (control ⟨6, 4, 1, 1⟩ 0 0).read
          (fun p => if p = 6 then (3 : ℝ) else if p = 7 then 1 else if p = 8 then 2 else 4)
          0 0 ^ 2 :=
  (thrust_direction_is_unit ⟨6, 4, 1, 1⟩
    (fun p => if p = 6 then 3 else if p = 7 then 1 else if p = 8 then 2 else 4)
    (fun _ => 0) 0 0 0 rfl rfl (by decide)).1

/-- C32. Hover is an equilibrium of the velocity dynamics: over the reals, with the real
sine and cosine, at a node whose thrust is `mass * gravity` and whose roll `φ` and pitch
`θ` are zero, rows 3, 4 and 5 of what `dynamics` stores are zero, whatever the yaw `ψ` and
the rest of the buffer are. -/
theorem hover_is_equilibrium (d : Dims) (x out : Nat → ℝ) (dx i_w c : Nat)
    (hx : d.n_x = 6) (_hu : d.n_u = 4) (hc : c < d.n_c)
    (hT : (control d c i_w).read x 0 0 = mass * gravity)
    (hphi : (control d c i_w).read x 1 0 = 0) (htheta : (control d c i_w).read x 2 0 = 0) :
    (MatView.map dx d.n_x d.n_c).read (dynamics Real.sin Real.cos d x out dx i_w) 3 c = 0 ∧
    (MatView.map dx d.n_x d.n_c).read (dynamics Real.sin Real.cos d x out dx i_w) 4 c = 0 ∧
    (MatView.map dx d.n_x d.n_c).read (dynamics Real.sin Real.cos d x out dx i_w) 5 c = 0 :=
  dynamics_hover Real.sin Real.cos Real.sin_zero Real.cos_zero d x out dx i_w c hx hc hT hphi
    htheta

/-- C32 on one node with thrust `mass * gravity` (offset `6`), zero roll and pitch and yaw
`2` (offset `9`). -/
theorem hover_is_equilibrium_witness :
    (MatView.map 0 6 1).read
        (dynamics Real.sin Real.cos ⟨6, 4, 1, 1⟩
          (fun p => if p = 6 then mass * gravity else if p = 9 then 2 else 0)
          (fun _ => 0) 0 0) 3 0 = 0 ∧
    (MatView.map 0 6 1).read
        (dynamics Real.sin Real.cos ⟨6, 4, 1, 1⟩
          (fun p => if p = 6 then mass * gravity else if p = 9 then 2 else 0)
          (fun _ => 0) 0 0) 4 0 = 0 ∧
    (MatView.map 0 6 1).read
        (dynamics Real.sin Real.cos ⟨6, 4, 1, 1⟩
          (fun p => if p = 6 then mass * gravity else if p = 9 then 2 else 0)
          (fun _ => 0) 0 0) 5 0 = 0 :=
  hover_is_equilibrium ⟨6, 4, 1, 1⟩
    (fun p => if p = 6 then mass * gravity else if p = 9 then 2 else 0) (fun _ => 0) 0 0 0
    rfl rfl (by decide)
    (by simp [MatView.read, control_idx])
    (by simp [MatView.read, control_idx])
    (by simp [MatView.read, control_idx])

end DynamicsConstraints


/-! ## The sense of the bounds -/

namespace FusedConstraint

/-- C33. For a non-empty tuple of blocks, at every position `p` below `n_constraints` the
fused upper bound is `0`, the fused lower bound is `0` or `-1e10`, and the lower bound is
at most the upper bound. No block writes a flipped-sense bound: at every position of its
range a block writes the upper bound `0`, which is not positive, and a lower bound that is
`-1e10` exactly for the inequality block and `0` otherwise. -/
theorem fused_bounds_ordered {α β : Type} [LinearOrderedField β] (d : Dims)
    (t : List (Block α)) (bound : Nat → β) (ht : t ≠ []) :
    (∀ p, p < n_constraints d t →
      createUpperBound d t bound p = 0 ∧
      createLowerBound d t bound p ≤ createUpperBound d t bound p ∧
      (createLowerBound d t bound p = 0 ∨ createLowerBound d t bound p = -1e10)) ∧
    (∀ (b : Block α) (mem : Nat → β) (g p : Nat), p < b.n_constraints d →
      (b.writeUpperBound d mem g).1 (g + p) = 0 ∧
      ¬ (0 < (b.writeUpperBound d mem g).1 (g + p)) ∧
      (b.writeLowerBound d mem g).1 (g + p) ≤ (b.writeUpperBound d mem g).1 (g + p) ∧
      (b.writeLowerBound d mem g).1 (g + p) = if b.isInequality then -1e10 else 0) := by
  have hneg : (-1e10 : β) ≤ 0 := by norm_num
  have hlen : 0 < t.length := List.length_pos.mpr ht
  have hcount := n_constraints_eq_sum_range d t ht
  obtain ⟨_, l2, _⟩ := fillLowerBound_spec d t (t.length - 1) bound
  obtain ⟨_, u2, _⟩ := fillUpperBound_spec d t (t.length - 1) bound
  constructor
  · intro p hp
    rw [hcount] at hp
    obtain ⟨j, q, hj, hq, rfl⟩ := exists_block_of_lt _ _ _ hp
    unfold createLowerBound createUpperBound n_constraint_classes
    rw [l2 j q (by omega) hq, u2 j q (by omega) hq]
    by_cases hin : (element t j).isInequality = true
    · rw [if_pos hin]
      exact ⟨rfl, hneg, Or.inr rfl⟩
    · rw [if_neg hin]
      exact ⟨rfl, le_refl _, Or.inl rfl⟩
  · intro b mem g p hp
    rw [Block.writeUpperBound_written d b mem g p hp,
      Block.writeLowerBound_written d b mem g p hp]
    refine ⟨rfl, lt_irrefl _, ?_, rfl⟩
    by_cases hin : b.isInequality = true
    · rw [if_pos hin]; exact hneg
    · rw [if_neg hin]

/-- C33 in the configuration of `test_constraints.cpp`, on an array that held `7`
everywhere, at position `50` (the first of the Control-rate block) and at position `49`. -/
theorem fused_bounds_ordered_witness :
    createUpperBound ⟨6, 4, 11, 6⟩ exSixBlocks (fun _ => (7 : ℚ)) 50 = 0 ∧
    createLowerBound ⟨6, 4, 11, 6⟩ exSixBlocks (fun _ => (7 : ℚ)) 50
      ≤ createUpperBound ⟨6, 4, 11, 6⟩ exSixBlocks (fun _ => (7 : ℚ)) 50 ∧
    createLowerBound ⟨6, 4, 11, 6⟩ exSixBlocks (fun _ => (7 : ℚ)) 49
      ≤ createUpperBound ⟨6, 4, 11, 6⟩ exSixBlocks (fun _ => (7 : ℚ)) 49 :=
  have h := (fused_bounds_ordered ⟨6, 4, 11, 6⟩ exSixBlocks (fun _ => (7 : ℚ))
    (by simp [exSixBlocks])).1
  ⟨(h 50 (by decide)).1, (h 50 (by decide)).2.1, (h 49 (by decide)).2.1⟩

end FusedConstraint


/-! ## The initial guess of `main.cpp` -/

namespace Main
open VariableGetter

theorem statesAtCollocationPoint_pos (d : Dims) (i_c k j : Nat) :
    (statesAtCollocationPoint d i_c).idx k j
      = (d.n_x + d.n_u) * i_c + k + (d.n_x + d.n_u) * d.n_c * j := by
  rw [statesAtCollocationPoint_idx, varsAtCollocationPoint_idx]; ring

theorem states_rows_le_outer (d : Dims) (i_c : Nat) (hc : 0 < d.n_c) :
    (statesAtCollocationPoint d i_c).rows ≤ (statesAtCollocationPoint d i_c).outer := by
  show d.n_x ≤ (d.n_x + d.n_u) * d.n_c
  calc d.n_x ≤ (d.n_x + d.n_u) * 1 := by omega
    _ ≤ (d.n_x + d.n_u) * d.n_c := Nat.mul_le_mul_left _ hc

/-- Iteration `c` of the loop writes the states of node `c`, and later iterations leave
them alone. -/
theorem initialGuessLoop_idx {α : Type} [One α] [Add α] [Sub α] [Mul α] [Neg α] (d : Dims)
    (collocation_points : Nat → α) (initial_state : Nat → α) (waypoints : Nat → Nat → α)
    (mem : Nat → α) (n c k j : Nat)
    (hn : n ≤ d.n_c) (hc : c < n) (hk : k < d.n_x) (hj : j < d.n_w) :
    initialGuessLoop d collocation_points initial_state waypoints n mem
        ((statesAtCollocationPoint d c).idx k j)
      = waypoints k j
        - dc collocation_points c * differences d initial_state waypoints k j := by
  induction n with
  | zero => omega
  | succ n ih =>
    simp only [initialGuessLoop]
    by_cases h : c = n
    · subst h
      exact MatView.assign_idx _ _ _ (states_rows_le_outer d c (by omega)) hk hj
    · rw [MatView.assign_frame]
      · exact ih (by omega) (by omega)
      · intro r1 c1 hr1 _ heq
        have hr1x : r1 < d.n_x := hr1
        rw [statesAtCollocationPoint_pos, statesAtCollocationPoint_pos] at heq
        exact h (node_inj (show c < d.n_c by omega) (show n < d.n_c by omega)
          (show k < d.n_x + d.n_u by omega) (show r1 < d.n_x + d.n_u by omega) heq).1

/-- The loop writes state positions only. -/
theorem initialGuessLoop_frame {α : Type} [One α] [Add α] [Sub α] [Mul α] [Neg α] (d : Dims)
    (collocation_points : Nat → α) (initial_state : Nat → α) (waypoints : Nat → Nat → α)
    (mem : Nat → α) (n p : Nat)
    (hp : ∀ c k j, c < n → k < d.n_x → j < d.n_w →
      p ≠ (statesAtCollocationPoint d c).idx k j) :
    initialGuessLoop d collocation_points initial_state waypoints n mem p = mem p := by
  induction n with
  | zero => rfl
  | succ n ih =>
    simp only [initialGuessLoop]
    rw [MatView.assign_frame]
    · exact ih (fun c k j hc hk hj => hp c k j (by omega) hk hj)
    · intro r c hr hcol
      exact hp n r c (by omega) hr hcol

/-- The states of the initial guess: the interpolation between the previous target (the
initial state for segment 0) and the target of the segment. -/
theorem initial_guess_state {α : Type} [Field α] (d : Dims) (collocation_points : Nat → α)
    (initial_state : Nat → α) (waypoints : Nat → Nat → α) (mem : Nat → α) (c j k : Nat)
    (hc : c < d.n_c) (hj : j < d.n_w) (hk : k < d.n_x) :
    (state d c j).read (initial_guess d collocation_points initial_state waypoints mem) k 0
      = waypoints k j - (1 - collocation_points c)
          * (waypoints k j - (if j = 0 then initial_state k else waypoints k (j - 1))) := by
  unfold MatView.read initial_guess
  rw [state_idx_colloc, ← statesAtCollocationPoint_idx,
    initialGuessLoop_idx d collocation_points initial_state waypoints _ d.n_c c k j
      (le_refl _) hc hk hj]
  unfold dc differences
  by_cases h0 : j = 0
  · rw [if_pos h0, if_pos h0, h0]
    ring
  · rw [if_neg h0, if_neg h0]
    have e : d.n_w - (d.n_w - 1) + (j - 1) = j := by omega
    rw [e]
    ring

/-- The controls of the initial guess are zero. -/
theorem initial_guess_control {α : Type} [Zero α] [One α] [Add α] [Sub α] [Mul α] [Neg α]
    (d : Dims)
    (collocation_points : Nat → α) (initial_state : Nat → α) (waypoints : Nat → Nat → α)
    (mem : Nat → α) (c j k : Nat) (hc : c < d.n_c) (hj : j < d.n_w) (hk : k < d.n_u) :
    (control d c j).read (initial_guess d collocation_points initial_state waypoints mem) k 0
      = 0 := by
  have hlt := @node_lt d c j (d.n_x + k) hc hj (by omega)
  unfold MatView.read initial_guess
  rw [control_idx, initialGuessLoop_frame, MatView.assign_frame]
  · have hv : (d.n_x + d.n_u) * c + (d.n_x + k) + (d.n_x + d.n_u) * d.n_c * j < n_vars d := by
      rw [n_vars_eq]; omega
    have h := stdFill_written mem 0 (0 : α) (n_vars d) _ hv
    rw [Nat.zero_add] at h
    exact h
  · intro r i _ hi heq
    have hr0 : r = 0 := by
      have : r < 1 := by assumption
      omega
    subst hr0
    rw [times_idx] at heq
    omega
  · intro c1 k1 j1 hc1 hk1 hj1 heq
    rw [statesAtCollocationPoint_pos] at heq
    have := (node_inj hc hc1 (show d.n_x + k < d.n_x + d.n_u by omega)
      (show k1 < d.n_x + d.n_u by omega) heq).2.2
    omega

/-- The durations of the initial guess are `time`, that is `1`. -/
theorem initial_guess_times {α : Type} [Zero α] [One α] [Add α] [Sub α] [Mul α] [Neg α]
    (d : Dims)
    (collocation_points : Nat → α) (initial_state : Nat → α) (waypoints : Nat → Nat → α)
    (mem : Nat → α) (i : Nat) (hi : i < d.n_w) :
    (times d).read (initial_guess d collocation_points initial_state waypoints mem) 0 i
      = 1 := by
  unfold MatView.read initial_guess
  rw [initialGuessLoop_frame]
  · exact MatView.assign_idx (times d) _ _ (le_refl _) (show 0 < 1 by decide) hi
  · intro c1 k1 j1 hc1 hk1 hj1 heq
    rw [statesAtCollocationPoint_pos, times_idx] at heq
    have := @node_lt d c1 j1 k1 hc1 hj1 (by omega)
    omega

/-- In exact arithmetic (a field as scalar type), the initial guess built in `main` has
durations `1`, controls `0`, and at node `c` of segment `j` the state
`waypoint_j - (1 - τ_c) * (waypoint_j - waypoint_{j-1})`, with the initial state in place of
`waypoint_{-1}`; when `τ_0 = 0` and `τ_{n_c-1} = 1`, every residual of the Waypoints block,
of the Initial-state block and of the Continuity block on that guess is zero, for any
targets and any initial state. -/
theorem initial_guess_residuals_zero_exact {α : Type} [Field α] (d : Dims)
    (collocation_points : Nat → α) (initial_state : Nat → α) (waypoints : Nat → Nat → α)
    (mem out : Nat → α) (g : Nat) (ld : LagrangeDerivatives α) (hc : 0 < d.n_c)
    (h0 : collocation_points 0 = 0) (h1 : collocation_points (d.n_c - 1) = 1) :
    (∀ i, i < d.n_w →
      (times d).read (initial_guess d collocation_points initial_state waypoints mem) 0 i
        = 1) ∧
    (∀ c j k, c < d.n_c → j < d.n_w → k < d.n_u →
      (control d c j).read (initial_guess d collocation_points initial_state waypoints mem)
        k 0 = 0) ∧
    (∀ c j k, c < d.n_c → j < d.n_w → k < d.n_x →
      (state d c j).read (initial_guess d collocation_points initial_state waypoints mem) k 0
        = waypoints k j - (1 - collocation_points c)
            * (waypoints k j
              - (if j = 0 then initial_state k else waypoints k (j - 1)))) ∧
    (∀ i k, i < d.n_w → k < d.n_x →
      (WaypointConstraints.call d ⟨waypoints⟩ out g
        (initial_guess d collocation_points initial_state waypoints mem) ld).1
          (g + (i * d.n_x + k)) = 0) ∧
    (∀ k, k < d.n_x → 0 < d.n_w →
      (InitialStateConstraints.call d ⟨initial_state⟩ out g
        (initial_guess d collocation_points initial_state waypoints mem) ld).1 (g + k) = 0) ∧
    (∀ j r, j + 1 < d.n_w → r < d.n_x + d.n_u →
      (CollocationConstraints.call d out g
        (initial_guess d collocation_points initial_state waypoints mem) ld).1
          (g + (j * (d.n_x + d.n_u) + r)) = 0) := by
  have hst := initial_guess_state d collocation_points initial_state waypoints mem
  have hct := initial_guess_control d collocation_points initial_state waypoints mem
  refine ⟨fun i hi => initial_guess_times d collocation_points initial_state waypoints mem i hi,
    fun c j k hc1 hj hk => hct c j k hc1 hj hk, fun c j k hc1 hj hk => hst c j k hc1 hj hk,
    ?_, ?_, ?_⟩
  · intro i k hi hk
    rw [WaypointConstraints.waypoints_call_idx d ⟨waypoints⟩ out g _ ld i k hi hk,
      hst (d.n_c - 1) i k (by omega) hi hk, h1]
    ring
  · intro k hk hw
    rw [InitialStateConstraints.initial_call_idx d ⟨initial_state⟩ out g _ ld k hk,
      hst 0 0 k hc hw hk, h0, if_pos rfl]
    ring
  · intro j r hj hr
    have e : g + (j * (d.n_x + d.n_u) + r) = g + r + (d.n_x + d.n_u) * j := by ring
    rw [e, CollocationConstraints.continuity_call_idx d out g _ ld r j hr hj]
    by_cases hrx : r < d.n_x
    · have a := hst 0 (j + 1) r hc hj hrx
      have b := hst (d.n_c - 1) j r (by omega) (by omega) hrx
      unfold MatView.read at a b ⊢
      rw [state_idx_colloc] at a b
      rw [a, b, h0, h1, if_neg (Nat.succ_ne_zero j), Nat.add_sub_cancel]
      ring
    · have a := hct 0 (j + 1) (r - d.n_x) hc hj (by omega)
      have b := hct (d.n_c - 1) j (r - d.n_x) (by omega) (by omega) (by omega)
      unfold MatView.read at a b ⊢
      rw [control_idx_colloc, show d.n_x + (r - d.n_x) = r by omega] at a b
      rw [a, b]
      ring

/-- The same on two segments of two nodes `0, 1` with one state and one control, initial state
`3` and targets `5, 6`, on an array that held `9` everywhere: the Initial-state residual,
the Continuity residual of the state at the interior boundary, and the Waypoints residual
of segment 1 are zero. -/
theorem initial_guess_residuals_zero_exact_small :
    (InitialStateConstraints.call exDims2 ⟨fun _ => 3⟩ (fun _ => 7) 0
      (initial_guess exDims2 (fun i => (i : ℚ)) (fun _ => 3) (fun _ i => 5 + (i : ℚ))
        (fun _ => 9)) ⟨fun _ _ => 0, fun _ _ => 0⟩).1 (0 + 0) = 0 ∧
    (CollocationConstraints.call exDims2 (fun _ => 7) 0
      (initial_guess exDims2 (fun i => (i : ℚ)) (fun _ => 3) (fun _ i => 5 + (i : ℚ))
        (fun _ => 9)) ⟨fun _ _ => 0, fun _ _ => 0⟩).1
        (0 + (0 * (exDims2.n_x + exDims2.n_u) + 0)) = 0 ∧
    (WaypointConstraints.call exDims2 ⟨fun _ i => 5 + (i : ℚ)⟩ (fun _ => 7) 0
      (initial_guess exDims2 (fun i => (i : ℚ)) (fun _ => 3) (fun _ i => 5 + (i : ℚ))
        (fun _ => 9)) ⟨fun _ _ => 0, fun _ _ => 0⟩).1 (0 + (1 * exDims2.n_x + 0)) = 0 :=
  have h := initial_guess_residuals_zero_exact exDims2 (fun i => (i : ℚ)) (fun _ => 3)
    (fun _ i => 5 + (i : ℚ)) (fun _ => 9) (fun _ => 7) 0 ⟨fun _ _ => 0, fun _ _ => 0⟩
    (by decide) Nat.cast_zero (by simp [exDims2])
  ⟨h.2.2.2.2.1 0 (by decide) (by decide), h.2.2.2.2.2 0 0 (by decide) (by decide),
    h.2.2.2.1 1 0 (by decide) (by decide)⟩

end Main


/-! ## Binary64 arithmetic -/

namespace Double

theorem roundHalfEven_of_abs_lt (x : ℚ) (m : ℤ) (h : |x - m| < 1 / 2) :
    roundHalfEven x = m := by
  rw [abs_lt] at h
  obtain ⟨h1, h2⟩ := h
  by_cases hm : (m : ℚ) ≤ x
  · have hf : ⌊x⌋ = m := by
      rw [Int.floor_eq_iff]
      constructor
      · exact hm
      · linarith
    unfold roundHalfEven
    rw [hf, if_pos h2]
  · have hm1 : x < m := lt_of_not_le hm
    have hf : ⌊x⌋ = m - 1 := by
      rw [Int.floor_eq_iff]
      push_cast
      constructor
      · linarith
      · linarith
    unfold roundHalfEven
    rw [hf]
    push_cast
    rw [if_neg (by linarith), if_pos (by linarith)]
    ring

theorem roundHalfEven_intCast (m : ℤ) : roundHalfEven (m : ℚ) = m :=
  roundHalfEven_of_abs_lt _ m (by simp)

theorem log_eq_of (q : ℚ) (e : ℤ) (h1 : (2 : ℚ) ^ e ≤ q) (h2 : q < (2 : ℚ) ^ (e + 1)) :
    Int.log 2 q = e := by
  have hq : 0 < q := lt_of_lt_of_le (by positivity) h1
  apply le_antisymm
  · have := (Int.lt_zpow_iff_log_lt (b := 2) (by norm_num) hq).1 (by exact_mod_cast h2)
    omega
  · exact (Int.zpow_le_iff_le_log (b := 2) (by norm_num) hq).1 (by exact_mod_cast h1)

/-- Rounding `q`, from the binade `2^(e+52) ≤ |q| < 2^(e+53)` of `q` and the multiple
`m * 2^e` of its unit in the last place that is nearest to it. -/
theorem round_eq_of (q : ℚ) (e m : ℤ) (he : -1074 ≤ e)
    (h1 : (2 : ℚ) ^ (e + 52) ≤ |q|) (h2 : |q| < (2 : ℚ) ^ (e + 52 + 1))
    (hm : |q / 2 ^ e - m| < 1 / 2) (hfin : |(m : ℚ) * 2 ^ e| < 2 ^ (1024 : ℤ)) :
    round q = ⟨some ((m : ℚ) * 2 ^ e)⟩ := by
  have hu : ulpExponent q = e := by
    unfold ulpExponent
    rw [log_eq_of |q| (e + 52) h1 h2]
    have : e + 52 - 52 = e := by ring
    rw [this]
    exact max_eq_left he
  unfold round
  rw [hu, roundHalfEven_of_abs_lt _ m hm, if_pos hfin]

/-- The same for a positive `q`. -/
theorem round_eq_of_pos (q : ℚ) (e m : ℤ) (he : -1074 ≤ e)
    (h1 : (2 : ℚ) ^ (e + 52) ≤ q) (h2 : q < (2 : ℚ) ^ (e + 52 + 1))
    (hm1 : (m : ℚ) - 1 / 2 < q / 2 ^ e) (hm2 : q / 2 ^ e < (m : ℚ) + 1 / 2)
    (hfin : (m : ℚ) * 2 ^ e < 2 ^ (1024 : ℤ)) :
    round q = ⟨some ((m : ℚ) * 2 ^ e)⟩ := by
  have hq : 0 < q := lt_of_lt_of_le (by positivity) h1
  have he0 : (0 : ℚ) < 2 ^ e := by positivity
  have hm0 : (0 : ℚ) ≤ (m : ℚ) * 2 ^ e := by
    have hq2 : 0 < q / 2 ^ e := div_pos hq he0
    have hmpos : (-1 : ℚ) < (m : ℚ) := by linarith
    have hm' : (0 : ℤ) ≤ m := by
      have : (-1 : ℤ) < m := by exact_mod_cast hmpos
      omega
    have : (0 : ℚ) ≤ (m : ℚ) := by exact_mod_cast hm'
    positivity
  apply round_eq_of q e m he
  · rw [abs_of_pos hq]; exact h1
  · rw [abs_of_pos hq]; exact h2
  · rw [abs_lt]; constructor <;> linarith
  · rw [abs_of_nonneg hm0]; exact hfin

theorem round_zero : round 0 = 0 := by
  have hu : ulpExponent 0 = -52 := by
    unfold ulpExponent
    simp
  have h0 : roundHalfEven ((0 : ℚ) / 2 ^ (-52 : ℤ)) = 0 := by
    rw [zero_div]
    exact_mod_cast roundHalfEven_intCast 0
  unfold round
  rw [hu, h0]
  rw [if_pos (by norm_num)]
  simp only [Int.cast_zero, zero_mul]
  rfl

/-- An integer below `2^53` in absolute value is a binary64 value. -/
theorem round_intCast (n : ℤ) (hn : |n| < 2 ^ 53) : round (n : ℚ) = ⟨some (n : ℚ)⟩ := by
  by_cases h0 : n = 0
  · subst h0
    simpa using round_zero
  have ha1 : (1 : ℚ) ≤ |(n : ℚ)| := by
    have : (1 : ℤ) ≤ |n| := Int.one_le_abs h0
    exact_mod_cast this
  have hapos : (0 : ℚ) < |(n : ℚ)| := lt_of_lt_of_le one_pos ha1
  have ha2 : |(n : ℚ)| < 2 ^ (53 : ℤ) := by
    have : ((|n| : ℤ) : ℚ) < ((2 ^ 53 : ℤ) : ℚ) := Int.cast_lt.mpr hn
    rw [Int.cast_abs] at this
    refine lt_of_lt_of_le this (le_of_eq ?_)
    norm_num
  have hL0 : 0 ≤ Int.log 2 |(n : ℚ)| :=
    (Int.zpow_le_iff_le_log (b := 2) (by norm_num) hapos).1 (by simpa using ha1)
  have hL1 : Int.log 2 |(n : ℚ)| < 53 :=
    (Int.lt_zpow_iff_log_lt (b := 2) (by norm_num) hapos).1 (by exact_mod_cast ha2)
  obtain ⟨k, hk⟩ : ∃ k : ℕ, 52 - Int.log 2 |(n : ℚ)| = (k : ℤ) :=
    Int.eq_ofNat_of_zero_le (by omega)
  have he : Int.log 2 |(n : ℚ)| - 52 = -(k : ℤ) := by omega
  have hu : ulpExponent (n : ℚ) = -(k : ℤ) := by
    unfold ulpExponent
    rw [he]
    exact max_eq_left (by omega)
  have hpow : (2 : ℚ) ^ (-(k : ℤ)) = ((2 : ℚ) ^ k)⁻¹ := by
    rw [zpow_neg, zpow_natCast]
  have hk0 : ((2 : ℚ) ^ k) ≠ 0 := by positivity
  have hq : (n : ℚ) / 2 ^ (-(k : ℤ)) = ((n * 2 ^ k : ℤ) : ℚ) := by
    rw [hpow, div_inv_eq_mul]
    push_cast
    ring
  have hback : ((n * 2 ^ k : ℤ) : ℚ) * 2 ^ (-(k : ℤ)) = (n : ℚ) := by
    rw [hpow]
    push_cast
    rw [mul_assoc, mul_inv_cancel₀ hk0, mul_one]
  unfold round
  rw [hu, hq, roundHalfEven_intCast, hback]
  rw [if_pos (lt_trans ha2 (by norm_num))]

theorem round_one : round 1 = 1 := by
  have h := round_intCast 1 (by norm_num)
  simp only [Int.cast_one] at h
  rw [h]
  rfl

theorem round_neg_one : round (-1) = ⟨some (-1)⟩ := by
  have h := round_intCast (-1) (by norm_num)
  simpa using h

theorem zero_def : (0 : Double) = ⟨some 0⟩ := rfl

theorem one_def : (1 : Double) = ⟨some 1⟩ := rfl

theorem add_def (x y : ℚ) : (⟨some x⟩ : Double) + ⟨some y⟩ = round (x + y) := rfl

theorem sub_def (x y : ℚ) : (⟨some x⟩ : Double) - ⟨some y⟩ = round (x - y) := rfl

theorem mul_def (x y : ℚ) : (⟨some x⟩ : Double) * ⟨some y⟩ = round (x * y) := rfl

theorem neg_def (x : ℚ) : -(⟨some x⟩ : Double) = round (-x) := rfl

theorem sub_self_eq (x : ℚ) : (⟨some x⟩ : Double) - ⟨some x⟩ = 0 := by
  rw [sub_def, sub_self, round_zero]

theorem exists_of_ne_none (a : Double) (h : a ≠ ⟨none⟩) : ∃ r, a = ⟨some r⟩ := by
  cases a with
  | mk v =>
    cases v with
    | none => exact absurd rfl h
    | some r => exact ⟨r, rfl⟩

/-- The literal `1.3`. -/
theorem round_lit_13 : round (13 / 10) = ⟨some (5854679515581645 / 4503599627370496)⟩ := by
  rw [round_eq_of_pos (13 / 10) (-52) 5854679515581645 (by norm_num) (by norm_num)
    (by norm_num) (by norm_num) (by norm_num) (by norm_num)]
  norm_num

/-- The literal `0.1`. -/
theorem round_lit_01 : round (1 / 10) = ⟨some (3602879701896397 / 36028797018963968)⟩ := by
  rw [round_eq_of_pos (1 / 10) (-56) 7205759403792794 (by norm_num) (by norm_num)
    (by norm_num) (by norm_num) (by norm_num) (by norm_num)]
  norm_num

/-- The difference `1.3 - 0.1` is rounded: it lies three eighths of a unit above a
binary64 value. -/
theorem round_13_sub_01 : round (5854679515581645 / 4503599627370496
      - 3602879701896397 / 36028797018963968)
    = ⟨some (5404319552844595 / 4503599627370496)⟩ := by
  rw [round_eq_of_pos _ (-52) 5404319552844595 (by norm_num) (by norm_num)
    (by norm_num) (by norm_num) (by norm_num) (by norm_num)]
  norm_num

theorem round_12 : round (5404319552844595 / 4503599627370496)
    = ⟨some (5404319552844595 / 4503599627370496)⟩ := by
  rw [round_eq_of_pos _ (-52) 5404319552844595 (by norm_num) (by norm_num)
    (by norm_num) (by norm_num) (by norm_num) (by norm_num)]
  norm_num

theorem round_13_sub_12 : round (5854679515581645 / 4503599627370496
      - 5404319552844595 / 4503599627370496)
    = ⟨some (225179981368525 / 2251799813685248)⟩ := by
  rw [round_eq_of_pos _ (-56) 7205759403792800 (by norm_num) (by norm_num)
    (by norm_num) (by norm_num) (by norm_num) (by norm_num)]
  norm_num

theorem round_residue : round (225179981368525 / 2251799813685248
      - 3602879701896397 / 36028797018963968)
    = ⟨some (3 / 36028797018963968)⟩ := by
  rw [round_eq_of_pos _ (-106) 6755399441055744 (by norm_num) (by norm_num)
    (by norm_num) (by norm_num) (by norm_num) (by norm_num)]
  norm_num

end Double

/-! ## The initial guess of `main.cpp` in binary64 -/

namespace Main
open VariableGetter

/-- The states of the initial guess as the loop stores them, for any scalar arithmetic. -/
theorem initial_guess_state_loop {α : Type} [Zero α] [One α] [Add α] [Sub α] [Mul α] [Neg α]
    (d : Dims) (collocation_points : Nat → α) (initial_state : Nat → α)
    (waypoints : Nat → Nat → α) (mem : Nat → α) (c j k : Nat)
    (hc : c < d.n_c) (hj : j < d.n_w) (hk : k < d.n_x) :
    (state d c j).read (initial_guess d collocation_points initial_state waypoints mem) k 0
      = waypoints k j
        - dc collocation_points c * differences d initial_state waypoints k j := by
  unfold MatView.read initial_guess
  rw [state_idx_colloc, ← statesAtCollocationPoint_idx,
    initialGuessLoop_idx d collocation_points initial_state waypoints _ d.n_c c k j
      (le_refl _) hc hk hj]

theorem dc_of_zero (collocation_points : Nat → Double) (c : Nat)
    (h : collocation_points c = 0) : dc collocation_points c = 1 := by
  unfold dc
  rw [h, Double.zero_def, Double.neg_def, neg_zero, Double.round_zero, Double.zero_def,
    Double.one_def, Double.add_def, zero_add, Double.round_one]
  rfl

theorem dc_of_one (collocation_points : Nat → Double) (c : Nat)
    (h : collocation_points c = 1) : dc collocation_points c = 0 := by
  unfold dc
  rw [h, Double.one_def, Double.neg_def, Double.round_neg_one, Double.add_def]
  norm_num
  exact Double.round_zero

/-- Column `j` of `differences` in binary64: the rounded difference of the target and the
target before it. -/
theorem differences_double (d : Dims) (I : Nat → ℚ) (W : Nat → Nat → ℚ) (k j : Nat)
    (hj : j < d.n_w) :
    differences d (fun k => (⟨some (I k)⟩ : Double)) (fun k j => ⟨some (W k j)⟩) k j
      = Double.round (W k j - (if j = 0 then I k else W k (j - 1))) := by
  unfold differences
  by_cases h0 : j = 0
  · rw [if_pos h0, if_pos h0, h0]
    rfl
  · rw [if_neg h0, if_neg h0]
    have e : d.n_w - (d.n_w - 1) + (j - 1) = j := by omega
    rw [e]
    rfl

/-- The state the guess holds at a node with `τ = 1`, when the difference is finite. -/
theorem guess_state_of_one (d : Dims) (collocation_points : Nat → Double) (I : Nat → ℚ)
    (W : Nat → Nat → ℚ) (mem : Nat → Double) (c j k : Nat) (hc : c < d.n_c) (hj : j < d.n_w)
    (hk : k < d.n_x) (h1 : collocation_points c = 1)
    (hW : Double.round (W k j) = ⟨some (W k j)⟩)
    (hfin : Double.round (W k j - (if j = 0 then I k else W k (j - 1))) ≠ ⟨none⟩) :
    (state d c j).read
        (initial_guess d collocation_points (fun k => ⟨some (I k)⟩)
          (fun k j => ⟨some (W k j)⟩) mem) k 0
      = ⟨some (W k j)⟩ := by
  obtain ⟨r, hr⟩ := Double.exists_of_ne_none _ hfin
  rw [initial_guess_state_loop d _ _ _ mem c j k hc hj hk, dc_of_one _ c h1,
    differences_double d I W k j hj, hr, Double.zero_def, Double.mul_def, zero_mul,
    Double.round_zero, Double.zero_def, Double.sub_def, sub_zero, hW]

/-- The state the guess holds at a node with `τ = 0`, when the difference is exact. -/
theorem guess_state_of_zero (d : Dims) (collocation_points : Nat → Double) (I : Nat → ℚ)
    (W : Nat → Nat → ℚ) (mem : Nat → Double) (c j k : Nat) (hc : c < d.n_c) (hj : j < d.n_w)
    (hk : k < d.n_x) (h0 : collocation_points c = 0)
    (hprev : Double.round (if j = 0 then I k else W k (j - 1))
      = ⟨some (if j = 0 then I k else W k (j - 1))⟩)
    (hexact : Double.round (W k j - (if j = 0 then I k else W k (j - 1)))
      = ⟨some (W k j - (if j = 0 then I k else W k (j - 1)))⟩) :
    (state d c j).read
        (initial_guess d collocation_points (fun k => ⟨some (I k)⟩)
          (fun k j => ⟨some (W k j)⟩) mem) k 0
      = ⟨some (if j = 0 then I k else W k (j - 1))⟩ := by
  rw [initial_guess_state_loop d _ _ _ mem c j k hc hj hk, dc_of_zero _ c h0,
    differences_double d I W k j hj, hexact, Double.one_def, Double.mul_def, one_mul, hexact,
    Double.sub_def, sub_sub_cancel, hprev]

end Main

namespace Main
open VariableGetter

/-- C34, as stated, fails in the arithmetic of `main.cpp`. With the nodes `0, 1`, the
target `1.3` and the initial state `0.1`, the difference `1.3 - 0.1` is rounded, the state
stored at node 0 is `1.3 - 1 * (1.3 - 0.1)`, and the Initial-state residual on the guess is
`3 * 2^-55`, not zero. -/
theorem initial_guess_residual_rounding :
    exUnitNodes 0 = 0 ∧ exUnitNodes (exDims1.n_c - 1) = 1 ∧
    (InitialStateConstraints.call exDims1 ⟨fun _ => Double.round (1 / 10)⟩ (fun _ => 0) 0
      (initial_guess exDims1 exUnitNodes (fun _ => Double.round (1 / 10))
        (fun _ _ => Double.round (13 / 10)) (fun _ => 0))
      ⟨fun _ _ => 0, fun _ _ => 0⟩).1 (0 + 0) = ⟨some (3 / 36028797018963968)⟩ ∧
    (InitialStateConstraints.call exDims1 ⟨fun _ => Double.round (1 / 10)⟩ (fun _ => 0) 0
      (initial_guess exDims1 exUnitNodes (fun _ => Double.round (1 / 10))
        (fun _ _ => Double.round (13 / 10)) (fun _ => 0))
      ⟨fun _ _ => 0, fun _ _ => 0⟩).1 (0 + 0) ≠ 0 := by
  have hval : (InitialStateConstraints.call exDims1 ⟨fun _ => Double.round (1 / 10)⟩
      (fun _ => 0) 0
      (initial_guess exDims1 exUnitNodes (fun _ => Double.round (1 / 10))
        (fun _ _ => Double.round (13 / 10)) (fun _ => 0))
      ⟨fun _ _ => 0, fun _ _ => 0⟩).1 (0 + 0) = ⟨some (3 / 36028797018963968)⟩ := by
    rw [InitialStateConstraints.initial_call_idx exDims1 _ _ 0 _ _ 0 (by decide),
      initial_guess_state_loop exDims1 _ _ _ _ 0 0 0 (by decide) (by decide) (by decide),
      dc_of_zero exUnitNodes 0 rfl]
    unfold differences
    rw [if_pos rfl]
    simp only []
    rw [Double.round_lit_13, Double.round_lit_01, Double.sub_def, Double.round_13_sub_01,
      Double.one_def, Double.mul_def, one_mul, Double.round_12, Double.sub_def,
      Double.round_13_sub_12, Double.sub_def, Double.round_residue]
  refine ⟨rfl, rfl, hval, ?_⟩
  rw [hval, Double.zero_def]
  intro h
  injection h with h
  injection h with h
  norm_num at h

/-- C34, amended. In the binary64 arithmetic of `main.cpp`, with `τ_0 = 0`,
`τ_{n_c-1} = 1` and binary64 targets and initial state, the initial guess has durations `1`
and controls `0`; its Waypoints residual is zero wherever the difference of the target and
the target before it (the initial state for segment 0) is finite; its Initial-state residual
is zero when the difference of the first target and the initial state is computed without
rounding; and its Continuity residual is zero at an interior boundary when the difference
of the two targets around it is computed without rounding and the difference before it is
finite. -/
theorem initial_guess_residuals_double (d : Dims) (collocation_points : Nat → Double)
    (I : Nat → ℚ) (W : Nat → Nat → ℚ) (mem out : Nat → Double) (g : Nat)
    (ld : LagrangeDerivatives Double) (hc : 0 < d.n_c)
    (h0 : collocation_points 0 = 0) (h1 : collocation_points (d.n_c - 1) = 1)
    (hI : ∀ k, k < d.n_x → Double.round (I k) = ⟨some (I k)⟩)
    (hW : ∀ k j, k < d.n_x → j < d.n_w → Double.round (W k j) = ⟨some (W k j)⟩) :
    (∀ i, i < d.n_w →
      (times d).read
        (initial_guess d collocation_points (fun k => ⟨some (I k)⟩)
          (fun k j => ⟨some (W k j)⟩) mem) 0 i = 1) ∧
    (∀ c j k, c < d.n_c → j < d.n_w → k < d.n_u →
      (control d c j).read
        (initial_guess d collocation_points (fun k => ⟨some (I k)⟩)
          (fun k j => ⟨some (W k j)⟩) mem) k 0 = 0) ∧
    (∀ i k, i < d.n_w → k < d.n_x →
      Double.round (W k i - (if i = 0 then I k else W k (i - 1))) ≠ ⟨none⟩ →
      (WaypointConstraints.call d ⟨fun k j => ⟨some (W k j)⟩⟩ out g
        (initial_guess d collocation_points (fun k => ⟨some (I k)⟩)
          (fun k j => ⟨some (W k j)⟩) mem) ld).1 (g + (i * d.n_x + k)) = 0) ∧
    (∀ k, k < d.n_x → 0 < d.n_w →
      Double.round (W k 0 - I k) = ⟨some (W k 0 - I k)⟩ →
      (InitialStateConstraints.call d ⟨fun k => ⟨some (I k)⟩⟩ out g
        (initial_guess d collocation_points (fun k => ⟨some (I k)⟩)
          (fun k j => ⟨some (W k j)⟩) mem) ld).1 (g + k) = 0) ∧
    (∀ j r, j + 1 < d.n_w → r < d.n_x + d.n_u →
      (r < d.n_x →
        Double.round (W r (j + 1) - W r j) = ⟨some (W r (j + 1) - W r j)⟩ ∧
        Double.round (W r j - (if j = 0 then I r else W r (j - 1))) ≠ ⟨none⟩) →
      (CollocationConstraints.call d out g
        (initial_guess d collocation_points (fun k => ⟨some (I k)⟩)
          (fun k j => ⟨some (W k j)⟩) mem) ld).1 (g + (j * (d.n_x + d.n_u) + r)) = 0) := by
  refine ⟨fun i hi => initial_guess_times d _ _ _ mem i hi,
    fun c j k hc1 hj hk => initial_guess_control d _ _ _ mem c j k hc1 hj hk, ?_, ?_, ?_⟩
  · intro i k hi hk hfin
    rw [WaypointConstraints.waypoints_call_idx d _ out g _ ld i k hi hk,
      guess_state_of_one d collocation_points I W mem (d.n_c - 1) i k (by omega) hi hk h1
        (hW k i hk hi) hfin]
    exact Double.sub_self_eq _
  · intro k hk hw hexact
    have h := guess_state_of_zero d collocation_points I W mem 0 0 k hc hw hk h0
      (by rw [if_pos rfl]; exact hI k hk) (by rw [if_pos rfl]; exact hexact)
    rw [if_pos rfl] at h
    rw [InitialStateConstraints.initial_call_idx d _ out g _ ld k hk, h]
    exact Double.sub_self_eq _
  · intro j r hj hr hrow
    have e : g + (j * (d.n_x + d.n_u) + r) = g + r + (d.n_x + d.n_u) * j := by ring
    rw [e, CollocationConstraints.continuity_call_idx d out g _ ld r j hr hj]
    by_cases hrx : r < d.n_x
    · obtain ⟨hexact, hfin⟩ := hrow hrx
      have a := guess_state_of_zero d collocation_points I W mem 0 (j + 1) r hc hj hrx h0
        (by rw [if_neg (Nat.succ_ne_zero j), Nat.add_sub_cancel]
            exact hW r j hrx (by omega))
        (by rw [if_neg (Nat.succ_ne_zero j), Nat.add_sub_cancel]; exact hexact)
      rw [if_neg (Nat.succ_ne_zero j), Nat.add_sub_cancel] at a
      have b := guess_state_of_one d collocation_points I W mem (d.n_c - 1) j r (by omega)
        (by omega) hrx h1 (hW r j hrx (by omega)) hfin
      unfold MatView.read at a b ⊢
      rw [state_idx_colloc] at a b
      rw [a, b]
      exact Double.sub_self_eq _
    · have a := initial_guess_control d collocation_points (fun k => ⟨some (I k)⟩)
        (fun k j => ⟨some (W k j)⟩) mem 0 (j + 1) (r - d.n_x) hc hj (by omega)
      have b := initial_guess_control d collocation_points (fun k => ⟨some (I k)⟩)
        (fun k j => ⟨some (W k j)⟩) mem (d.n_c - 1) j (r - d.n_x) (by omega) (by omega)
        (by omega)
      unfold MatView.read at a b ⊢
      rw [control_idx_colloc, show d.n_x + (r - d.n_x) = r by omega] at a b
      rw [a, b]
      exact Double.sub_self_eq 0

theorem exMainWaypoints_abs (k j : Nat) : |exMainWaypoints k j| ≤ 8 := by
  unfold exMainWaypoints
  split_ifs <;> decide

/-- C34, amended, on the sizes, the targets and the zero initial state of `main.cpp`, with
eleven nodes from `0` to `1`: the targets are small integers, so every difference is
computed without rounding, and the Initial-state residual, the Continuity residual of
state 0 at the boundary of segments 2 and 3 (targets `8` and `4`) and the Waypoints
residual of state 1 of the last segment are zero. -/
theorem initial_guess_residuals_double_witness :
    (InitialStateConstraints.call exMainDims ⟨fun _ => ⟨some ((0 : ℤ) : ℚ)⟩⟩ (fun _ => 0) 0
      (initial_guess exMainDims exMainNodes (fun _ => ⟨some ((0 : ℤ) : ℚ)⟩)
        (fun k j => ⟨some (exMainWaypoints k j : ℚ)⟩) (fun _ => 0))
      ⟨fun _ _ => 0, fun _ _ => 0⟩).1 (0 + 0) = 0 ∧
    (CollocationConstraints.call exMainDims (fun _ => 0) 0
      (initial_guess exMainDims exMainNodes (fun _ => ⟨some ((0 : ℤ) : ℚ)⟩)
        (fun k j => ⟨some (exMainWaypoints k j : ℚ)⟩) (fun _ => 0))
      ⟨fun _ _ => 0, fun _ _ => 0⟩).1 (0 + (2 * (exMainDims.n_x + exMainDims.n_u) + 0)) = 0 ∧
    (WaypointConstraints.call exMainDims ⟨fun k j => ⟨some (exMainWaypoints k j : ℚ)⟩⟩
      (fun _ => 0) 0
      (initial_guess exMainDims exMainNodes (fun _ => ⟨some ((0 : ℤ) : ℚ)⟩)
        (fun k j => ⟨some (exMainWaypoints k j : ℚ)⟩) (fun _ => 0))
      ⟨fun _ _ => 0, fun _ _ => 0⟩).1 (0 + (5 * exMainDims.n_x + 1)) = 0 :=
  have hint : ∀ a b : ℤ, |a| ≤ 8 → |b| ≤ 8 →
      Double.round ((a : ℚ) - (b : ℚ)) = ⟨some ((a : ℚ) - (b : ℚ))⟩ := by
    intro a b ha hb
    have h := Double.round_intCast (a - b) (by
      have := abs_sub a b
      have h2 : |a - b| ≤ |a| + |b| := abs_sub a b
      omega)
    rw [Int.cast_sub] at h
    exact h
  have habs0 : |(0 : ℤ)| ≤ 8 := by decide
  have h := initial_guess_residuals_double exMainDims exMainNodes (fun _ => ((0 : ℤ) : ℚ))
    (fun k j => (exMainWaypoints k j : ℚ)) (fun _ => 0) (fun _ => 0) 0
    ⟨fun _ _ => 0, fun _ _ => 0⟩ (by decide) rfl rfl
    (fun _ _ => Double.round_intCast 0 (by decide))
    (fun k j _ _ => Double.round_intCast _
      (lt_of_le_of_lt (exMainWaypoints_abs k j) (by decide)))
  ⟨h.2.2.2.1 0 (by decide) (by decide) (hint _ _ (exMainWaypoints_abs 0 0) habs0),
    h.2.2.2.2 2 0 (by decide) (by decide)
      (fun _ => ⟨hint _ _ (exMainWaypoints_abs 0 3) (exMainWaypoints_abs 0 2), by
        rw [if_neg (by decide), hint _ _ (exMainWaypoints_abs 0 2) (exMainWaypoints_abs 0 1)]
        exact fun h => by injection h with h; exact Option.noConfusion h⟩),
    h.2.2.1 5 1 (by decide) (by decide) (by
      rw [if_neg (by decide), hint _ _ (exMainWaypoints_abs 1 5) (exMainWaypoints_abs 1 4)]
      exact fun h => by injection h with h; exact Option.noConfusion h)⟩

end Main


/-! ## `generate` in binary64 -/

namespace Double

/-- A tie goes to the even neighbour. -/
theorem roundHalfEven_of_tie (x : ℚ) (f : ℤ) (hx : x = f + 1 / 2) (hf : f % 2 = 0) :
    roundHalfEven x = f := by
  have hfl : ⌊x⌋ = f := by
    rw [Int.floor_eq_iff]
    constructor <;> linarith
  unfold roundHalfEven
  rw [hfl, if_neg (by linarith), if_neg (by linarith), if_pos hf]

/-- Rounding a negative `q`, from its binade and the nearest multiple of its unit. -/
theorem round_eq_of_neg (q : ℚ) (e m : ℤ) (he : -1074 ≤ e)
    (h1 : (2 : ℚ) ^ (e + 52) ≤ -q) (h2 : -q < (2 : ℚ) ^ (e + 52 + 1))
    (hm1 : (m : ℚ) - 1 / 2 < q / 2 ^ e) (hm2 : q / 2 ^ e < (m : ℚ) + 1 / 2)
    (hfin : -((m : ℚ) * 2 ^ e) < 2 ^ (1024 : ℤ)) :
    round q = ⟨some ((m : ℚ) * 2 ^ e)⟩ := by
  have hq : q < 0 := by
    have : (0 : ℚ) < 2 ^ (e + 52) := by positivity
    linarith
  have he0 : (0 : ℚ) < 2 ^ e := by positivity
  have hm0 : (m : ℚ) * 2 ^ e ≤ 0 := by
    have hq2 : q / 2 ^ e < 0 := div_neg_of_neg_of_pos hq he0
    have hmneg : (m : ℚ) < 1 := by linarith
    have hm' : m ≤ 0 := by
      have : m < 1 := by exact_mod_cast hmneg
      omega
    have : (m : ℚ) ≤ 0 := by exact_mod_cast hm'
    exact mul_nonpos_of_nonpos_of_nonneg this (le_of_lt he0)
  apply round_eq_of q e m he
  · rw [abs_of_neg hq]; exact h1
  · rw [abs_of_neg hq]; exact h2
  · rw [abs_lt]; constructor <;> linarith
  · rw [abs_of_nonpos hm0]; exact hfin

/-- Rounding a negative `q` that lies half-way between two multiples of its unit, the
lower one being even. -/
theorem round_eq_of_neg_tie (q : ℚ) (e f : ℤ) (he : -1074 ≤ e)
    (h1 : (2 : ℚ) ^ (e + 52) ≤ -q) (h2 : -q < (2 : ℚ) ^ (e + 52 + 1))
    (hx : q / 2 ^ e = f + 1 / 2) (hf : f % 2 = 0)
    (hfin : -((f : ℚ) * 2 ^ e) < 2 ^ (1024 : ℤ)) (hneg : (f : ℚ) ≤ 0) :
    round q = ⟨some ((f : ℚ) * 2 ^ e)⟩ := by
  have hq : q < 0 := by
    have : (0 : ℚ) < 2 ^ (e + 52) := by positivity
    linarith
  have he0 : (0 : ℚ) < 2 ^ e := by positivity
  have hu : ulpExponent q = e := by
    unfold ulpExponent
    rw [log_eq_of |q| (e + 52) (by rw [abs_of_neg hq]; exact h1)
      (by rw [abs_of_neg hq]; exact h2)]
    have : e + 52 - 52 = e := by ring
    rw [this]
    exact max_eq_left he
  have hm0 : (f : ℚ) * 2 ^ e ≤ 0 := mul_nonpos_of_nonpos_of_nonneg hneg (le_of_lt he0)
  unfold round
  rw [hu, roundHalfEven_of_tie _ f hx hf, if_pos (by rw [abs_of_nonpos hm0]; exact hfin)]

theorem div_def (x y : ℚ) (hy : y ≠ 0) : (⟨some x⟩ : Double) / ⟨some y⟩ = round (x / y) := by
  show div ⟨some x⟩ ⟨some y⟩ = round (x / y)
  unfold div
  simp only []
  rw [if_neg hy]

/-- `0.1 * -3`: the exact product lies half-way between two binary64 values. -/
theorem round_tenth_mul_neg_three : round (3602879701896397 / 36028797018963968 * -3)
    = ⟨some (-1351079888211149 / 4503599627370496)⟩ := by
  rw [round_eq_of_neg_tie _ (-54) (-5404319552844596) (by norm_num) (by norm_num)
    (by norm_num) (by norm_num) (by norm_num) (by norm_num) (by norm_num)]
  norm_num

theorem round_tenth_mul_four : round (3602879701896397 / 36028797018963968 * 4)
    = ⟨some (3602879701896397 / 9007199254740992)⟩ := by
  rw [round_eq_of_pos _ (-54) 7205759403792794 (by norm_num) (by norm_num)
    (by norm_num) (by norm_num) (by norm_num) (by norm_num)]
  norm_num

theorem round_tenth_mul_neg_one : round (3602879701896397 / 36028797018963968 * -1)
    = ⟨some (-3602879701896397 / 36028797018963968)⟩ := by
  rw [round_eq_of_neg _ (-56) (-7205759403792794) (by norm_num) (by norm_num)
    (by norm_num) (by norm_num) (by norm_num) (by norm_num)]
  norm_num

theorem round_first_sum : round (-1351079888211149 / 4503599627370496
      + 3602879701896397 / 9007199254740992)
    = ⟨some (900719925474099 / 9007199254740992)⟩ := by
  rw [round_eq_of_pos _ (-56) 7205759403792792 (by norm_num) (by norm_num)
    (by norm_num) (by norm_num) (by norm_num) (by norm_num)]
  norm_num

theorem round_second_sum : round (900719925474099 / 9007199254740992
      + -3602879701896397 / 36028797018963968)
    = ⟨some (-1 / 36028797018963968)⟩ := by
  rw [round_eq_of_neg _ (-107) (-4503599627370496) (by norm_num) (by norm_num)
    (by norm_num) (by norm_num) (by norm_num) (by norm_num)]
  norm_num

theorem round_quotient : round (-1 / 36028797018963968 / 2)
    = ⟨some (-1 / 72057594037927936)⟩ := by
  rw [round_eq_of_neg _ (-108) (-4503599627370496) (by norm_num) (by norm_num)
    (by norm_num) (by norm_num) (by norm_num) (by norm_num)]
  norm_num

end Double

namespace MatView

theorem sumLoop_three {α : Type} [Zero α] [Add α] (f : Nat → α) :
    sumLoop f 3 = f 0 + f 1 + f 2 := rfl

end MatView

namespace LagrangeDerivatives
open VariableGetter

/-- The entries of `exHalfMatrix`. -/
theorem exHalfMatrix_entries :
    (exHalfMatrix 0 0 = ⟨some (-3)⟩ ∧ exHalfMatrix 1 0 = ⟨some 4⟩ ∧
      exHalfMatrix 2 0 = ⟨some (-1)⟩) ∧
    (exHalfMatrix 0 1 = ⟨some (-1)⟩ ∧ exHalfMatrix 1 1 = ⟨some 0⟩ ∧
      exHalfMatrix 2 1 = ⟨some 1⟩) := by
  have b0 : ∀ t, lagrangeBasisDerivative 3 exNodes 0 t = 4 * t - 3 :=
    fun t => (exNodes_basis_derivative t).1
  have b1 : ∀ t, lagrangeBasisDerivative 3 exNodes 1 t = 4 - 8 * t :=
    fun t => (exNodes_basis_derivative t).2.1
  have b2 : ∀ t, lagrangeBasisDerivative 3 exNodes 2 t = 4 * t - 1 :=
    fun t => (exNodes_basis_derivative t).2.2
  simp only [exHalfMatrix, lagrangeDerivativeCoefficients, b0, b1, b2]
  simp only [exNodes]
  norm_num

/-- C4, as stated, fails in binary64. On one segment of three nodes `0, 1/2, 1` that all
hold the state `0.1` and the control `0.1`, with duration `2` and the differentiation matrix
of these nodes, the products `0.1 * -3`, `0.1 * 4`, `0.1 * -1` accumulated in index order
leave `-2^-55`, and the first-derivative estimate of the state at node 0 is `-2^-56`, not
zero. -/
theorem constant_segment_rounding :
    (∀ r c, r < exDims.n_x + exDims.n_u → c < exDims.n_c →
      (varsAtWaypoint exDims 0).read exTenthBuffer r c = Double.round (1 / 10)) ∧
    (times exDims).read exTenthBuffer 0 0 = ⟨some 2⟩ ∧
    (varsAtWaypoint exDims 0).read
        ((generate exDims 1 ⟨exHalfMatrix, fun _ _ => 0⟩ exTenthBuffer).get 1) 0 0
      = ⟨some (-1 / 72057594037927936)⟩ ∧
    (varsAtWaypoint exDims 0).read
        ((generate exDims 1 ⟨exHalfMatrix, fun _ _ => 0⟩ exTenthBuffer).get 1) 0 0 ≠ 0 := by
  have hread : ∀ r c, r < exDims.n_x + exDims.n_u → c < exDims.n_c →
      (varsAtWaypoint exDims 0).read exTenthBuffer r c = Double.round (1 / 10) := by
    intro r c hr hc
    have hr2 : r < 2 := hr
    have hc3 : c < 3 := hc
    have hne : (1 + 1) * 3 * 0 + (1 + 1) * c + r ≠ 6 := by omega
    simp only [MatView.read, varsAtWaypoint_idx, exDims, exTenthBuffer, if_neg hne]
  have htime : (times exDims).read exTenthBuffer 0 0 = ⟨some 2⟩ := by
    simp [MatView.read, times_idx, exDims, exTenthBuffer]
  have hval : (varsAtWaypoint exDims 0).read
        ((generate exDims 1 ⟨exHalfMatrix, fun _ _ => 0⟩ exTenthBuffer).get 1) 0 0
      = ⟨some (-1 / 72057594037927936)⟩ := by
    rw [generate_get_one_loop exDims _ exTenthBuffer 1 0 0 0 (by decide) (by decide)
      (by decide) (by decide), htime]
    show MatView.sumLoop _ 3 / _ = _
    rw [MatView.sumLoop_three]
    simp only []
    rw [hread 0 0 (by decide) (by decide), hread 0 1 (by decide) (by decide),
      hread 0 2 (by decide) (by decide), exHalfMatrix_entries.1.1,
      exHalfMatrix_entries.1.2.1, exHalfMatrix_entries.1.2.2, Double.round_lit_01,
      Double.mul_def, Double.mul_def, Double.mul_def, Double.round_tenth_mul_neg_three,
      Double.round_tenth_mul_four, Double.round_tenth_mul_neg_one, Double.add_def,
      Double.round_first_sum, Double.add_def, Double.round_second_sum,
      Double.div_def _ _ (by norm_num), Double.round_quotient]
  refine ⟨hread, htime, hval, ?_⟩
  rw [hval, Double.zero_def]
  intro h
  injection h with h
  injection h with h
  norm_num at h

end LagrangeDerivatives

namespace Double

/-- The product of two integers, when it stays below `2^53`, is computed exactly. -/
theorem mul_intCast (a b : ℤ) (h : |a * b| < 2 ^ 53) :
    (⟨some (a : ℚ)⟩ : Double) * ⟨some (b : ℚ)⟩ = ⟨some ((a * b : ℤ) : ℚ)⟩ := by
  rw [mul_def, ← Int.cast_mul, round_intCast _ h]

/-- The sum of two integers, when it stays below `2^53`, is computed exactly. -/
theorem add_intCast (a b : ℤ) (h : |a + b| < 2 ^ 53) :
    (⟨some (a : ℚ)⟩ : Double) + ⟨some (b : ℚ)⟩ = ⟨some ((a + b : ℤ) : ℚ)⟩ := by
  rw [add_def, ← Int.cast_add, round_intCast _ h]

/-- Accumulating integers whose partial sums stay below `2^53` is exact. -/
theorem sumLoop_intCast (a : Nat → ℤ) (f : Nat → Double) (n : Nat)
    (hf : ∀ j, j < n → f j = ⟨some (a j : ℚ)⟩)
    (hb : ∀ k, k ≤ n → |∑ j ∈ Finset.range k, a j| < 2 ^ 53) :
    MatView.sumLoop f n = ⟨some ((∑ j ∈ Finset.range n, a j : ℤ) : ℚ)⟩ := by
  cases n with
  | zero =>
    show (0 : Double) = _
    simp [zero_def]
  | succ n =>
    induction n with
    | zero =>
      show f 0 = _
      rw [hf 0 (by omega)]
      simp
    | succ n ih =>
      show MatView.sumLoop f (n + 1) + f (n + 1) = _
      rw [ih (fun j hj => hf j (by omega)) (fun k hk => hb k (by omega)),
        hf (n + 1) (by omega), Finset.sum_range_succ _ (n + 1)]
      exact add_intCast _ _ (by
        have := hb (n + 2) (le_refl _)
        rw [Finset.sum_range_succ] at this
        exact this)

end Double

namespace LagrangeDerivatives
open VariableGetter

/-- C4, amended. If all nodes of segment `i` hold the same vector, the first-derivative
estimate of `generate<1>` for that segment is zero at every node and every component in
exact arithmetic, for the differentiation matrix of a strictly increasing node set and a
positive duration. In binary64 it is zero at node `c` and component `r` when the common
value and the column `c` of the matrix are integers with zero sum whose products and
partial sums stay below `2^53` in absolute value, for a finite non-zero duration: every
operation is then exact. -/
theorem constant_segment_estimate {α : Type} [LinearOrderedField α] (d : Dims) (i : Nat)
    (hi : i < d.n_w) :
    (∀ (τ : Nat → α) (self : LagrangeDerivatives α) (x0 : Nat → α) (v : Nat → α),
      self.derivative_coefficients = lagrangeDerivativeCoefficients d.n_c τ →
      (∀ a b, a < b → b < d.n_c → τ a < τ b) →
      0 < (times d).read x0 0 i →
      (∀ r c, r < d.n_x + d.n_u → c < d.n_c → (varsAtWaypoint d i).read x0 r c = v r) →
      ∀ r c, r < d.n_x + d.n_u → c < d.n_c →
        (varsAtWaypoint d i).read ((generate d 1 self x0).get 1) r c = 0) ∧
    (∀ (self : LagrangeDerivatives Double) (x0 : Nat → Double) (v : ℤ) (Dz : Nat → ℤ)
        (t : ℚ) (r c : Nat), r < d.n_x + d.n_u → c < d.n_c →
      (∀ j, j < d.n_c → self.derivative_coefficients j c = ⟨some (Dz j : ℚ)⟩) →
      (∀ j, j < d.n_c → (varsAtWaypoint d i).read x0 r j = ⟨some (v : ℚ)⟩) →
      (times d).read x0 0 i = ⟨some t⟩ → t ≠ 0 →
      ∑ j ∈ Finset.range d.n_c, Dz j = 0 →
      (∀ j, j < d.n_c → |v * Dz j| < 2 ^ 53) →
      (∀ k, k ≤ d.n_c → |∑ j ∈ Finset.range k, v * Dz j| < 2 ^ 53) →
      (varsAtWaypoint d i).read ((generate d 1 self x0).get 1) r c = 0) := by
  constructor
  · intro τ self x0 v hD hτ ht hconst
    exact constant_segment_derivative_zero_exact d τ self x0 i v hD hτ hi ht hconst
  · intro self x0 v Dz t r c hr hc hD hconst ht ht0 hsum hprod hpart
    rw [generate_get_one_loop d self x0 1 i r c (le_refl _) hi hr hc, ht,
      Double.sumLoop_intCast (fun j => v * Dz j) _ d.n_c
        (fun j hj => by
          simp only []
          rw [hconst j hj, hD j hj]
          exact Double.mul_intCast v (Dz j) (hprod j hj))
        hpart,
      ← Finset.mul_sum, hsum, mul_zero, Double.div_def _ _ ht0]
    simp only [Int.cast_zero, zero_div]
    exact Double.round_zero

/-- C4, amended, in binary64 on one segment of three nodes `0, 1/2, 1` that all hold the
value `5`, with duration `2`: the products `-15, 20, -5` and their partial sums are exact,
and the estimate of the state at node 0 is zero. -/
theorem constant_segment_estimate_witness :
    (varsAtWaypoint exDims 0).read
        ((generate exDims 1 ⟨exHalfMatrix, fun _ _ => 0⟩ exFiveBuffer).get 1) 0 0 = 0 :=
  (@constant_segment_estimate ℚ _ exDims 0 (by decide)).2 ⟨exHalfMatrix, fun _ _ => 0⟩
    exFiveBuffer 5 (fun j => if j = 0 then -3 else if j = 1 then 4 else -1) 2 0 0
    (by decide) (by decide)
    (by
      intro j hj
      have hj3 : j < 3 := hj
      interval_cases j
      · show exHalfMatrix 0 0 = _
        rw [exHalfMatrix_entries.1.1]; simp
      · show exHalfMatrix 1 0 = _
        rw [exHalfMatrix_entries.1.2.1]; simp
      · show exHalfMatrix 2 0 = _
        rw [exHalfMatrix_entries.1.2.2]; simp)
    (by
      intro j hj
      have hj3 : j < 3 := hj
      have hne : (1 + 1) * 3 * 0 + (1 + 1) * j + 0 ≠ 6 := by omega
      simp only [MatView.read, varsAtWaypoint_idx, exDims, exFiveBuffer, if_neg hne])
    (by simp [MatView.read, times_idx, exDims, exFiveBuffer])
    (by norm_num)
    (by decide)
    (by
      intro j hj
      have hj3 : j < 3 := hj
      interval_cases j <;> decide)
    (by
      intro k hk
      have hk3 : k ≤ 3 := hk
      interval_cases k <;> decide)

end LagrangeDerivatives

namespace Double

/-- A tie above an odd integer goes up, to the even neighbour. -/
theorem roundHalfEven_of_tie_odd (x : ℚ) (f : ℤ) (hx : x = f + 1 / 2) (hf : f % 2 = 1) :
    roundHalfEven x = f + 1 := by
  have hfl : ⌊x⌋ = f := by
    rw [Int.floor_eq_iff]
    constructor <;> linarith
  unfold roundHalfEven
  rw [hfl, if_neg (by linarith), if_neg (by linarith), if_neg (by omega)]

/-- Rounding a positive `q` that lies half-way between two multiples of its unit, the
lower one being odd. -/
theorem round_eq_of_pos_tie_odd (q : ℚ) (e f : ℤ) (he : -1074 ≤ e)
    (h1 : (2 : ℚ) ^ (e + 52) ≤ q) (h2 : q < (2 : ℚ) ^ (e + 52 + 1))
    (hx : q / 2 ^ e = f + 1 / 2) (hf : f % 2 = 1)
    (hfin : ((f + 1 : ℤ) : ℚ) * 2 ^ e < 2 ^ (1024 : ℤ)) (hpos : (0 : ℚ) ≤ ((f + 1 : ℤ) : ℚ)) :
    round q = ⟨some (((f + 1 : ℤ) : ℚ) * 2 ^ e)⟩ := by
  have hq : 0 < q := lt_of_lt_of_le (by positivity) h1
  have he0 : (0 : ℚ) < 2 ^ e := by positivity
  have hu : ulpExponent q = e := by
    unfold ulpExponent
    rw [log_eq_of |q| (e + 52) (by rw [abs_of_pos hq]; exact h1)
      (by rw [abs_of_pos hq]; exact h2)]
    have : e + 52 - 52 = e := by ring
    rw [this]
    exact max_eq_left he
  have hm0 : (0 : ℚ) ≤ ((f + 1 : ℤ) : ℚ) * 2 ^ e := mul_nonneg hpos (le_of_lt he0)
  unfold round
  rw [hu, roundHalfEven_of_tie_odd _ f hx hf, if_pos (by rw [abs_of_nonneg hm0]; exact hfin)]

end Double

namespace MatView

end MatView

namespace LagrangeDerivatives
open VariableGetter

end LagrangeDerivatives

namespace Double

theorem round_tenth_mul_one : round (3602879701896397 / 36028797018963968 * 1)
    = ⟨some (3602879701896397 / 36028797018963968)⟩ := by
  rw [round_eq_of_pos _ (-56) 7205759403792794 (by norm_num) (by norm_num)
    (by norm_num) (by norm_num) (by norm_num) (by norm_num)]
  norm_num

theorem round_tenth_mul_neg_four : round (3602879701896397 / 36028797018963968 * -4)
    = ⟨some (-3602879701896397 / 9007199254740992)⟩ := by
  rw [round_eq_of_neg _ (-54) (-7205759403792794) (by norm_num) (by norm_num)
    (by norm_num) (by norm_num) (by norm_num) (by norm_num)]
  norm_num

/-- `0.1 * 3`: a tie, rounded up to `0.30000000000000004`. -/
theorem round_tenth_mul_three : round (3602879701896397 / 36028797018963968 * 3)
    = ⟨some (1351079888211149 / 4503599627370496)⟩ := by
  rw [round_eq_of_pos_tie_odd _ (-54) 5404319552844595 (by norm_num) (by norm_num)
    (by norm_num) (by norm_num) (by norm_num) (by norm_num) (by norm_num)]
  norm_num

theorem round_inner_sum : round (-3602879701896397 / 9007199254740992
      + 1351079888211149 / 4503599627370496)
    = ⟨some (-900719925474099 / 9007199254740992)⟩ := by
  rw [round_eq_of_neg _ (-56) (-7205759403792792) (by norm_num) (by norm_num)
    (by norm_num) (by norm_num) (by norm_num) (by norm_num)]
  norm_num

theorem round_outer_sum : round (3602879701896397 / 36028797018963968
      + -900719925474099 / 9007199254740992)
    = ⟨some (1 / 36028797018963968)⟩ := by
  rw [round_eq_of_pos _ (-107) 4503599627370496 (by norm_num) (by norm_num)
    (by norm_num) (by norm_num) (by norm_num) (by norm_num)]
  norm_num

/-- The other accumulation order on the constant value `0.1`: with the coefficients
`1, -4, 3` of node 2 of the nodes `0, 1/2, 1`, adding the last two products first leaves
`2^-55`, so a reduction that pairs the terms also yields a non-zero estimate, at node 2
instead of node 0. -/
theorem constant_value_paired_sum :
    round (1 / 10) * ⟨some 1⟩ + (round (1 / 10) * ⟨some (-4)⟩ + round (1 / 10) * ⟨some 3⟩)
      = ⟨some (1 / 36028797018963968)⟩ := by
  rw [round_lit_01, mul_def, mul_def, mul_def, round_tenth_mul_one,
    round_tenth_mul_neg_four, round_tenth_mul_three, add_def, round_inner_sum, add_def,
    round_outer_sum]

end Double
end TrajOpt
